import Mathlib

/-!
# sjtu::linked_hashmap

A shallow embedding of `src/linked_hashmap.hpp`: a hash map whose entries are
also threaded on a doubly linked list that fixes the iteration order.

Pointers are natural-number addresses into an explicit heap; `nullptr` is
`none`.  Every `hashnode` allocated with `new` lives in the heap, at an address
that was never handed out before, so that a pointer to a deleted node dangles for
good.  The bucket array `map` (an array of `hashnode` of which only the `hnext`
field is ever used, and into which no iterator can point) is kept as the list of
those `hnext` fields.  `size_t` values are natural numbers (a capacity of `2^63`
buckets cannot be allocated), and the test `sizee >= capacity*loadfactor` with
`loadfactor == 0.75` is the exact integer test `3*capacity ≤ 4*sizee`.

A call returns `Except.ok` with its result and the heap and members it leaves, or
`Except.error`.  The loops that follow pointers take fuel: one step more than there
are addresses handed out, which a walk that comes to an end never exceeds; the
theorems show that on the states a program reaches the fuel is never used up.
-/

namespace sjtu

/-- Ways in which a call does not return normally: the two exceptions of
`exceptions.hpp` that this file throws, undefined behaviour of C++ (a null or
dangling pointer is dereferenced, an array is indexed out of bounds, a division
by zero), and a pointer walk that never ends. -/
inductive Error where
  | index_out_of_bound
  | invalid_iterator
  | undefined_behaviour
  | out_of_fuel
  deriving DecidableEq, Repr

/-- The struct `hashnode`: order-list links `next`/`pre`, bucket-chain link
`hnext`, and the owned entry `data` (null for the sentinels). -/
structure hashnode (K V : Type) where
  next : Option Nat
  pre : Option Nat
  hnext : Option Nat
  data : Option (K × V)

/-- The free store: the cell at each address, and the next address `new` hands out. -/
structure Heap (K V : Type) where
  cells : Nat → Option (hashnode K V)
  brk : Nat

/-- The data members of `linked_hashmap` (`loadfactor` is the constant 0.75). -/
structure linked_hashmap where
  sizee : Nat
  capacity : Nat
  head : Nat
  tail : Nat
  map : List (Option Nat)
  deriving DecidableEq, Repr

section model

variable {K V : Type}

/-- A heap in which nothing has been allocated. -/
def Heap.empty : Heap K V :=
  { cells := fun _ => none, brk := 0 }

/-- Overwrite the cell at address `a`. -/
def Heap.store (h : Heap K V) (a : Nat) (n : hashnode K V) : Heap K V :=
  { cells := fun x => if x = a then some n else h.cells x, brk := h.brk }

/-- The expression `new hashnode(...)`: the node is placed at a fresh address. -/
def Heap.alloc (h : Heap K V) (n : hashnode K V) : Heap K V × Nat :=
  ({ cells := fun x => if x = h.brk then some n else h.cells x, brk := h.brk + 1 }, h.brk)

/-- The statement `delete p`. -/
def Heap.free (h : Heap K V) (a : Nat) : Heap K V :=
  { cells := fun x => if x = a then none else h.cells x, brk := h.brk }

/-- Read the node a pointer designates. -/
def Heap.read (h : Heap K V) (p : Option Nat) : Except Error (hashnode K V) :=
  match p with
  | none => .error .undefined_behaviour
  | some a =>
    match h.cells a with
    | none => .error .undefined_behaviour
    | some n => .ok n

/-- The assignment `p->next = v`. -/
def Heap.set_next (h : Heap K V) (p : Option Nat) (v : Option Nat) : Except Error (Heap K V) :=
  match p with
  | none => .error .undefined_behaviour
  | some a =>
    match h.cells a with
    | none => .error .undefined_behaviour
    | some n => .ok (h.store a { n with next := v })

/-- The assignment `p->pre = v`. -/
def Heap.set_pre (h : Heap K V) (p : Option Nat) (v : Option Nat) : Except Error (Heap K V) :=
  match p with
  | none => .error .undefined_behaviour
  | some a =>
    match h.cells a with
    | none => .error .undefined_behaviour
    | some n => .ok (h.store a { n with pre := v })

/-- The assignment `p->hnext = v`. -/
def Heap.set_hnext (h : Heap K V) (p : Option Nat) (v : Option Nat) : Except Error (Heap K V) :=
  match p with
  | none => .error .undefined_behaviour
  | some a =>
    match h.cells a with
    | none => .error .undefined_behaviour
    | some n => .ok (h.store a { n with hnext := v })

/-- The assignment `p->data->second = v` through a reference to a mapped value. -/
def Heap.set_second (h : Heap K V) (p : Nat) (v : V) : Except Error (Heap K V) :=
  match h.cells p with
  | none => .error .undefined_behaviour
  | some n =>
    match n.data with
    | none => .error .undefined_behaviour
    | some (k, _) => .ok (h.store p { n with data := some (k, v) })

/-- The expression `*p->data`. -/
def Heap.entry (h : Heap K V) (p : Option Nat) : Except Error (K × V) :=
  match h.read p with
  | .error e => .error e
  | .ok n =>
    match n.data with
    | none => .error .undefined_behaviour
    | some e => .ok e

/-- A cursor (`iterator` and `const_iterator` alike) is its `position`. -/
abbrev iterator := Nat

/-- Both `operator++` of both cursor classes; the result is the new position. -/
def iterator.incr (h : Heap K V) (it : iterator) : Except Error iterator :=
  match h.read (some it) with
  | .error e => .error e
  | .ok n =>
    match n.next with
    | none => .error .invalid_iterator
    | some q => .ok q

/-- Both `operator--` of both cursor classes; the result is the new position. -/
def iterator.decr (h : Heap K V) (it : iterator) : Except Error iterator :=
  match h.read (some it) with
  | .error e => .error e
  | .ok n =>
    match h.read n.pre with
    | .error e => .error e
    | .ok n1 =>
      match n1.pre with
      | none => .error .invalid_iterator
      | some _ =>
        match n.pre with
        | none => .error .undefined_behaviour
        | some q => .ok q

/-- The cursor's `operator*`. -/
def iterator.deref (h : Heap K V) (it : iterator) : Except Error (K × V) :=
  h.entry (some it)

/-- The prefix `operator++` together with the cursor it works on: the position of the
cursor after the call and the position of the cursor returned.  An exception leaves
the cursor at the position it has when it is thrown. -/
def iterator.pre_incr (h : Heap K V) (it : iterator) :
    Except (Error × iterator) (iterator × iterator) :=
  match h.read (some it) with
  | .error e => .error (e, it)
  | .ok n =>
    match n.next with
    | none => .error (.invalid_iterator, it)
    | some q => .ok (q, q)

/-- The postfix `operator++(int)`, which returns a copy of the cursor made before the move. -/
def iterator.post_incr (h : Heap K V) (it : iterator) :
    Except (Error × iterator) (iterator × iterator) :=
  match h.read (some it) with
  | .error e => .error (e, it)
  | .ok n =>
    match n.next with
    | none => .error (.invalid_iterator, it)
    | some q => .ok (q, it)

/-- The prefix `operator--` together with the cursor it works on. -/
def iterator.pre_decr (h : Heap K V) (it : iterator) :
    Except (Error × iterator) (iterator × iterator) :=
  match h.read (some it) with
  | .error e => .error (e, it)
  | .ok n =>
    match h.read n.pre with
    | .error e => .error (e, it)
    | .ok n1 =>
      match n1.pre with
      | none => .error (.invalid_iterator, it)
      | some _ =>
        match n.pre with
        | none => .error (.undefined_behaviour, it)
        | some q => .ok (q, q)

/-- The postfix `operator--(int)`, which returns a copy of the cursor made before the move. -/
def iterator.post_decr (h : Heap K V) (it : iterator) :
    Except (Error × iterator) (iterator × iterator) :=
  match h.read (some it) with
  | .error e => .error (e, it)
  | .ok n =>
    match h.read n.pre with
    | .error e => .error (e, it)
    | .ok n1 =>
      match n1.pre with
      | none => .error (.invalid_iterator, it)
      | some _ =>
        match n.pre with
        | none => .error (.undefined_behaviour, it)
        | some q => .ok (q, it)

namespace linked_hashmap

/-- The default constructor `linked_hashmap()`. -/
def construct (h : Heap K V) : Heap K V × linked_hashmap :=
  let map := List.replicate 10 (none : Option Nat)
  let (h1, head) := h.alloc { next := none, pre := none, hnext := none, data := none }
  let (h2, tail) := h1.alloc { next := none, pre := none, hnext := none, data := none }
  let h3 := h2.store tail { next := none, pre := some head, hnext := none, data := none }
  let h4 := h3.store head { next := some tail, pre := none, hnext := none, data := none }
  (h4, { sizee := 0, capacity := 10, head := head, tail := tail, map := map })

/-- The index `hash(key) % capacity`. -/
def bucket (hash : K → Nat) (capacity : Nat) (key : K) : Except Error Nat :=
  if capacity = 0 then .error .undefined_behaviour else .ok (hash key % capacity)

/-- The expression `map[pos].hnext`. -/
def bucket_head (map : List (Option Nat)) (pos : Nat) : Except Error (Option Nat) :=
  match map[pos]? with
  | none => .error .undefined_behaviour
  | some p => .ok p

/-- The loop `for (p = ...; p != nullptr; p = p->hnext) if (equal(p->data->first, key)) return ...`
shared by `at`, `operator[]`, `insert`, `count` and `find`: the first node of the
chain whose key is equal to `key`, with its entry. -/
def scan (equal : K → K → Bool) (h : Heap K V) (key : K) :
    Nat → Option Nat → Except Error (Option (Nat × (K × V)))
  | _, none => .ok none
  | 0, some _ => .error .out_of_fuel
  | fuel + 1, some p =>
    match h.read (some p) with
    | .error e => .error e
    | .ok n =>
      match n.data with
      | none => .error .undefined_behaviour
      | some (k, v) => if equal k key then .ok (some (p, (k, v))) else scan equal h key fuel n.hnext

/-- The scan of the chain of bucket `hash(key) % capacity`.  A walk along a chain
that takes more steps than there are addresses never ends. -/
def lookup (hash : K → Nat) (equal : K → K → Bool) (h : Heap K V) (m : linked_hashmap) (key : K) :
    Except Error (Option (Nat × (K × V))) :=
  match bucket hash m.capacity key with
  | .error e => .error e
  | .ok pos =>
    match bucket_head m.map pos with
    | .error e => .error e
    | .ok p => scan equal h key (h.brk + 1) p

/-- Both overloads of `at`: a reference to the mapped value (the node holding it)
and the value it refers to. -/
def at_ (hash : K → Nat) (equal : K → K → Bool) (h : Heap K V) (m : linked_hashmap) (key : K) :
    Except Error (Nat × V) :=
  match lookup hash equal h m key with
  | .error e => .error e
  | .ok none => .error .index_out_of_bound
  | .ok (some (p, (_, v))) => .ok (p, v)

/-- The read-only `operator[]`. -/
def subscript_const (hash : K → Nat) (equal : K → K → Bool) (h : Heap K V) (m : linked_hashmap)
    (key : K) : Except Error (Nat × V) :=
  match lookup hash equal h m key with
  | .error e => .error e
  | .ok none => .error .index_out_of_bound
  | .ok (some (p, (_, v))) => .ok (p, v)

/-- The member `count`. -/
def count (hash : K → Nat) (equal : K → K → Bool) (h : Heap K V) (m : linked_hashmap) (key : K) :
    Except Error Nat :=
  match lookup hash equal h m key with
  | .error e => .error e
  | .ok none => .ok 0
  | .ok (some _) => .ok 1

/-- The member `end` (and `cend`). -/
def end_ (m : linked_hashmap) : iterator := m.tail

/-- The member `begin` (and `cbegin`); a null `head->next` gives no usable cursor. -/
def begin (h : Heap K V) (m : linked_hashmap) : Except Error iterator :=
  match h.read (some m.head) with
  | .error e => .error e
  | .ok n =>
    match n.next with
    | none => .error .undefined_behaviour
    | some p => .ok p

/-- Both overloads of `find`. -/
def find (hash : K → Nat) (equal : K → K → Bool) (h : Heap K V) (m : linked_hashmap) (key : K) :
    Except Error iterator :=
  match lookup hash equal h m key with
  | .error e => .error e
  | .ok none => .ok (end_ m)
  | .ok (some (p, _)) => .ok p

/-- The member `empty`. -/
def empty (m : linked_hashmap) : Bool := m.sizee == 0

/-- The member `size`. -/
def size (m : linked_hashmap) : Nat := m.sizee

/-- The statements
`map[pos].hnext = new hashnode(value, map[pos].hnext, tail->pre, tail);
tail->pre->next = map[pos].hnext; tail->pre = map[pos].hnext;`
of `insert`, `operator[]`, the copy constructor and `operator=`. -/
def link_new (hash : K → Nat) (h : Heap K V) (capacity tail : Nat) (map : List (Option Nat))
    (value : K × V) : Except Error (Heap K V × List (Option Nat) × Nat) :=
  match bucket hash capacity value.1 with
  | .error e => .error e
  | .ok pos =>
    match bucket_head map pos with
    | .error e => .error e
    | .ok old =>
      match h.read (some tail) with
      | .error e => .error e
      | .ok t =>
        let (h1, p) := h.alloc { next := some tail, pre := t.pre, hnext := old, data := some value }
        let map1 := map.set pos (some p)
        match h1.read (some tail) with
        | .error e => .error e
        | .ok t1 =>
          match h1.set_next t1.pre (some p) with
          | .error e => .error e
          | .ok h2 =>
            match h2.set_pre (some tail) (some p) with
            | .error e => .error e
            | .ok h3 => .ok (h3, map1, p)

/-- The loop of `doublespace` over the order list. -/
def doublespace_loop (hash : K → Nat) (capacity tail : Nat) :
    Nat → Heap K V → List (Option Nat) → Option Nat → Except Error (Heap K V × List (Option Nat))
  | 0, _, _, _ => .error .out_of_fuel
  | fuel + 1, h, New, p =>
    if p = some tail then .ok (h, New) else
    match h.entry p with
    | .error e => .error e
    | .ok (k, _) =>
      match bucket hash capacity k with
      | .error e => .error e
      | .ok pos =>
        match bucket_head New pos with
        | .error e => .error e
        | .ok old =>
          match h.set_hnext p old with
          | .error e => .error e
          | .ok h1 =>
            match h1.read p with
            | .error e => .error e
            | .ok n => doublespace_loop hash capacity tail fuel h1 (New.set pos p) n.next

/-- The member `doublespace`. -/
def doublespace (hash : K → Nat) (h : Heap K V) (m : linked_hashmap) :
    Except Error (Heap K V × linked_hashmap) :=
  let capacity := m.capacity * 2
  let New := List.replicate capacity (none : Option Nat)
  match h.read (some m.head) with
  | .error e => .error e
  | .ok hd =>
    match doublespace_loop hash capacity m.tail (h.brk + 1) h New hd.next with
    | .error e => .error e
    | .ok (h1, New1) => .ok (h1, { m with capacity := capacity, map := New1 })

/-- The statements of `insert` and `operator[]` after the scan found nothing:
`if (sizee >= capacity*loadfactor) doublespace();`, the linking of the new node, `sizee++`. -/
def insert_new (hash : K → Nat) (h : Heap K V) (m : linked_hashmap) (value : K × V) :
    Except Error (Heap K V × linked_hashmap × Nat) :=
  match (if 3 * m.capacity ≤ 4 * m.sizee then doublespace hash h m else .ok (h, m)) with
  | .error e => .error e
  | .ok (h1, m1) =>
    match link_new hash h1 m1.capacity m1.tail m1.map value with
    | .error e => .error e
    | .ok (h2, map2, p) => .ok (h2, { m1 with map := map2, sizee := m1.sizee + 1 }, p)

/-- The member `insert`. -/
def insert (hash : K → Nat) (equal : K → K → Bool) (h : Heap K V) (m : linked_hashmap)
    (value : K × V) : Except Error (Heap K V × linked_hashmap × (iterator × Bool)) :=
  match lookup hash equal h m value.1 with
  | .error e => .error e
  | .ok (some (p, _)) => .ok (h, m, (p, false))
  | .ok none =>
    match insert_new hash h m value with
    | .error e => .error e
    | .ok (h1, m1, p) => .ok (h1, m1, (p, true))

/-- The mutable `operator[]`: a reference to the mapped value and the value it refers to. -/
def subscript [Inhabited V] (hash : K → Nat) (equal : K → K → Bool) (h : Heap K V)
    (m : linked_hashmap) (key : K) : Except Error (Heap K V × linked_hashmap × (Nat × V)) :=
  match lookup hash equal h m key with
  | .error e => .error e
  | .ok (some (p, (_, v))) => .ok (h, m, (p, v))
  | .ok none =>
    match insert_new hash h m (key, (default : V)) with
    | .error e => .error e
    | .ok (h1, m1, p) =>
      match h1.entry (some p) with
      | .error e => .error e
      | .ok (_, v) => .ok (h1, m1, (p, v))

/-- The loop of `erase`; `t` is `none` while it is the bucket sentinel `map+poss`.
An exception leaves the heap and the members as they are when it is thrown. -/
def erase_loop (pos : iterator) (poss : Nat) (m : linked_hashmap) :
    Nat → Heap K V → Option Nat → Option Nat →
      Except (Error × Heap K V × linked_hashmap) (Heap K V × linked_hashmap)
  | _, h, _, none => .error (.index_out_of_bound, h, m)
  | 0, h, _, some _ => .error (.out_of_fuel, h, m)
  | fuel + 1, h, t, some p =>
    if p = pos then
      match h.read (some p) with
      | .error e => .error (e, h, m)
      | .ok n =>
        match h.set_pre n.next n.pre with
        | .error e => .error (e, h, m)
        | .ok h1 =>
          match h1.read (some p) with
          | .error e => .error (e, h1, m)
          | .ok n1 =>
            match h1.set_next n1.pre n1.next with
            | .error e => .error (e, h1, m)
            | .ok h2 =>
              match h2.read (some p) with
              | .error e => .error (e, h2, m)
              | .ok n2 =>
                match t with
                | none =>
                  if poss < m.map.length then
                    .ok (h2.free p, { m with map := m.map.set poss n2.hnext, sizee := m.sizee - 1 })
                  else .error (.undefined_behaviour, h2, m)
                | some a =>
                  match h2.set_hnext (some a) n2.hnext with
                  | .error e => .error (e, h2, m)
                  | .ok h3 => .ok (h3.free p, { m with sizee := m.sizee - 1 })
    else
      match h.read (some p) with
      | .error e => .error (e, h, m)
      | .ok n => erase_loop pos poss m fuel h (some p) n.hnext

/-- The member `erase`.  An exception leaves the heap and the members as they are
when it is thrown. -/
def erase (hash : K → Nat) (h : Heap K V) (m : linked_hashmap) (pos : iterator) :
    Except (Error × Heap K V × linked_hashmap) (Heap K V × linked_hashmap) :=
  match h.read (some pos) with
  | .error e => .error (e, h, m)
  | .ok n =>
    match n.data with
    | none => .error (.index_out_of_bound, h, m)
    | some (k, _) =>
      match bucket hash m.capacity k with
      | .error e => .error (e, h, m)
      | .ok poss =>
        match bucket_head m.map poss with
        | .error e => .error (e, h, m)
        | .ok p => erase_loop pos poss m (h.brk + 1) h none p

/-- The first loop of `clear`, which deletes the nodes of the order list. -/
def clear_loop (tail : Nat) : Nat → Heap K V → Option Nat → Except Error (Heap K V)
  | 0, _, _ => .error .out_of_fuel
  | fuel + 1, h, p =>
    if p = some tail then .ok h else
    match p with
    | none => .error .undefined_behaviour
    | some a =>
      match h.read (some a) with
      | .error e => .error e
      | .ok n => clear_loop tail fuel (h.free a) n.next

/-- The second loop of `clear`: `for (i = 0; i < capacity; i++) map[i].hnext = nullptr`. -/
def clear_buckets (capacity : Nat) (map : List (Option Nat)) : Except Error (List (Option Nat)) :=
  if capacity ≤ map.length then .ok (List.replicate capacity none ++ map.drop capacity)
  else .error .undefined_behaviour

/-- The member `clear`. -/
def clear (h : Heap K V) (m : linked_hashmap) : Except Error (Heap K V × linked_hashmap) :=
  match h.read (some m.head) with
  | .error e => .error e
  | .ok hd =>
    match clear_loop m.tail (h.brk + 1) h hd.next with
    | .error e => .error e
    | .ok h1 =>
      match h1.set_next (some m.head) (some m.tail) with
      | .error e => .error e
      | .ok h2 =>
        match h2.set_pre (some m.tail) (some m.head) with
        | .error e => .error e
        | .ok h3 =>
          match clear_buckets m.capacity m.map with
          | .error e => .error e
          | .ok map1 => .ok (h3, { m with sizee := 0, map := map1 })

/-- The loop `while (capacity*loadfactor <= sizee) capacity = capacity << 1`. -/
def grow_capacity (sizee : Nat) : Nat → Nat → Except Error Nat
  | 0, _ => .error .out_of_fuel
  | fuel + 1, capacity =>
    if 3 * capacity ≤ 4 * sizee then grow_capacity sizee fuel (capacity * 2) else .ok capacity

/-- The loop over `other`'s order list in the copy constructor and in `operator=`. -/
def copy_loop (hash : K → Nat) (otail capacity tail : Nat) :
    Nat → Heap K V → List (Option Nat) → Option Nat → Except Error (Heap K V × List (Option Nat))
  | 0, _, _, _ => .error .out_of_fuel
  | fuel + 1, h, map, p =>
    if p = some otail then .ok (h, map) else
    match h.entry p with
    | .error e => .error e
    | .ok value =>
      match link_new hash h capacity tail map value with
      | .error e => .error e
      | .ok (h1, map1, _) =>
        match h1.read p with
        | .error e => .error e
        | .ok n => copy_loop hash otail capacity tail fuel h1 map1 n.next

/-- The copy constructor `linked_hashmap(const linked_hashmap &other)`. -/
def copy_construct (hash : K → Nat) (h : Heap K V) (other : linked_hashmap) :
    Except Error (Heap K V × linked_hashmap) :=
  let (h1, head) := h.alloc { next := none, pre := none, hnext := none, data := none }
  let (h2, tail) := h1.alloc { next := none, pre := none, hnext := none, data := none }
  let h3 := h2.store tail { next := none, pre := some head, hnext := none, data := none }
  let h4 := h3.store head { next := some tail, pre := none, hnext := none, data := none }
  match grow_capacity other.sizee (other.sizee + 1) 10 with
  | .error e => .error e
  | .ok capacity =>
    match h4.read (some other.head) with
    | .error e => .error e
    | .ok ohd =>
      match copy_loop hash other.tail capacity tail (h4.brk + 1) h4
          (List.replicate capacity none) ohd.next with
      | .error e => .error e
      | .ok (h5, map) =>
        .ok (h5, { sizee := other.sizee, capacity := capacity, head := head, tail := tail,
                   map := map })

/-- The member `operator=`; `same` is the outcome of the test `&other == this`. -/
def assign (hash : K → Nat) (h : Heap K V) (m other : linked_hashmap) (same : Bool) :
    Except Error (Heap K V × linked_hashmap) :=
  if same then .ok (h, m) else
  match clear h m with
  | .error e => .error e
  | .ok (h1, m1) =>
    if other.sizee = 0 then .ok (h1, m1) else
    match h1.set_pre (some m1.tail) (some m1.head) with
    | .error e => .error e
    | .ok h2 =>
      match h2.set_next (some m1.head) (some m1.tail) with
      | .error e => .error e
      | .ok h3 =>
        match grow_capacity other.sizee (other.sizee + 1) 10 with
        | .error e => .error e
        | .ok capacity =>
          match h3.read (some other.head) with
          | .error e => .error e
          | .ok ohd =>
            match copy_loop hash other.tail capacity m1.tail (h3.brk + 1) h3
                (List.replicate capacity none) ohd.next with
            | .error e => .error e
            | .ok (h4, map) =>
              .ok (h4, { m1 with sizee := other.sizee, capacity := capacity, map := map })

/-- The walk `for (it = begin(); it != end(); ++it)` collecting each cursor with `*it`. -/
def walk (h : Heap K V) (tail : Nat) : Nat → iterator → Except Error (List (Nat × (K × V)))
  | 0, _ => .error .out_of_fuel
  | fuel + 1, it =>
    if it = tail then .ok [] else
    match iterator.deref h it with
    | .error e => .error e
    | .ok e =>
      match iterator.incr h it with
      | .error e => .error e
      | .ok it1 =>
        match walk h tail fuel it1 with
        | .error e => .error e
        | .ok rest => .ok ((it, e) :: rest)

/-- The iteration sequence of a map: the cursors from `begin()` up to `end()`, each
with the entry it designates. -/
def to_list (h : Heap K V) (m : linked_hashmap) : Except Error (List (Nat × (K × V))) :=
  match begin h m with
  | .error e => .error e
  | .ok b => walk h (end_ m) (h.brk + 1) b

/-- The walk `for (it = end(); it != begin(); ) { --it; ... *it ... }` collecting each
cursor with `*it`. -/
def walk_back (h : Heap K V) (first : iterator) :
    Nat → iterator → Except Error (List (Nat × (K × V)))
  | 0, _ => .error .out_of_fuel
  | fuel + 1, it =>
    if it = first then .ok [] else
    match iterator.decr h it with
    | .error e => .error e
    | .ok it1 =>
      match iterator.deref h it1 with
      | .error e => .error e
      | .ok e =>
        match walk_back h first fuel it1 with
        | .error e => .error e
        | .ok rest => .ok ((it1, e) :: rest)

/-- The iteration sequence of a map walked backwards from `end()` down to `begin()`. -/
def to_list_back (h : Heap K V) (m : linked_hashmap) : Except Error (List (Nat × (K × V))) :=
  match begin h m with
  | .error e => .error e
  | .ok b => walk_back h b (h.brk + 1) (end_ m)

/-- The nodes of a bucket chain: the walk `for (p = ...; p != nullptr; p = p->hnext)`. -/
def chain (h : Heap K V) : Nat → Option Nat → Except Error (List Nat)
  | _, none => .ok []
  | 0, some _ => .error .out_of_fuel
  | fuel + 1, some p =>
    match h.read (some p) with
    | .error e => .error e
    | .ok n =>
      match chain h fuel n.hnext with
      | .error e => .error e
      | .ok rest => .ok (p :: rest)

/-- The nodes of the chain of bucket `b`, from `map[b].hnext` on. -/
def bucket_chain (h : Heap K V) (m : linked_hashmap) (b : Nat) : Except Error (List Nat) :=
  match bucket_head m.map b with
  | .error e => .error e
  | .ok p => chain h (h.brk + 1) p

end linked_hashmap

/-! ## The abstract view of a map

The order list of a well-formed map is described by the list of its live nodes in
order, each given as the node's address with the entry it holds. -/

/-- The address `head->next` must hold when the live nodes after `head` are `l`. -/
def first_addr (l : List (Nat × (K × V))) (tail : Nat) : Nat :=
  match l with
  | [] => tail
  | e :: _ => e.1

/-- The address `tail->pre` must hold when the live nodes before `tail` are `l`. -/
def last_addr (l : List (Nat × (K × V))) (head : Nat) : Nat :=
  match l.getLast? with
  | none => head
  | some e => e.1

/-- The first node of the chain of bucket `b` when the nodes `l` were linked in this
order: every node is linked at the front of its chain, so it is the last one of `l`
that falls into bucket `b`. -/
def chain_head (hash : K → Nat) (capacity b : Nat) (l : List (Nat × (K × V))) : Option Nat :=
  (l.reverse.find? (fun e => hash e.2.1 % capacity == b)).map Prod.fst

/-- What the chain scan finds: the last node of `l` in the bucket of `key` whose key
is equal to `key`. -/
def spec_lookup (hash : K → Nat) (equal : K → K → Bool) (capacity : Nat)
    (l : List (Nat × (K × V))) (key : K) : Option (Nat × (K × V)) :=
  l.reverse.find? (fun e => hash e.2.1 % capacity == hash key % capacity && equal e.2.1 key)

/-- The addresses a map owns: its two sentinels and its live nodes. -/
def footprint (m : linked_hashmap) (l : List (Nat × (K × V))) : List Nat :=
  m.head :: m.tail :: l.map Prod.fst

/-- The order list between `head` and `tail` holds exactly the nodes `l`, and the
`hnext` field of each node is what `hn` prescribes from the nodes before it. -/
structure Order (h : Heap K V) (head tail : Nat) (l : List (Nat × (K × V)))
    (hn : List (Nat × (K × V)) → Nat × (K × V) → Option Nat) : Prop where
  nodup : (head :: tail :: l.map Prod.fst).Nodup
  bound : ∀ a ∈ head :: tail :: l.map Prod.fst, a < h.brk
  head_cell : h.cells head =
    some { next := some (first_addr l tail), pre := none, hnext := none, data := none }
  tail_cell : h.cells tail =
    some { next := none, pre := some (last_addr l head), hnext := none, data := none }
  cells : ∀ pre e post, l = pre ++ e :: post → h.cells e.1 =
    some { next := some (first_addr post tail), pre := some (last_addr pre head),
           hnext := hn pre e, data := some e.2 }

/-- The representation invariant: the heap and the members of `m` hold the order
list `l` together with the bucket chains that index it. -/
structure Rep (hash : K → Nat) (h : Heap K V) (m : linked_hashmap)
    (l : List (Nat × (K × V))) : Prop where
  cap_pos : 0 < m.capacity
  size_eq : m.sizee = l.length
  map_len : m.map.length = m.capacity
  order : Order h m.head m.tail l
    (fun pre e => chain_head hash m.capacity (hash e.2.1 % m.capacity) pre)
  buckets : ∀ b, b < m.capacity → m.map[b]? = some (chain_head hash m.capacity b l)

/-- No node of the order list has a key equal to the key of a later node. -/
def Distinct (equal : K → K → Bool) (l : List (Nat × (K × V))) : Prop :=
  l.Pairwise (fun a b => equal a.2.1 b.2.1 = false)

/-- The node whose `hnext` designates a node of bucket `b` that is followed by the
nodes `post`: the first node of `post` in bucket `b` (`none`: the bucket sentinel). -/
def chain_pred (hash : K → Nat) (capacity b : Nat) (post : List (Nat × (K × V))) : Option Nat :=
  (post.find? (fun e => hash e.2.1 % capacity == b)).map Prod.fst

/-! ## Programs

A program owns a free store and some map objects in it, and works on them through
the members of the class.  (No map is destroyed.) -/

/-- The free store and the map objects that live in it. -/
structure World (K V : Type) where
  heap : Heap K V
  maps : List linked_hashmap

/-- The states a program reaches from nothing by calls that return normally: the two
constructors, `operator=`, `insert`, the mutable `operator[]`, `erase`, `clear`,
`doublespace`, and an assignment through the reference `at` returns. -/
inductive Reachable [Inhabited V] (hash : K → Nat) (equal : K → K → Bool) : World K V → Prop
  | start : Reachable hash equal ⟨Heap.empty, []⟩
  | construct {w : World K V} :
      Reachable hash equal w →
      Reachable hash equal
        ⟨(linked_hashmap.construct w.heap).1, w.maps ++ [(linked_hashmap.construct w.heap).2]⟩
  | copy_construct {w : World K V} {j : Nat} {other M : linked_hashmap} {H : Heap K V} :
      Reachable hash equal w → w.maps[j]? = some other →
      linked_hashmap.copy_construct hash w.heap other = .ok (H, M) →
      Reachable hash equal ⟨H, w.maps ++ [M]⟩
  | assign {w : World K V} {i j : Nat} {m other M : linked_hashmap} {H : Heap K V} :
      Reachable hash equal w → w.maps[i]? = some m → w.maps[j]? = some other →
      linked_hashmap.assign hash w.heap m other (decide (i = j)) = .ok (H, M) →
      Reachable hash equal ⟨H, w.maps.set i M⟩
  | insert {w : World K V} {i : Nat} {m M : linked_hashmap} {H : Heap K V} {value : K × V}
      {res : iterator × Bool} :
      Reachable hash equal w → w.maps[i]? = some m →
      linked_hashmap.insert hash equal w.heap m value = .ok (H, M, res) →
      Reachable hash equal ⟨H, w.maps.set i M⟩
  | subscript {w : World K V} {i : Nat} {m M : linked_hashmap} {H : Heap K V} {key : K}
      {res : Nat × V} :
      Reachable hash equal w → w.maps[i]? = some m →
      linked_hashmap.subscript hash equal w.heap m key = .ok (H, M, res) →
      Reachable hash equal ⟨H, w.maps.set i M⟩
  | erase {w : World K V} {i : Nat} {m M : linked_hashmap} {H : Heap K V} {pos : iterator} :
      Reachable hash equal w → w.maps[i]? = some m →
      linked_hashmap.erase hash w.heap m pos = .ok (H, M) →
      Reachable hash equal ⟨H, w.maps.set i M⟩
  | clear {w : World K V} {i : Nat} {m M : linked_hashmap} {H : Heap K V} :
      Reachable hash equal w → w.maps[i]? = some m →
      linked_hashmap.clear w.heap m = .ok (H, M) →
      Reachable hash equal ⟨H, w.maps.set i M⟩
  | doublespace {w : World K V} {i : Nat} {m M : linked_hashmap} {H : Heap K V} :
      Reachable hash equal w → w.maps[i]? = some m →
      linked_hashmap.doublespace hash w.heap m = .ok (H, M) →
      Reachable hash equal ⟨H, w.maps.set i M⟩
  | write {w : World K V} {i : Nat} {m : linked_hashmap} {H : Heap K V} {key : K}
      {ref : Nat × V} {v : V} :
      Reachable hash equal w → w.maps[i]? = some m →
      linked_hashmap.at_ hash equal w.heap m key = .ok ref →
      w.heap.set_second ref.1 v = .ok H →
      Reachable hash equal ⟨H, w.maps⟩

/-- What holds of every reachable state: each map represents a list of nodes, no two
maps share an address, the load stays within one entry of the threshold, and (when
equal keys hash equally) no map holds two equal keys. -/
structure WInv (hash : K → Nat) (equal : K → K → Bool) (w : World K V) : Prop where
  rep : ∀ (i : Nat) (m : linked_hashmap), w.maps[i]? = some m →
    ∃ l : List (Nat × (K × V)), Rep hash w.heap m l
  disj : ∀ (i j : Nat) (mi mj : linked_hashmap) (li lj : List (Nat × (K × V))), i ≠ j →
    w.maps[i]? = some mi → w.maps[j]? = some mj → Rep hash w.heap mi li →
    Rep hash w.heap mj lj → (footprint mi li).Disjoint (footprint mj lj)
  load : ∀ (i : Nat) (m : linked_hashmap), w.maps[i]? = some m →
    10 ≤ m.capacity ∧ 4 * m.sizee < 3 * m.capacity + 4
  distinct : (∀ a b, equal a b = true → hash a = hash b) →
    ∀ (i : Nat) (m : linked_hashmap) (l : List (Nat × (K × V))), w.maps[i]? = some m →
      Rep hash w.heap m l → Distinct equal l

/-- The laws the collaborators `Equal` and `Hash` obey: `equal` is an equivalence
relation and equal keys hash equally. -/
structure KeyLaws (hash : K → Nat) (equal : K → K → Bool) : Prop where
  refl : ∀ a, equal a a = true
  symm : ∀ a b, equal a b = true → equal b a = true
  trans : ∀ a b c, equal a b = true → equal b c = true → equal a c = true
  hash_eq : ∀ a b, equal a b = true → hash a = hash b

/-! ## Example programs -/

/-- The hash of a natural-number key: the key itself. -/
def nat_hash : Nat → Nat := fun k => k

/-- The equality of natural-number keys. -/
def nat_equal : Nat → Nat → Bool := fun a b => a == b

/-- The program declares one more map. -/
def World.declare (w : World K V) : World K V :=
  ⟨(linked_hashmap.construct w.heap).1, w.maps ++ [(linked_hashmap.construct w.heap).2]⟩

/-- The program calls `insert` on its map number `i`. -/
def World.put (hash : K → Nat) (equal : K → K → Bool) (w : World K V) (i : Nat)
    (value : K × V) : World K V :=
  match w.maps[i]? with
  | none => w
  | some m =>
    match linked_hashmap.insert hash equal w.heap m value with
    | .error _ => w
    | .ok (H, M, _) => ⟨H, w.maps.set i M⟩

/-- The program calls `erase` on its map number `i`; an exception is caught. -/
def World.remove (hash : K → Nat) (w : World K V) (i : Nat) (pos : iterator) : World K V :=
  match w.maps[i]? with
  | none => w
  | some m =>
    match linked_hashmap.erase hash w.heap m pos with
    | .error _ => w
    | .ok (H, M) => ⟨H, w.maps.set i M⟩

/-- The program calls `erase(begin())` on a map `n` times in a row. -/
def drain (hash : K → Nat) :
    Nat → Heap K V → linked_hashmap →
      Except (Error × Heap K V × linked_hashmap) (Heap K V × linked_hashmap)
  | 0, h, m => .ok (h, m)
  | n + 1, h, m =>
    match linked_hashmap.begin h m with
    | .error e => .error (e, h, m)
    | .ok b =>
      match linked_hashmap.erase hash h m b with
      | .error e => .error e
      | .ok (h1, m1) => drain hash n h1 m1

/-- A program that declared one map and inserted (1, a) and (2, b) into it. -/
def demo_two : World Nat Char :=
  ((⟨Heap.empty, []⟩ : World Nat Char).declare.put nat_hash nat_equal 0 (1, 'a')).put
    nat_hash nat_equal 0 (2, 'b')

/-- The members of the map of `demo_two`. -/
def demo_two_map : linked_hashmap :=
  { sizee := 2, capacity := 10, head := 0, tail := 1,
    map := [none, some 2, some 3, none, none, none, none, none, none, none] }

/-- A program that declared one map of integers and did nothing else. -/
def demo_fresh : World Nat Int := (⟨Heap.empty, []⟩ : World Nat Int).declare

/-- The members of a map right after its construction at the start of the free store. -/
def fresh_map : linked_hashmap :=
  { sizee := 0, capacity := 10, head := 0, tail := 1, map := List.replicate 10 none }

/-- The program of `demo_two` after it declared a second map and inserted (9, z) into it. -/
def demo_pair : World Nat Char :=
  demo_two.declare.put nat_hash nat_equal 1 (9, 'z')

/-- The members of the second map of `demo_pair`. -/
def demo_pair_map : linked_hashmap :=
  { sizee := 1, capacity := 10, head := 4, tail := 5,
    map := [none, none, none, none, none, none, none, none, none, some 6] }

/-- A program that declared one map and inserted the keys 0, ..., 6 with value 0. -/
def demo_seven : World Nat Int :=
  (List.range 7).foldl (fun w k => w.put nat_hash nat_equal 0 (k, 0)) demo_fresh

/-- The members of the map of `demo_seven`. -/
def demo_seven_map : linked_hashmap :=
  { sizee := 7, capacity := 10, head := 0, tail := 1,
    map := [some 2, some 3, some 4, some 5, some 6, some 7, some 8, none, none, none] }

/-- The program copy-constructs a new map from its map number `j`. -/
def World.clone (hash : K → Nat) (w : World K V) (j : Nat) : World K V :=
  match w.maps[j]? with
  | none => w
  | some other =>
    match linked_hashmap.copy_construct hash w.heap other with
    | .error _ => w
    | .ok (H, M) => ⟨H, w.maps ++ [M]⟩

/-- The program assigns its map number `j` to its map number `i`. -/
def World.assign (hash : K → Nat) (w : World K V) (i j : Nat) : World K V :=
  match w.maps[i]? with
  | none => w
  | some m =>
    match w.maps[j]? with
    | none => w
    | some other =>
      match linked_hashmap.assign hash w.heap m other (decide (i = j)) with
      | .error _ => w
      | .ok (H, M) => ⟨H, w.maps.set i M⟩

/-- The program of `demo_seven` after it inserted the key 7 as well. -/
def demo_eight : World Nat Int := demo_seven.put nat_hash nat_equal 0 (7, 0)

/-- The members of the map of `demo_eight`. -/
def demo_eight_map : linked_hashmap :=
  { sizee := 8, capacity := 10, head := 0, tail := 1,
    map := [some 2, some 3, some 4, some 5, some 6, some 7, some 8, some 9, none, none] }

/-- The program of `demo_two` after it copy-constructed a second map from its map. -/
def demo_clone : World Nat Char := demo_two.clone nat_hash 0

/-- The members of the second map of `demo_clone`. -/
def demo_clone_map : linked_hashmap :=
  { sizee := 2, capacity := 10, head := 4, tail := 5,
    map := [none, some 6, some 7, none, none, none, none, none, none, none] }

/-- The program of `demo_two` after it inserted (11, c), whose key falls into the
bucket of the key 1. -/
def demo_collide : World Nat Char := demo_two.put nat_hash nat_equal 0 (11, 'c')

/-- The members of the map of `demo_collide`. -/
def demo_collide_map : linked_hashmap :=
  { sizee := 3, capacity := 10, head := 0, tail := 1,
    map := [none, some 4, some 3, none, none, none, none, none, none, none] }

/-! ## Sequences of calls and what they did -/

/-- A call of `insert` or of `erase` on a map. -/
inductive Call (K V : Type) where
  | insert (value : K × V)
  | erase (pos : iterator)

/-- What a call did: `insert` returned `true`, `insert` returned `false`, `erase`
removed the node of a key, or `erase` threw `index_out_of_bound`. -/
inductive Event (K : Type) where
  | inserted (key : K)
  | rejected (key : K)
  | erased (key : K)
  | thrown
  deriving DecidableEq, Repr

/-- One call on a map, with what it did.  A thrown `index_out_of_bound` is caught and
the program goes on from the state at the throw. -/
def perform (hash : K → Nat) (equal : K → K → Bool) (h : Heap K V) (m : linked_hashmap) :
    Call K V → Except Error (Heap K V × linked_hashmap × Event K)
  | .insert value =>
    match linked_hashmap.insert hash equal h m value with
    | .error e => .error e
    | .ok (h1, m1, (_, true)) => .ok (h1, m1, .inserted value.1)
    | .ok (h1, m1, (_, false)) => .ok (h1, m1, .rejected value.1)
  | .erase pos =>
    match linked_hashmap.erase hash h m pos with
    | .error (.index_out_of_bound, h1, m1) => .ok (h1, m1, .thrown)
    | .error (e, _, _) => .error e
    | .ok (h1, m1) =>
      match iterator.deref h pos with
      | .error e => .error e
      | .ok (k, _) => .ok (h1, m1, .erased k)

/-- A sequence of calls on a map; the record of what they did is kept in `log`. -/
def run (hash : K → Nat) (equal : K → K → Bool) :
    List (Call K V) → Heap K V → linked_hashmap → List (Event K) →
      Except Error (Heap K V × linked_hashmap × List (Event K))
  | [], h, m, log => .ok (h, m, log)
  | c :: cs, h, m, log =>
    match perform hash equal h m c with
    | .error e => .error e
    | .ok (h1, m1, ev) => run hash equal cs h1 m1 (log ++ [ev])

/-- Whether the event is a successful insertion of a key equal to `k`. -/
def Event.inserts (equal : K → K → Bool) (k : K) : Event K → Bool
  | .inserted k1 => equal k1 k
  | _ => false

/-- Whether the event is the erasure of a key equal to `k`. -/
def Event.erases (equal : K → K → Bool) (k : K) : Event K → Bool
  | .erased k1 => equal k1 k
  | _ => false

/-- The position in the record of the first successful insertion of a key equal to `k`. -/
def first_insertion (equal : K → K → Bool) (k : K) : List (Event K) → Option Nat
  | [] => none
  | ev :: log =>
    if ev.inserts equal k then some 0 else (first_insertion equal k log).map (fun i => i + 1)

/-- The position of the last successful insertion of a key equal to `k` in a record
given latest event first. -/
def latest_insertion (equal : K → K → Bool) (k : K) : List (Event K) → Option Nat
  | [] => none
  | ev :: earlier =>
    if ev.inserts equal k then some earlier.length else latest_insertion equal k earlier

/-- The position in the record of the last successful insertion of a key equal to `k`. -/
def last_insertion (equal : K → K → Bool) (k : K) (log : List (Event K)) : Option Nat :=
  latest_insertion equal k log.reverse

/-- Whether a key equal to `k` is in the map by a record given latest event first: the
latest event about such a key is a successful insertion. -/
def present_after (equal : K → K → Bool) (k : K) : List (Event K) → Bool
  | [] => false
  | ev :: earlier =>
    if ev.inserts equal k then true
    else if ev.erases equal k then false
    else present_after equal k earlier

/-- Whether a key equal to `k` survives the calls of the record. -/
def survives (equal : K → K → Bool) (k : K) (log : List (Event K)) : Bool :=
  present_after equal k log.reverse

/-- Whether both times are known and the first is the earlier one. -/
def earlier : Option Nat → Option Nat → Bool
  | some i, some j => decide (i < j)
  | _, _ => false

/-- Key `a` comes before key `b` by the times `t` gives them. -/
def precedes (t : K → Option Nat) (a b : K) : Prop :=
  earlier (t a) (t b) = true

instance (t : K → Option Nat) (a b : K) : Decidable (precedes t a b) :=
  inferInstanceAs (Decidable (earlier (t a) (t b) = true))

/-- What a record of calls tells about the map they led to: the map holds the nodes
`l` with no key twice, a key survives the calls exactly when a node holds a key equal
to it, and the nodes are in the order of the last successful insertions of their keys. -/
structure Logged (hash : K → Nat) (equal : K → K → Bool) (h : Heap K V) (m : linked_hashmap)
    (log : List (Event K)) (l : List (Nat × (K × V))) : Prop where
  rep : Rep hash h m l
  distinct : Distinct equal l
  surv : ∀ k, survives equal k log = true ↔ ∃ e ∈ l, equal e.2.1 k = true
  order : (l.map (fun e => e.2.1)).Pairwise (precedes (fun k => last_insertion equal k log))

/-! ## Lists of nodes -/

theorem length_le_of_nodup_lt {l : List Nat} {n : Nat} (hd : l.Nodup) (hb : ∀ a ∈ l, a < n) :
    l.length ≤ n := by
  have hs : l ⊆ List.range n := fun a ha => List.mem_range.2 (hb a ha)
  have := (List.subperm_of_subset hd hs).length_le
  simpa using this

@[simp] theorem first_addr_nil (tail : Nat) : first_addr ([] : List (Nat × (K × V))) tail = tail :=
  rfl

@[simp] theorem first_addr_cons (e : Nat × (K × V)) (l : List (Nat × (K × V))) (tail : Nat) :
    first_addr (e :: l) tail = e.1 := rfl

@[simp] theorem last_addr_nil (head : Nat) : last_addr ([] : List (Nat × (K × V))) head = head :=
  rfl

@[simp] theorem last_addr_concat (l : List (Nat × (K × V))) (e : Nat × (K × V)) (head : Nat) :
    last_addr (l ++ [e]) head = e.1 := by
  simp [last_addr]

theorem first_addr_append (l1 l2 : List (Nat × (K × V))) (tail : Nat) :
    first_addr (l1 ++ l2) tail = first_addr l1 (first_addr l2 tail) := by
  cases l1 <;> rfl

theorem last_addr_append (l1 l2 : List (Nat × (K × V))) (head : Nat) :
    last_addr (l1 ++ l2) head = last_addr l2 (last_addr l1 head) := by
  induction l2 using List.reverseRecOn with
  | nil => simp
  | append_singleton l2 e _ => rw [← List.append_assoc, last_addr_concat, last_addr_concat]

theorem first_addr_mem {l : List (Nat × (K × V))} (hl : l ≠ []) (tail : Nat) :
    first_addr l tail ∈ l.map Prod.fst := by
  cases l with
  | nil => exact absurd rfl hl
  | cons e l => simp

theorem last_addr_mem {l : List (Nat × (K × V))} (hl : l ≠ []) (head : Nat) :
    last_addr l head ∈ l.map Prod.fst := by
  induction l using List.reverseRecOn with
  | nil => exact absurd rfl hl
  | append_singleton l e _ => simp

theorem eq_concat_split {α : Type} {pre post l : List α} {e x : α}
    (hs : l ++ [x] = pre ++ e :: post) :
    (post = [] ∧ pre = l ∧ e = x) ∨ ∃ post0, post = post0 ++ [x] ∧ l = pre ++ e :: post0 := by
  induction post using List.reverseRecOn with
  | nil =>
    left
    have := List.append_inj' hs (by simp)
    simp_all
  | append_singleton post0 y _ =>
    right
    have h2 : l ++ [x] = (pre ++ e :: post0) ++ [y] := by simp [hs]
    have := List.append_inj' h2 (by simp)
    exact ⟨post0, by simp_all, this.1⟩

@[simp] theorem chain_head_nil (hash : K → Nat) (c b : Nat) :
    chain_head hash c b ([] : List (Nat × (K × V))) = none := rfl

theorem chain_head_append (hash : K → Nat) (c b : Nat) (l1 l2 : List (Nat × (K × V))) :
    chain_head hash c b (l1 ++ l2) = (chain_head hash c b l2).or (chain_head hash c b l1) := by
  unfold chain_head
  rw [List.reverse_append, List.find?_append]
  cases List.find? (fun e => hash e.2.1 % c == b) l2.reverse <;> simp

theorem chain_head_single (hash : K → Nat) (c b : Nat) (e : Nat × (K × V)) :
    chain_head hash c b [e] = if hash e.2.1 % c = b then some e.1 else none := by
  unfold chain_head
  by_cases hb : hash e.2.1 % c = b <;> simp [hb]

theorem chain_head_concat (hash : K → Nat) (c b : Nat) (l : List (Nat × (K × V)))
    (e : Nat × (K × V)) :
    chain_head hash c b (l ++ [e]) =
      if hash e.2.1 % c = b then some e.1 else chain_head hash c b l := by
  rw [chain_head_append, chain_head_single]
  by_cases hb : hash e.2.1 % c = b <;> simp [hb]

theorem chain_head_mem {hash : K → Nat} {c b a : Nat} {l : List (Nat × (K × V))}
    (ha : chain_head hash c b l = some a) : a ∈ l.map Prod.fst := by
  unfold chain_head at ha
  rw [Option.map_eq_some'] at ha
  obtain ⟨e, he, rfl⟩ := ha
  have := List.mem_of_find?_eq_some he
  exact List.mem_map_of_mem _ (List.mem_reverse.1 this)

/-! ## Consequences of the representation invariant -/

theorem Order.length_lt {h : Heap K V} {head tail : Nat} {l : List (Nat × (K × V))}
    {hn : List (Nat × (K × V)) → Nat × (K × V) → Option Nat} (r : Order h head tail l hn) :
    l.length + 2 ≤ h.brk := by
  have := length_le_of_nodup_lt r.nodup r.bound
  simpa using this

theorem Order.unchanged {h h1 : Heap K V} {head tail : Nat} {l : List (Nat × (K × V))}
    {hn : List (Nat × (K × V)) → Nat × (K × V) → Option Nat} (r : Order h head tail l hn)
    (hb : h.brk ≤ h1.brk) (hc : ∀ a ∈ head :: tail :: l.map Prod.fst, h1.cells a = h.cells a) :
    Order h1 head tail l hn where
  nodup := r.nodup
  bound := fun a ha => Nat.lt_of_lt_of_le (r.bound a ha) hb
  head_cell := by rw [hc _ (by simp)]; exact r.head_cell
  tail_cell := by rw [hc _ (by simp)]; exact r.tail_cell
  cells := fun pre e post hl => by
    rw [hc _ (by simp [hl])]
    exact r.cells pre e post hl

theorem Rep.preserved {hash : K → Nat} {h h1 : Heap K V} {m : linked_hashmap}
    {l : List (Nat × (K × V))} (r : Rep hash h m l)
    (hb : h.brk ≤ h1.brk) (hc : ∀ a ∈ footprint m l, h1.cells a = h.cells a) :
    Rep hash h1 m l :=
  { r with order := r.order.unchanged hb hc }

theorem scan_spec {hash : K → Nat} (equal : K → K → Bool) {h : Heap K V} {m : linked_hashmap}
    {l : List (Nat × (K × V))} (r : Rep hash h m l) (key : K) (b : Nat) :
    ∀ (pre post : List (Nat × (K × V))) (fuel : Nat), l = pre ++ post → pre.length < fuel →
      linked_hashmap.scan equal h key fuel (chain_head hash m.capacity b pre) =
        .ok (pre.reverse.find? (fun e => hash e.2.1 % m.capacity == b && equal e.2.1 key)) := by
  intro pre
  induction pre using List.reverseRecOn with
  | nil => intro post fuel _ _; cases fuel <;> simp [linked_hashmap.scan]
  | append_singleton pre e ih =>
    intro post fuel hl hf
    rw [chain_head_concat, List.reverse_append]
    have hl2 : l = pre ++ e :: post := by simp [hl]
    have hc := r.order.cells pre e post hl2
    simp only [List.length_append, List.length_singleton] at hf
    by_cases hb : hash e.2.1 % m.capacity = b
    · obtain ⟨fuel, rfl⟩ : ∃ f, fuel = f + 1 := ⟨fuel - 1, by omega⟩
      have ih2 := ih (e :: post) fuel hl2 (by omega)
      simp only [hb, if_true, linked_hashmap.scan, Heap.read, hc]
      by_cases he : equal e.2.1 key = true
      · simp [he, hb]
      · rw [← hb] at ih2 ⊢
        simp only [he]
        rw [if_neg (by simp), ih2]
        simp [he]
    · simp only [hb, if_false]
      rw [ih (e :: post) fuel hl2 (by omega)]
      simp [hb]

theorem lookup_spec {hash : K → Nat} (equal : K → K → Bool) {h : Heap K V} {m : linked_hashmap}
    {l : List (Nat × (K × V))} (r : Rep hash h m l) (key : K) :
    linked_hashmap.lookup hash equal h m key = .ok (spec_lookup hash equal m.capacity l key) := by
  have hc := r.cap_pos
  have hb := r.buckets (hash key % m.capacity) (Nat.mod_lt _ hc)
  have hlen := r.order.length_lt
  unfold linked_hashmap.lookup linked_hashmap.bucket linked_hashmap.bucket_head
  simp only [Nat.pos_iff_ne_zero.1 hc, if_false, hb]
  rw [scan_spec equal r key _ l [] (h.brk + 1) (by simp) (by omega)]
  rfl

theorem walk_spec {h : Heap K V} {head tail : Nat} {l : List (Nat × (K × V))}
    {hn : List (Nat × (K × V)) → Nat × (K × V) → Option Nat} (r : Order h head tail l hn) :
    ∀ (post pre : List (Nat × (K × V))) (fuel : Nat), l = pre ++ post → post.length < fuel →
      linked_hashmap.walk h tail fuel (first_addr post tail) = .ok post := by
  intro post
  induction post with
  | nil =>
    intro pre fuel _ hf
    obtain ⟨fuel, rfl⟩ : ∃ f, fuel = f + 1 := ⟨fuel - 1, by omega⟩
    simp [linked_hashmap.walk]
  | cons e post ih =>
    intro pre fuel hl hf
    obtain ⟨fuel, rfl⟩ : ∃ f, fuel = f + 1 := ⟨fuel - 1, by simp at hf; omega⟩
    have hc := r.cells pre e post hl
    have hne : e.1 ≠ tail := by
      have := r.nodup
      simp [hl] at this
      omega
    have ih2 := ih (pre ++ [e]) fuel (by simp [hl]) (by simp at hf; omega)
    simp [linked_hashmap.walk, hne, iterator.deref, iterator.incr, Heap.entry, Heap.read, hc, ih2]

theorem to_list_spec {hash : K → Nat} {h : Heap K V} {m : linked_hashmap}
    {l : List (Nat × (K × V))} (r : Rep hash h m l) : linked_hashmap.to_list h m = .ok l := by
  have hlen := r.order.length_lt
  simp only [linked_hashmap.to_list, linked_hashmap.begin, Heap.read, r.order.head_cell,
    linked_hashmap.end_]
  exact walk_spec r.order l [] _ (by simp) (by omega)

theorem split_unique {l p1 p2 q1 q2 : List (Nat × (K × V))} {x y : Nat × (K × V)}
    (hnd : (l.map Prod.fst).Nodup) (h1 : l = p1 ++ x :: p2) (h2 : l = q1 ++ y :: q2)
    (hxy : x.1 = y.1) : p1 = q1 ∧ x = y ∧ p2 = q2 := by
  induction p1 generalizing l q1 with
  | nil =>
    cases q1 with
    | nil =>
      rw [h1] at h2
      simp at h2
      simp [h2]
    | cons z q1 =>
      exfalso
      rw [h1] at h2
      simp only [List.nil_append, List.cons_append, List.cons.injEq] at h2
      rw [h1] at hnd
      simp only [List.nil_append, List.map_cons, List.nodup_cons] at hnd
      apply hnd.1
      rw [h2.2, hxy]
      simp
  | cons z p1 ih =>
    cases q1 with
    | nil =>
      exfalso
      rw [h2] at h1
      simp only [List.nil_append, List.cons_append, List.cons.injEq] at h1
      rw [h2] at hnd
      simp only [List.nil_append, List.map_cons, List.nodup_cons] at hnd
      apply hnd.1
      rw [h1.2, ← hxy]
      simp
    | cons w q1 =>
      rw [h1] at h2 hnd
      simp only [List.cons_append, List.cons.injEq] at h2
      simp only [List.cons_append, List.map_cons, List.nodup_cons] at hnd
      have := ih hnd.2 rfl h2.2
      simp [h2.1, this]

theorem split_length {α : Type} {l p1 p2 q1 q2 : List α} {x y : α}
    (h1 : l = p1 ++ x :: p2) (h2 : l = q1 ++ y :: q2)
    (hlen : p1.length = q1.length) : p1 = q1 ∧ x = y ∧ p2 = q2 := by
  rw [h1] at h2
  have := List.append_inj h2 hlen
  simp_all

theorem Order.congr {h : Heap K V} {head tail : Nat} {l : List (Nat × (K × V))}
    {hn hn1 : List (Nat × (K × V)) → Nat × (K × V) → Option Nat} (r : Order h head tail l hn)
    (he : ∀ pre e post, l = pre ++ e :: post → hn pre e = hn1 pre e) :
    Order h head tail l hn1 where
  nodup := r.nodup
  bound := r.bound
  head_cell := r.head_cell
  tail_cell := r.tail_cell
  cells := fun pre e post hl => by
    rw [← he pre e post hl]
    exact r.cells pre e post hl

theorem Order.nodup_nodes {h : Heap K V} {head tail : Nat} {l : List (Nat × (K × V))}
    {hn : List (Nat × (K × V)) → Nat × (K × V) → Option Nat} (r : Order h head tail l hn) :
    (l.map Prod.fst).Nodup := by
  have := r.nodup
  simp only [List.nodup_cons] at this
  exact this.2.2

theorem Order.node_ne {h : Heap K V} {head tail : Nat} {l : List (Nat × (K × V))}
    {hn : List (Nat × (K × V)) → Nat × (K × V) → Option Nat} (r : Order h head tail l hn)
    {a : Nat} (ha : a ∈ l.map Prod.fst) : a ≠ head ∧ a ≠ tail ∧ a < h.brk := by
  have hnd := r.nodup
  have hb := r.bound a (by simp [ha])
  simp only [List.nodup_cons, List.mem_cons, not_or] at hnd
  refine ⟨?_, ?_, hb⟩
  · rintro rfl; exact hnd.1.2 ha
  · rintro rfl; exact hnd.2.1 ha

theorem Order.head_ne_tail {h : Heap K V} {head tail : Nat} {l : List (Nat × (K × V))}
    {hn : List (Nat × (K × V)) → Nat × (K × V) → Option Nat} (r : Order h head tail l hn) :
    head ≠ tail := by
  have hnd := r.nodup
  simp only [List.nodup_cons, List.mem_cons, not_or] at hnd
  exact hnd.1.1

theorem append_split {α : Type} {pre post p1 p2 : List α} {x : α}
    (hs : pre ++ post = p1 ++ x :: p2) :
    (∃ q, pre = p1 ++ x :: q ∧ p2 = q ++ post) ∨ (∃ q, post = q ++ x :: p2 ∧ p1 = pre ++ q) := by
  rcases List.append_eq_append_iff.1 hs with ⟨a, h1, h2⟩ | ⟨c, h1, h2⟩
  · -- p1 = pre ++ a, post = a ++ x :: p2
    right
    exact ⟨a, h2, h1⟩
  · -- pre = p1 ++ c, x :: p2 = c ++ post
    cases c with
    | nil =>
      right
      refine ⟨[], ?_, by simpa using h1.symm⟩
      simpa using h2.symm
    | cons y c =>
      left
      simp only [List.cons_append, List.cons.injEq] at h2
      exact ⟨c, by rw [h1, h2.1], h2.2⟩

theorem chain_head_eq_none {hash : K → Nat} {c b : Nat} {l : List (Nat × (K × V))} :
    chain_head hash c b l = none ↔ ∀ e ∈ l, hash e.2.1 % c ≠ b := by
  simp [chain_head]

theorem chain_pred_eq_none {hash : K → Nat} {c b : Nat} {l : List (Nat × (K × V))} :
    chain_pred hash c b l = none ↔ ∀ e ∈ l, hash e.2.1 % c ≠ b := by
  simp [chain_pred]

theorem chain_pred_mem {hash : K → Nat} {c b a : Nat} {l : List (Nat × (K × V))}
    (ha : chain_pred hash c b l = some a) : a ∈ l.map Prod.fst := by
  unfold chain_pred at ha
  rw [Option.map_eq_some'] at ha
  obtain ⟨e, he, rfl⟩ := ha
  exact List.mem_map_of_mem _ (List.mem_of_find?_eq_some he)

theorem chain_pred_append (hash : K → Nat) (c b : Nat) (l1 l2 : List (Nat × (K × V))) :
    chain_pred hash c b (l1 ++ l2) = (chain_pred hash c b l1).or (chain_pred hash c b l2) := by
  unfold chain_pred
  rw [List.find?_append]
  cases List.find? (fun e => hash e.2.1 % c == b) l1 <;> simp

theorem chain_pred_cons (hash : K → Nat) (c b : Nat) (e : Nat × (K × V))
    (l : List (Nat × (K × V))) :
    chain_pred hash c b (e :: l) = if hash e.2.1 % c = b then some e.1 else chain_pred hash c b l := by
  unfold chain_pred
  by_cases hb : hash e.2.1 % c = b <;> simp [hb]

theorem chain_head_cons (hash : K → Nat) (c b : Nat) (e : Nat × (K × V))
    (l : List (Nat × (K × V))) :
    chain_head hash c b (e :: l) =
      (chain_head hash c b l).or (if hash e.2.1 % c = b then some e.1 else none) := by
  have : e :: l = [e] ++ l := rfl
  rw [this, chain_head_append, chain_head_single]

/-- Removing a node from the list changes the chain head only for its own bucket, and
there only when no later node falls into that bucket. -/
theorem chain_head_remove (hash : K → Nat) (c b : Nat) (pre post : List (Nat × (K × V)))
    (e : Nat × (K × V)) (hb : hash e.2.1 % c ≠ b ∨ chain_head hash c b post ≠ none) :
    chain_head hash c b (pre ++ e :: post) = chain_head hash c b (pre ++ post) := by
  rw [chain_head_append, chain_head_append, chain_head_cons]
  rcases hb with hb | hb
  · simp [hb]
  · cases hp : chain_head hash c b post with
    | none => exact absurd hp hb
    | some a => simp

theorem distinct_iff_keys (equal : K → K → Bool) (l : List (Nat × (K × V))) :
    Distinct equal l ↔ (l.map (fun e => e.2.1)).Pairwise (fun a b => equal a b = false) := by
  unfold Distinct
  rw [List.pairwise_map]

theorem Distinct.of_keys_eq {equal : K → K → Bool} {l1 l2 : List (Nat × (K × V))}
    (hd : Distinct equal l1) (hk : l2.map (fun e => e.2.1) = l1.map (fun e => e.2.1)) :
    Distinct equal l2 := by
  rw [distinct_iff_keys] at hd ⊢
  rw [hk]
  exact hd

theorem keys_eq_of_snd_eq {l1 l2 : List (Nat × (K × V))}
    (h : l2.map Prod.snd = l1.map Prod.snd) :
    l2.map (fun e => e.2.1) = l1.map (fun e => e.2.1) := by
  have := congrArg (List.map (fun (p : K × V) => p.1)) h
  simpa [List.map_map] using this

theorem spec_lookup_none {hash : K → Nat} {equal : K → K → Bool} {c : Nat}
    {l : List (Nat × (K × V))} {k : K} (hh : ∀ a b, equal a b = true → hash a = hash b)
    (hn : spec_lookup hash equal c l k = none) : ∀ e ∈ l, equal e.2.1 k = false := by
  intro e he
  unfold spec_lookup at hn
  rw [List.find?_eq_none] at hn
  have := hn e (List.mem_reverse.2 he)
  cases heq : equal e.2.1 k with
  | false => rfl
  | true =>
    exfalso
    apply this
    simp [heq, hh _ _ heq]

theorem Distinct.concat {equal : K → K → Bool} {l : List (Nat × (K × V))}
    (hd : Distinct equal l) {x : Nat × (K × V)} (hx : ∀ e ∈ l, equal e.2.1 x.2.1 = false) :
    Distinct equal (l ++ [x]) := by
  unfold Distinct at hd ⊢
  rw [List.pairwise_append]
  refine ⟨hd, List.pairwise_singleton _ _, ?_⟩
  intro a ha b hb
  simp only [List.mem_singleton] at hb
  subst hb
  exact hx a ha

theorem Distinct.remove {equal : K → K → Bool} {pre post : List (Nat × (K × V))}
    {e : Nat × (K × V)} (hd : Distinct equal (pre ++ e :: post)) :
    Distinct equal (pre ++ post) := by
  unfold Distinct at hd ⊢
  exact hd.sublist (List.Sublist.append_left (List.sublist_cons_self e post) pre)

theorem set_of_getElem? {α : Type} {l : List α} {i : Nat} {a : α} (h : l[i]? = some a) :
    l.set i a = l := by
  apply List.ext_getElem?
  intro j
  rw [List.getElem?_set]
  by_cases hij : i = j
  · subst hij
    have hlt : i < l.length := by
      by_contra hc
      rw [List.getElem?_eq_none (by omega)] at h
      exact Option.noConfusion h
    simp [hlt, h]
  · simp [hij]

theorem getElem?_set_cases {α : Type} {l : List α} {i k : Nat} {a b : α}
    (h : (l.set i a)[k]? = some b) : (k = i ∧ b = a) ∨ (k ≠ i ∧ l[k]? = some b) := by
  rw [List.getElem?_set] at h
  by_cases hik : i = k
  · subst hik
    left
    by_cases hlt : i < l.length
    · simp [hlt] at h
      exact ⟨rfl, h.symm⟩
    · simp [hlt] at h
  · right
    simp only [hik, if_false] at h
    exact ⟨Ne.symm hik, h⟩

theorem getElem?_concat_cases {α : Type} {l : List α} {k : Nat} {a b : α}
    (h : (l ++ [a])[k]? = some b) : (k = l.length ∧ b = a) ∨ (k < l.length ∧ l[k]? = some b) := by
  by_cases hk : k < l.length
  · right
    rw [List.getElem?_append_left hk] at h
    exact ⟨hk, h⟩
  · left
    rw [List.getElem?_append_right (by omega)] at h
    by_cases hk2 : k - l.length = 0
    · rw [hk2] at h
      simp at h
      exact ⟨by omega, h.symm⟩
    · obtain ⟨n, hn⟩ : ∃ n, k - l.length = n + 1 := ⟨k - l.length - 1, by omega⟩
      rw [hn] at h
      simp at h

theorem link_new_spec {hash : K → Nat} {h : Heap K V} {m : linked_hashmap}
    {l : List (Nat × (K × V))} (r : Rep hash h m l) (value : K × V) :
    ∃ h1 map1, linked_hashmap.link_new hash h m.capacity m.tail m.map value = .ok (h1, map1, h.brk) ∧
      Rep hash h1 { m with map := map1, sizee := m.sizee + 1 } (l ++ [(h.brk, value)]) ∧
      h1.brk = h.brk + 1 ∧
      (∀ a, a ≠ h.brk → a ∉ footprint m l → h1.cells a = h.cells a) := by
  have hc := r.cap_pos
  have hb := r.buckets (hash value.1 % m.capacity) (Nat.mod_lt _ hc)
  have hnd := r.order.nodup
  have hbd := r.order.bound
  have htl := r.order.tail_cell
  have hla : ∃ n, h.cells (last_addr l m.head) = some n := by
    induction l using List.reverseRecOn with
    | nil => exact ⟨_, r.order.head_cell⟩
    | append_singleton l0 e _ => exact ⟨_, by rw [last_addr_concat]; exact r.order.cells l0 e [] rfl⟩
  obtain ⟨nla, hnla⟩ := hla
  have hla_mem : last_addr l m.head ∈ m.head :: l.map Prod.fst := by
    by_cases hl : l = []
    · simp [hl]
    · exact List.mem_cons_of_mem _ (last_addr_mem hl _)
  have hla_tl : last_addr l m.head ≠ m.tail := by
    intro he
    rw [he] at hla_mem
    simp only [List.nodup_cons, List.mem_cons, not_or] at hnd
    simp only [List.mem_cons] at hla_mem
    rcases hla_mem with h1 | h1
    · exact hnd.1.1 h1.symm
    · exact hnd.2.1 h1
  have hla_brk : last_addr l m.head ≠ h.brk := by
    have := hbd (last_addr l m.head) (by
      simp only [List.mem_cons] at hla_mem ⊢
      tauto)
    omega
  have htl_brk : m.tail ≠ h.brk := by
    have := hbd m.tail (by simp)
    omega
  have key : linked_hashmap.link_new hash h m.capacity m.tail m.map value =
      .ok ((((h.alloc (hashnode.mk (some m.tail) (some (last_addr l m.head))
                (chain_head hash m.capacity (hash value.1 % m.capacity) l)
                (some value))).1.store (last_addr l m.head)
                (hashnode.mk (some h.brk) nla.pre nla.hnext nla.data)).store m.tail
                (hashnode.mk none (some h.brk) none none)),
            m.map.set (hash value.1 % m.capacity) (some h.brk), h.brk) := by
    simp only [linked_hashmap.link_new, linked_hashmap.bucket, Nat.pos_iff_ne_zero.1 hc, if_false,
      linked_hashmap.bucket_head, hb, Heap.read, htl, Heap.alloc, htl_brk, if_false,
      Heap.set_next, hla_brk, hnla, Heap.set_pre, Heap.store, hla_tl.symm, if_true]
  have hcell : ∀ a, ((((h.alloc (hashnode.mk (some m.tail) (some (last_addr l m.head))
                (chain_head hash m.capacity (hash value.1 % m.capacity) l)
                (some value))).1.store (last_addr l m.head)
                (hashnode.mk (some h.brk) nla.pre nla.hnext nla.data)).store m.tail
                (hashnode.mk none (some h.brk) none none))).cells a =
      if a = m.tail then some (hashnode.mk none (some h.brk) none none)
      else if a = last_addr l m.head then some (hashnode.mk (some h.brk) nla.pre nla.hnext nla.data)
      else if a = h.brk then some (hashnode.mk (some m.tail) (some (last_addr l m.head))
                (chain_head hash m.capacity (hash value.1 % m.capacity) l) (some value))
      else h.cells a := fun a => rfl
  have hhd_tl : m.head ≠ m.tail := by
    simp only [List.nodup_cons, List.mem_cons, not_or] at hnd
    exact hnd.1.1
  have hhd_brk : m.head ≠ h.brk := by
    have := hbd m.head (by simp)
    omega
  have hnode : ∀ a ∈ l.map Prod.fst, a ≠ m.head ∧ a ≠ m.tail ∧ a ≠ h.brk := by
    intro a ha
    have h1 := hbd a (by simp [ha])
    simp only [List.nodup_cons, List.mem_cons, not_or] at hnd
    refine ⟨?_, ?_, by omega⟩
    · rintro rfl; exact hnd.1.2 ha
    · rintro rfl; exact hnd.2.1 ha
  refine ⟨_, _, key, ?_, rfl, ?_⟩
  · refine ⟨hc, by simp [r.size_eq], by simp [r.map_len], ⟨?_, ?_, ?_, ?_, ?_⟩, ?_⟩
    · -- nodup
      have h3 : ∀ a ∈ m.head :: m.tail :: l.map Prod.fst, a ≠ h.brk := fun a ha => by
        have := hbd a ha; omega
      simp only [List.map_append, List.map_cons, List.map_nil]
      rw [← List.cons_append, ← List.cons_append]
      refine List.Nodup.append hnd (by simp) ?_
      intro a ha hb2
      simp only [List.mem_singleton] at hb2
      exact h3 a ha hb2
    · -- bound
      intro a ha
      have h4 : a = h.brk ∨ a ∈ m.head :: m.tail :: l.map Prod.fst := by
        simp only [List.map_append, List.map_cons, List.map_nil, List.mem_cons, List.mem_append,
          List.mem_singleton, List.not_mem_nil, or_false] at ha ⊢
        tauto
      show a < h.brk + 1
      rcases h4 with h4 | h4
      · omega
      · have := hbd a h4; omega
    · -- head cell
      show _ = _
      rw [hcell, if_neg hhd_tl]
      by_cases hl : l = []
      · subst hl
        simp only [last_addr_nil, if_true, List.nil_append, first_addr_cons]
        have e1 : some nla = some _ := hnla.symm.trans r.order.head_cell
        injection e1 with e1
        subst e1
        rfl
      · have : m.head ≠ last_addr l m.head := by
          intro he
          have := (hnode _ (last_addr_mem hl m.head)).1
          exact this he.symm
        rw [if_neg this, if_neg hhd_brk, r.order.head_cell, first_addr_append]
        cases l with
        | nil => exact absurd rfl hl
        | cons e l => rfl
    · -- tail cell
      show _ = _
      rw [hcell, if_pos rfl, last_addr_concat]
    · -- cells
      intro pre e post hs
      show _ = _
      rcases eq_concat_split hs with ⟨rfl, rfl, rfl⟩ | ⟨post0, rfl, hl⟩
      · rw [hcell, if_neg htl_brk.symm, if_neg hla_brk.symm, if_pos rfl]
        rfl
      · have hmem : e.1 ∈ l.map Prod.fst := by simp [hl]
        obtain ⟨h1, h2, h3⟩ := hnode _ hmem
        have hold := r.order.cells pre e post0 hl
        rw [hcell, if_neg h2]
        by_cases hp : post0 = []
        · subst hp
          have hla2 : last_addr l m.head = e.1 := by
            rw [hl]
            exact last_addr_concat pre e m.head
          rw [if_pos hla2.symm]
          rw [hla2, hold] at hnla
          injection hnla with hnla
          subst hnla
          rfl
        · have hne : e.1 ≠ last_addr l m.head := by
            intro he
            have hnd2 : (l.map Prod.fst).Nodup := by
              simp only [List.nodup_cons] at hnd
              exact hnd.2.2
            have hl2 : l = (pre ++ [e]) ++ post0 := by simp [hl]
            rw [hl2, last_addr_append] at he
            have hm := last_addr_mem hp (last_addr (pre ++ [e]) m.head)
            rw [← he] at hm
            rw [hl] at hnd2
            simp only [List.map_append, List.map_cons] at hnd2
            have := (List.nodup_append.1 hnd2).2.1
            simp only [List.nodup_cons] at this
            exact this.1 hm
          rw [if_neg hne, if_neg h3, hold, first_addr_append]
          cases post0 with
          | nil => exact absurd rfl hp
          | cons x post0 => rfl
    · -- buckets
      intro b hb2
      show (m.map.set _ _)[b]? = _
      rw [chain_head_concat]
      by_cases hbe : hash value.1 % m.capacity = b
      · subst hbe
        simp [r.map_len, hb2]
      · simp only [hbe, if_false]
        rw [List.getElem?_set_ne hbe]
        exact r.buckets b hb2
  · intro a ha hfp
    simp only [footprint, List.mem_cons, not_or] at hfp
    have : a ≠ last_addr l m.head := by
      intro he
      rw [he] at hfp
      simp only [List.mem_cons] at hla_mem
      tauto
    rw [hcell, if_neg hfp.2.1, if_neg this, if_neg ha]

theorem doublespace_loop_spec {hash : K → Nat} {h0 : Heap K V} {head tail c c2 : Nat}
    {l : List (Nat × (K × V))} (hc2 : 0 < c2) :
    ∀ (post pre : List (Nat × (K × V))) (fuel : Nat) (h : Heap K V) (New : List (Option Nat)),
      l = pre ++ post → post.length < fuel →
      Order h head tail l (fun p e => if p.length < pre.length
        then chain_head hash c2 (hash e.2.1 % c2) p else chain_head hash c (hash e.2.1 % c) p) →
      New.length = c2 → (∀ b, b < c2 → New[b]? = some (chain_head hash c2 b pre)) →
      h.brk = h0.brk → (∀ a, a ∉ l.map Prod.fst → h.cells a = h0.cells a) →
      ∃ h1 New1, linked_hashmap.doublespace_loop hash c2 tail fuel h New
          (some (first_addr post tail)) = .ok (h1, New1) ∧
        Order h1 head tail l (fun p e => chain_head hash c2 (hash e.2.1 % c2) p) ∧
        New1.length = c2 ∧ (∀ b, b < c2 → New1[b]? = some (chain_head hash c2 b l)) ∧
        h1.brk = h0.brk ∧ (∀ a, a ∉ l.map Prod.fst → h1.cells a = h0.cells a) := by
  intro post
  induction post with
  | nil =>
    intro pre fuel h New hl hf ho hlen hbk hbrk hfr
    obtain ⟨fuel, rfl⟩ : ∃ f, fuel = f + 1 := ⟨fuel - 1, by omega⟩
    simp only [List.append_nil] at hl
    subst hl
    refine ⟨h, New, by simp [linked_hashmap.doublespace_loop], ?_, hlen, hbk, hbrk, hfr⟩
    refine ho.congr ?_
    intro p e q hs
    have : p.length < l.length := by rw [hs]; simp
    simp [this]
  | cons e post ih =>
    intro pre fuel h New hl hf ho hlen hbk hbrk hfr
    obtain ⟨fuel, rfl⟩ : ∃ f, fuel = f + 1 := ⟨fuel - 1, by simp at hf; omega⟩
    have hmem : e.1 ∈ l.map Prod.fst := by simp [hl]
    obtain ⟨hne_hd, hne_tl, hlt⟩ := ho.node_ne hmem
    have hcell := ho.cells pre e post hl
    simp only [lt_self_iff_false, if_false] at hcell
    have hpos : hash e.2.1 % c2 < c2 := Nat.mod_lt _ hc2
    have hold := hbk _ hpos
    have step : linked_hashmap.doublespace_loop hash c2 tail (fuel + 1) h New
        (some (first_addr (e :: post) tail)) =
        linked_hashmap.doublespace_loop hash c2 tail fuel
          (h.store e.1 (hashnode.mk (some (first_addr post tail)) (some (last_addr pre head))
            (chain_head hash c2 (hash e.2.1 % c2) pre) (some e.2)))
          (New.set (hash e.2.1 % c2) (some e.1)) (some (first_addr post tail)) := by
      simp only [linked_hashmap.doublespace_loop, first_addr_cons, Option.some.injEq, hne_tl,
        if_false, Heap.entry, Heap.read, hcell, linked_hashmap.bucket, Nat.pos_iff_ne_zero.1 hc2,
        linked_hashmap.bucket_head, hold, Heap.set_hnext, Heap.store, if_true]
    rw [step]
    refine ih (pre ++ [e]) fuel _ _ (by simp [hl]) (by simp at hf; omega) ?_ (by simp [hlen]) ?_
      hbrk ?_
    · -- order
      refine ⟨ho.nodup, ho.bound, ?_, ?_, ?_⟩
      · show (if _ then _ else _) = _
        rw [if_neg (Ne.symm hne_hd)]
        exact ho.head_cell
      · show (if _ then _ else _) = _
        rw [if_neg (Ne.symm hne_tl)]
        exact ho.tail_cell
      · intro p x q hs
        show (if _ then _ else _) = _
        by_cases hx : x.1 = e.1
        · obtain ⟨rfl, rfl, rfl⟩ := split_unique ho.nodup_nodes hs hl hx
          simp
        · rw [if_neg hx, ho.cells p x q hs]
          have hlen2 : p.length ≠ pre.length := by
            intro he
            obtain ⟨-, rfl, -⟩ := split_length hs hl he
            exact hx rfl
          have : (p.length < (pre ++ [e]).length) = (p.length < pre.length) := by
            simp only [List.length_append, List.length_singleton, eq_iff_iff]
            omega
          simp only [this]
    · -- buckets
      intro b hb
      rw [chain_head_concat]
      by_cases hbe : hash e.2.1 % c2 = b
      · subst hbe
        simp [hlen, hb]
      · simp only [hbe, if_false]
        rw [List.getElem?_set_ne hbe]
        exact hbk b hb
    · intro a ha
      show (if _ then _ else _) = _
      have : a ≠ e.1 := by rintro rfl; exact ha hmem
      rw [if_neg this]
      exact hfr a ha

theorem doublespace_spec {hash : K → Nat} {h : Heap K V} {m : linked_hashmap}
    {l : List (Nat × (K × V))} (r : Rep hash h m l) :
    ∃ h1 map1, linked_hashmap.doublespace hash h m =
        .ok (h1, { m with capacity := m.capacity * 2, map := map1 }) ∧
      Rep hash h1 { m with capacity := m.capacity * 2, map := map1 } l ∧
      h1.brk = h.brk ∧ (∀ a, a ∉ l.map Prod.fst → h1.cells a = h.cells a) := by
  have hc := r.cap_pos
  have hlen := r.order.length_lt
  have hc2 : 0 < m.capacity * 2 := by omega
  obtain ⟨h1, New1, hrun, ho, hl1, hb1, hbrk, hfr⟩ :=
    @doublespace_loop_spec K V hash h m.head m.tail m.capacity (m.capacity * 2) l hc2 l []
      (h.brk + 1) h
      (List.replicate (m.capacity * 2) none) (by simp) (by omega)
      (r.order.congr (fun p e q _ => by simp)) (by simp)
      (fun b hb => by simp [hb]) rfl (fun _ _ => rfl)
  refine ⟨h1, New1, ?_, ⟨hc2, r.size_eq, hl1, ho, hb1⟩, hbrk, hfr⟩
  simp only [linked_hashmap.doublespace, Heap.read, r.order.head_cell, hrun]

theorem insert_new_spec {hash : K → Nat} {h : Heap K V} {m : linked_hashmap}
    {l : List (Nat × (K × V))} (r : Rep hash h m l) (value : K × V) :
    ∃ h1 m1, linked_hashmap.insert_new hash h m value = .ok (h1, m1, h.brk) ∧
      Rep hash h1 m1 (l ++ [(h.brk, value)]) ∧
      h1.brk = h.brk + 1 ∧
      (∀ a, a ≠ h.brk → a ∉ footprint m l → h1.cells a = h.cells a) ∧
      m1.head = m.head ∧ m1.tail = m.tail ∧ m1.sizee = m.sizee + 1 ∧
      m1.capacity = (if 3 * m.capacity ≤ 4 * m.sizee then m.capacity * 2 else m.capacity) := by
  by_cases hg : 3 * m.capacity ≤ 4 * m.sizee
  · obtain ⟨h1, map1, hd, r1, hbrk1, hfr1⟩ := doublespace_spec r
    obtain ⟨h2, map2, hl, r2, hbrk2, hfr2⟩ := link_new_spec r1 value
    rw [hbrk1] at r2
    refine ⟨h2, _, ?_, r2, by rw [hbrk2, hbrk1], ?_, rfl, rfl, rfl, by simp [hg]⟩
    · simp only [linked_hashmap.insert_new, hg, if_true, hd]
      simp only at hl
      rw [hl, hbrk1]
    · intro a ha hfp
      rw [hfr2 a (by rw [hbrk1]; exact ha) hfp, hfr1 a]
      intro hm
      apply hfp
      simp [footprint, hm]
  · obtain ⟨h2, map2, hl, r2, hbrk2, hfr2⟩ := link_new_spec r value
    refine ⟨h2, _, ?_, r2, hbrk2, hfr2, rfl, rfl, rfl, by simp [hg]⟩
    simp only [linked_hashmap.insert_new, hg, if_false, hl]

theorem insert_spec_found {hash : K → Nat} (equal : K → K → Bool) {h : Heap K V}
    {m : linked_hashmap} {l : List (Nat × (K × V))} (r : Rep hash h m l) (value : K × V)
    {p : Nat × (K × V)} (hf : spec_lookup hash equal m.capacity l value.1 = some p) :
    linked_hashmap.insert hash equal h m value = .ok (h, m, (p.1, false)) := by
  simp only [linked_hashmap.insert, lookup_spec equal r, hf]

theorem insert_spec_new {hash : K → Nat} (equal : K → K → Bool) {h : Heap K V}
    {m : linked_hashmap} {l : List (Nat × (K × V))} (r : Rep hash h m l) (value : K × V)
    (hf : spec_lookup hash equal m.capacity l value.1 = none) :
    ∃ h1 m1, linked_hashmap.insert hash equal h m value = .ok (h1, m1, (h.brk, true)) ∧
      Rep hash h1 m1 (l ++ [(h.brk, value)]) ∧
      h1.brk = h.brk + 1 ∧
      (∀ a, a ≠ h.brk → a ∉ footprint m l → h1.cells a = h.cells a) ∧
      m1.head = m.head ∧ m1.tail = m.tail ∧ m1.sizee = m.sizee + 1 ∧
      m1.capacity = (if 3 * m.capacity ≤ 4 * m.sizee then m.capacity * 2 else m.capacity) := by
  obtain ⟨h1, m1, hi, rest⟩ := insert_new_spec r value
  refine ⟨h1, m1, ?_, rest⟩
  simp only [linked_hashmap.insert, lookup_spec equal r, hf, hi]

theorem subscript_spec_found [Inhabited V] {hash : K → Nat} (equal : K → K → Bool) {h : Heap K V}
    {m : linked_hashmap} {l : List (Nat × (K × V))} (r : Rep hash h m l) (key : K)
    {p : Nat × (K × V)} (hf : spec_lookup hash equal m.capacity l key = some p) :
    linked_hashmap.subscript hash equal h m key = .ok (h, m, (p.1, p.2.2)) := by
  simp only [linked_hashmap.subscript, lookup_spec equal r, hf]

theorem Rep.cell_last {hash : K → Nat} {h : Heap K V} {m : linked_hashmap}
    {l : List (Nat × (K × V))} {e : Nat × (K × V)} (r : Rep hash h m (l ++ [e])) :
    h.entry (some e.1) = .ok e.2 := by
  simp only [Heap.entry, Heap.read, r.order.cells l e [] rfl]

theorem subscript_spec_new [Inhabited V] {hash : K → Nat} (equal : K → K → Bool) {h : Heap K V}
    {m : linked_hashmap} {l : List (Nat × (K × V))} (r : Rep hash h m l) (key : K)
    (hf : spec_lookup hash equal m.capacity l key = none) :
    ∃ h1 m1, linked_hashmap.subscript hash equal h m key = .ok (h1, m1, (h.brk, default)) ∧
      Rep hash h1 m1 (l ++ [(h.brk, (key, default))]) ∧
      h1.brk = h.brk + 1 ∧
      (∀ a, a ≠ h.brk → a ∉ footprint m l → h1.cells a = h.cells a) ∧
      m1.head = m.head ∧ m1.tail = m.tail ∧ m1.sizee = m.sizee + 1 ∧
      m1.capacity = (if 3 * m.capacity ≤ 4 * m.sizee then m.capacity * 2 else m.capacity) := by
  obtain ⟨h1, m1, hi, r1, rest⟩ := insert_new_spec r (key, (default : V))
  refine ⟨h1, m1, ?_, r1, rest⟩
  simp only [linked_hashmap.subscript, lookup_spec equal r, hf, hi, r1.cell_last]

theorem last_addr_cases (l : List (Nat × (K × V))) (head : Nat) :
    (l = [] ∧ last_addr l head = head) ∨ (l ≠ [] ∧ last_addr l head ∈ l.map Prod.fst) := by
  by_cases hl : l = []
  · left; subst hl; exact ⟨rfl, rfl⟩
  · right; exact ⟨hl, last_addr_mem hl head⟩

theorem first_addr_cases (l : List (Nat × (K × V))) (tail : Nat) :
    (l = [] ∧ first_addr l tail = tail) ∨ (l ≠ [] ∧ first_addr l tail ∈ l.map Prod.fst) := by
  by_cases hl : l = []
  · left; subst hl; exact ⟨rfl, rfl⟩
  · right; exact ⟨hl, first_addr_mem hl tail⟩

theorem last_addr_cons_ne_nil {l : List (Nat × (K × V))} (hl : l ≠ []) (e : Nat × (K × V))
    (head : Nat) : last_addr (e :: l) head = last_addr l head := by
  have : e :: l = [e] ++ l := rfl
  rw [this, last_addr_append]
  induction l using List.reverseRecOn with
  | nil => exact absurd rfl hl
  | append_singleton l x _ => simp

theorem last_addr_eq_of_ne_nil {l : List (Nat × (K × V))} (hl : l ≠ []) (a b : Nat) :
    last_addr l a = last_addr l b := by
  induction l using List.reverseRecOn with
  | nil => exact absurd rfl hl
  | append_singleton l x _ => simp

theorem first_addr_eq_of_ne_nil {l : List (Nat × (K × V))} (hl : l ≠ []) (a b : Nat) :
    first_addr l a = first_addr l b := by
  cases l with
  | nil => exact absurd rfl hl
  | cons x l => rfl

/-- The heap after a node has been unlinked from the order list and from its chain
represents the list without that node. -/
theorem unlink_rep {hash : K → Nat} {h H : Heap K V} {m : linked_hashmap}
    {pre post : List (Nat × (K × V))} {e : Nat × (K × V)}
    (r : Rep hash h m (pre ++ e :: post)) (hbrk : H.brk = h.brk)
    (hchar : ∀ x, H.cells x = if x = e.1 then none else (h.cells x).map (fun c =>
      hashnode.mk (if x = last_addr pre m.head then some (first_addr post m.tail) else c.next)
        (if x = first_addr post m.tail then some (last_addr pre m.head) else c.pre)
        (if some x = chain_pred hash m.capacity (hash e.2.1 % m.capacity) post
          then chain_head hash m.capacity (hash e.2.1 % m.capacity) pre else c.hnext)
        c.data)) :
    Rep hash H { m with sizee := m.sizee - 1,
                        map := if chain_pred hash m.capacity (hash e.2.1 % m.capacity) post = none
                          then m.map.set (hash e.2.1 % m.capacity)
                            (chain_head hash m.capacity (hash e.2.1 % m.capacity) pre)
                          else m.map } (pre ++ post) := by
  have hnd := r.order.nodup
  simp only [List.map_append, List.map_cons, List.nodup_cons, List.mem_cons, List.mem_append,
    not_or, List.nodup_append, List.disjoint_cons_right] at hnd
  obtain ⟨⟨hht, hh_pre, hh_e, hh_post⟩, ⟨ht_pre, ht_e, ht_post⟩, hnd_pre, ⟨he_post, hnd_post⟩,
    he_pre, hdisj⟩ := hnd
  have hT : ∀ a, chain_pred hash m.capacity (hash e.2.1 % m.capacity) post = some a →
      a ∈ post.map Prod.fst := fun a ha => chain_pred_mem ha
  have hpv := last_addr_cases pre m.head
  have hnx := first_addr_cases post m.tail
  have hpv_post : last_addr pre m.head ∉ post.map Prod.fst := by
    rcases hpv with ⟨_, h1⟩ | ⟨_, h1⟩
    · rw [h1]; exact hh_post
    · exact fun h2 => hdisj h1 h2
  have hnx_pre : first_addr post m.tail ∉ pre.map Prod.fst := by
    rcases hnx with ⟨_, h1⟩ | ⟨_, h1⟩
    · rw [h1]; exact ht_pre
    · exact fun h2 => hdisj h2 h1
  refine ⟨r.cap_pos, ?_, ?_, ⟨?_, ?_, ?_, ?_, ?_⟩, ?_⟩
  · have := r.size_eq
    simp only [List.length_append, List.length_cons] at this ⊢
    omega
  · show (if _ then _ else _ : List (Option Nat)).length = _
    split <;> simp [r.map_len]
  · -- nodup
    simp only [List.map_append, List.nodup_cons, List.mem_cons, List.mem_append, not_or,
      List.nodup_append]
    exact ⟨⟨hht, hh_pre, hh_post⟩, ⟨ht_pre, ht_post⟩, hnd_pre, hnd_post, hdisj⟩
  · intro a ha
    rw [hbrk]
    apply r.order.bound
    simp only [List.map_append, List.map_cons, List.mem_cons, List.mem_append] at ha ⊢
    tauto
  · -- head cell
    show H.cells m.head = _
    rw [hchar, if_neg hh_e, r.order.head_cell]
    have h1 : m.head ≠ first_addr post m.tail := by
      rcases hnx with ⟨_, h1⟩ | ⟨_, h1⟩
      · rw [h1]; exact hht
      · rintro h2; rw [← h2] at h1; exact hh_post h1
    have h2 : some m.head ≠ chain_pred hash m.capacity (hash e.2.1 % m.capacity) post :=
      fun h2 => hh_post (hT _ h2.symm)
    simp only [Option.map_some', if_neg h1, if_neg h2]
    rcases hpv with ⟨rfl, h3⟩ | ⟨h3, h4⟩
    · simp
    · have : m.head ≠ last_addr pre m.head := by
        intro h5; rw [← h5] at h4; exact hh_pre h4
      rw [if_neg this, first_addr_append, first_addr_append]
      rw [first_addr_eq_of_ne_nil h3]
  · -- tail cell
    show H.cells m.tail = _
    rw [hchar, if_neg ht_e, r.order.tail_cell]
    have h1 : m.tail ≠ last_addr pre m.head := by
      rcases hpv with ⟨_, h1⟩ | ⟨_, h1⟩
      · rw [h1]; exact Ne.symm hht
      · rintro h2; rw [← h2] at h1; exact ht_pre h1
    have h2 : some m.tail ≠ chain_pred hash m.capacity (hash e.2.1 % m.capacity) post :=
      fun h2 => ht_post (hT _ h2.symm)
    simp only [Option.map_some', if_neg h1, if_neg h2]
    rcases hnx with ⟨rfl, h3⟩ | ⟨h3, h4⟩
    · simp
    · have : m.tail ≠ first_addr post m.tail := by
        intro h5; rw [← h5] at h4; exact ht_post h4
      rw [if_neg this, last_addr_append, last_addr_append pre post,
        last_addr_cons_ne_nil h3]
  · -- cells
    intro p1 x p2 hs
    show H.cells x.1 = _
    rcases append_split hs with ⟨q, hq, rfl⟩ | ⟨q, hq, rfl⟩
    · -- the node lies before the removed one
      have hx_pre : x.1 ∈ pre.map Prod.fst := by simp [hq]
      have hxe : x.1 ≠ e.1 := fun h1 => he_pre (h1 ▸ hx_pre)
      have hold := r.order.cells p1 x (q ++ e :: post) (by simp [hq])
      have h1 : x.1 ≠ first_addr post m.tail := fun h1 => hnx_pre (h1 ▸ hx_pre)
      have h2 : some x.1 ≠ chain_pred hash m.capacity (hash e.2.1 % m.capacity) post :=
        fun h2 => hdisj hx_pre (hT _ h2.symm)
      rw [hchar, if_neg hxe, hold]
      simp only [Option.map_some', if_neg h1, if_neg h2]
      by_cases hqn : q = []
      · subst hqn
        have : last_addr pre m.head = x.1 := by rw [hq]; exact last_addr_concat p1 x m.head
        simp [this]
      · have : x.1 ≠ last_addr pre m.head := by
          intro h3
          have hq2 : pre = (p1 ++ [x]) ++ q := by simp [hq]
          rw [hq2, last_addr_append] at h3
          have h4 := last_addr_mem hqn (last_addr (p1 ++ [x]) m.head)
          rw [← h3] at h4
          rw [hq] at hnd_pre
          simp only [List.map_append, List.map_cons, List.nodup_append, List.nodup_cons] at hnd_pre
          exact hnd_pre.2.1.1 h4
        rw [if_neg this, first_addr_append, first_addr_append]
        rw [first_addr_eq_of_ne_nil hqn]
    · -- the node lies after the removed one
      have hx_post : x.1 ∈ post.map Prod.fst := by simp [hq]
      have hxe : x.1 ≠ e.1 := fun h1 => he_post (h1 ▸ hx_post)
      have hold := r.order.cells (pre ++ e :: q) x p2 (by simp [hq])
      have h1 : x.1 ≠ last_addr pre m.head := fun h1 => hpv_post (h1 ▸ hx_post)
      rw [hchar, if_neg hxe, hold]
      simp only [Option.map_some', if_neg h1]
      have hpre_eq : (if x.1 = first_addr post m.tail then some (last_addr pre m.head)
          else some (last_addr (pre ++ e :: q) m.head)) = some (last_addr (pre ++ q) m.head) := by
        by_cases hqn : q = []
        · subst hqn
          simp [hq]
        · have : x.1 ≠ first_addr post m.tail := by
            intro h3
            rw [hq, first_addr_append, first_addr_eq_of_ne_nil hqn _ 0] at h3
            have h4 := first_addr_mem hqn 0
            rw [← h3] at h4
            rw [hq] at hnd_post
            simp only [List.map_append, List.map_cons, List.nodup_append, List.nodup_cons,
              List.disjoint_cons_right] at hnd_post
            exact hnd_post.2.2.1 h4
          rw [if_neg this, last_addr_append, last_addr_append pre q,
            last_addr_cons_ne_nil hqn]
      have hhn_eq : (if some x.1 = chain_pred hash m.capacity (hash e.2.1 % m.capacity) post
          then chain_head hash m.capacity (hash e.2.1 % m.capacity) pre
          else chain_head hash m.capacity (hash x.2.1 % m.capacity) (pre ++ e :: q)) =
          chain_head hash m.capacity (hash x.2.1 % m.capacity) (pre ++ q) := by
        rw [hq, chain_pred_append, chain_pred_cons]
        cases hcq : chain_pred hash m.capacity (hash e.2.1 % m.capacity) q with
        | some a =>
          have ha := chain_pred_mem hcq
          have hxa : x.1 ≠ a := by
            rintro rfl
            rw [hq] at hnd_post
            simp only [List.map_append, List.map_cons, List.nodup_append, List.nodup_cons,
              List.disjoint_cons_right] at hnd_post
            exact hnd_post.2.2.1 ha
          simp only [Option.or_some, Option.some.injEq, if_neg hxa]
          by_cases hbx : hash e.2.1 % m.capacity = hash x.2.1 % m.capacity
          · apply chain_head_remove
            right
            rw [← hbx]
            intro hnone
            rw [chain_head_eq_none] at hnone
            rw [chain_pred_eq_none.2 hnone] at hcq
            exact Option.noConfusion hcq
          · exact chain_head_remove _ _ _ _ _ _ (Or.inl hbx)
        | none =>
          simp only [Option.none_or]
          by_cases hbx : hash x.2.1 % m.capacity = hash e.2.1 % m.capacity
          · simp only [hbx, if_true]
            rw [chain_head_append _ _ _ pre q,
              chain_head_eq_none.2 (chain_pred_eq_none.1 hcq)]
            rfl
          · rw [if_neg hbx]
            have : some x.1 ≠ chain_pred hash m.capacity (hash e.2.1 % m.capacity) p2 := by
              intro h3
              have h4 := chain_pred_mem h3.symm
              rw [hq] at hnd_post
              simp only [List.map_append, List.map_cons, List.nodup_append, List.nodup_cons,
                List.disjoint_cons_right] at hnd_post
              exact hnd_post.2.1.1 h4
            rw [if_neg this]
            exact chain_head_remove _ _ _ _ _ _ (Or.inl (Ne.symm hbx))
      rw [hpre_eq, hhn_eq]
  · -- buckets
    intro b hb
    show (if _ then _ else _ : List (Option Nat))[b]? = _
    have hold := r.buckets b hb
    cases hT2 : chain_pred hash m.capacity (hash e.2.1 % m.capacity) post with
    | none =>
      simp only [if_true]
      by_cases hbe : hash e.2.1 % m.capacity = b
      · subst hbe
        rw [chain_head_append, chain_head_eq_none.2 (chain_pred_eq_none.1 hT2)]
        simp [r.map_len, hb]
      · rw [List.getElem?_set_ne hbe, hold]
        exact congrArg some (chain_head_remove _ _ _ _ _ _ (Or.inl hbe))
    | some a =>
      rw [if_neg (Option.some_ne_none a), hold]
      refine congrArg some (chain_head_remove _ _ _ _ _ _ ?_)
      by_cases hbe : hash e.2.1 % m.capacity = b
      · right
        subst hbe
        intro hnone
        rw [chain_pred_eq_none.2 (chain_head_eq_none.1 hnone)] at hT2
        exact Option.noConfusion hT2
      · exact Or.inl hbe

theorem Order.cell_exists {h : Heap K V} {head tail : Nat} {l : List (Nat × (K × V))}
    {hn : List (Nat × (K × V)) → Nat × (K × V) → Option Nat} (r : Order h head tail l hn)
    {a : Nat} (ha : a ∈ head :: tail :: l.map Prod.fst) : ∃ c, h.cells a = some c := by
  simp only [List.mem_cons, List.mem_map] at ha
  rcases ha with rfl | rfl | ⟨e, he, rfl⟩
  · exact ⟨_, r.head_cell⟩
  · exact ⟨_, r.tail_cell⟩
  · obtain ⟨p, q, hs⟩ := List.append_of_mem he
    exact ⟨_, r.cells p e q hs⟩

theorem erase_loop_walk {hash : K → Nat} {h : Heap K V} {m : linked_hashmap}
    {pre post : List (Nat × (K × V))} {e : Nat × (K × V)}
    (r : Rep hash h m (pre ++ e :: post)) :
    ∀ (q rest : List (Nat × (K × V))) (fuel : Nat), post = q ++ rest → q.length < fuel →
      linked_hashmap.erase_loop e.1 (hash e.2.1 % m.capacity) m fuel h
        (chain_pred hash m.capacity (hash e.2.1 % m.capacity) rest)
        (chain_head hash m.capacity (hash e.2.1 % m.capacity) (pre ++ e :: q)) =
      linked_hashmap.erase_loop e.1 (hash e.2.1 % m.capacity) m 1 h
        (chain_pred hash m.capacity (hash e.2.1 % m.capacity) post) (some e.1) := by
  intro q
  induction q using List.reverseRecOn with
  | nil =>
    intro rest fuel hp hf
    obtain ⟨fuel, rfl⟩ : ∃ f, fuel = f + 1 := ⟨fuel - 1, by omega⟩
    simp only [List.nil_append] at hp
    subst hp
    have : pre ++ [e] = pre ++ [e] := rfl
    rw [chain_head_concat, if_pos rfl]
    simp only [linked_hashmap.erase_loop, if_true]
  | append_singleton q x ih =>
    intro rest fuel hp hf
    simp only [List.length_append, List.length_singleton] at hf
    have hp2 : post = q ++ x :: rest := by simp [hp]
    have hs : pre ++ e :: post = (pre ++ e :: q) ++ x :: rest := by simp [hp2]
    have hcell := r.order.cells _ x rest hs
    have hnd := r.order.nodup_nodes
    have hxe : x.1 ≠ e.1 := by
      rw [hp2] at hnd
      simp only [List.map_append, List.map_cons, List.nodup_append, List.nodup_cons,
        List.mem_append, List.mem_cons, not_or] at hnd
      exact fun h1 => hnd.2.1.1.2.1 h1.symm
    have : pre ++ e :: (q ++ [x]) = (pre ++ e :: q) ++ [x] := by simp
    rw [this, chain_head_concat]
    by_cases hb : hash x.2.1 % m.capacity = hash e.2.1 % m.capacity
    · obtain ⟨fuel, rfl⟩ : ∃ f, fuel = f + 1 := ⟨fuel - 1, by omega⟩
      rw [if_pos hb]
      have ih2 := ih (x :: rest) fuel hp2 (by omega)
      rw [chain_pred_cons, if_pos hb] at ih2
      rw [← ih2]
      rw [linked_hashmap.erase_loop]
      simp only [if_neg hxe, Heap.read, hcell, hb]
    · rw [if_neg hb]
      have ih2 := ih (x :: rest) fuel hp2 (by omega)
      rw [chain_pred_cons, if_neg hb] at ih2
      exact ih2

theorem erase_unlink {hash : K → Nat} {h : Heap K V} {m : linked_hashmap}
    {pre post : List (Nat × (K × V))} {e : Nat × (K × V)}
    (r : Rep hash h m (pre ++ e :: post)) :
    ∃ H, linked_hashmap.erase_loop e.1 (hash e.2.1 % m.capacity) m 1 h
        (chain_pred hash m.capacity (hash e.2.1 % m.capacity) post) (some e.1) =
        .ok (H, linked_hashmap.mk (m.sizee - 1) m.capacity m.head m.tail
                  (if chain_pred hash m.capacity (hash e.2.1 % m.capacity) post = none
                    then m.map.set (hash e.2.1 % m.capacity)
                      (chain_head hash m.capacity (hash e.2.1 % m.capacity) pre)
                    else m.map)) ∧
      H.brk = h.brk ∧
      ∀ x, H.cells x = if x = e.1 then none else (h.cells x).map (fun c =>
      hashnode.mk (if x = last_addr pre m.head then some (first_addr post m.tail) else c.next)
        (if x = first_addr post m.tail then some (last_addr pre m.head) else c.pre)
        (if some x = chain_pred hash m.capacity (hash e.2.1 % m.capacity) post
          then chain_head hash m.capacity (hash e.2.1 % m.capacity) pre else c.hnext)
        c.data) := by
  have hnd := r.order.nodup
  simp only [List.map_append, List.map_cons, List.nodup_cons, List.mem_cons, List.mem_append,
    not_or, List.nodup_append, List.disjoint_cons_right] at hnd
  obtain ⟨⟨hht, hh_pre, hh_e, hh_post⟩, ⟨ht_pre, ht_e, ht_post⟩, hnd_pre, ⟨he_post, hnd_post⟩,
    he_pre, hdisj⟩ := hnd
  have hcell := r.order.cells pre e post rfl
  have hpv := last_addr_cases pre m.head
  have hnx := first_addr_cases post m.tail
  have hpv_mem : last_addr pre m.head ∈ m.head :: m.tail :: (pre ++ e :: post).map Prod.fst := by
    rcases hpv with ⟨_, h1⟩ | ⟨_, h1⟩
    · rw [h1]; simp
    · simp only [List.map_append, List.mem_cons, List.mem_append]; tauto
  have hnx_mem : first_addr post m.tail ∈ m.head :: m.tail :: (pre ++ e :: post).map Prod.fst := by
    rcases hnx with ⟨_, h1⟩ | ⟨_, h1⟩
    · rw [h1]; simp
    · simp only [List.map_append, List.map_cons, List.mem_cons, List.mem_append]; tauto
  obtain ⟨cpv, hcpv⟩ := r.order.cell_exists hpv_mem
  obtain ⟨cnx, hcnx⟩ := r.order.cell_exists hnx_mem
  have hpv_e : last_addr pre m.head ≠ e.1 := by
    rcases hpv with ⟨_, h1⟩ | ⟨_, h1⟩
    · rw [h1]; exact hh_e
    · exact fun h2 => he_pre (h2 ▸ h1)
  have hnx_e : first_addr post m.tail ≠ e.1 := by
    rcases hnx with ⟨_, h1⟩ | ⟨_, h1⟩
    · rw [h1]; exact ht_e
    · exact fun h2 => he_post (h2 ▸ h1)
  have hpv_nx : last_addr pre m.head ≠ first_addr post m.tail := by
    rcases hpv with ⟨_, h1⟩ | ⟨_, h1⟩ <;> rcases hnx with ⟨_, h2⟩ | ⟨_, h2⟩
    · rw [h1, h2]; exact hht
    · rw [h1]; exact fun h3 => hh_post (h3 ▸ h2)
    · rw [h2]; exact fun h3 => ht_pre (h3 ▸ h1)
    · exact fun h3 => hdisj h1 (h3 ▸ h2)
  have hb : hash e.2.1 % m.capacity < m.map.length := by
    rw [r.map_len]; exact Nat.mod_lt _ r.cap_pos
  cases hT : chain_pred hash m.capacity (hash e.2.1 % m.capacity) post with
  | none =>
    simp only [linked_hashmap.erase_loop, if_true, Heap.read, hcell, Heap.set_pre, hcnx,
        Heap.store, hnx_e.symm, if_false, Heap.set_next, hpv_nx, hcpv, hpv_e.symm, hb]
    refine ⟨_, rfl, rfl, ?_⟩
    intro x
    simp only [Heap.free]
    by_cases h1 : x = e.1
    · simp [h1]
    · by_cases h2 : x = last_addr pre m.head
      · subst h2; simp [h1, hpv_nx, hcpv]
      · by_cases h3 : x = first_addr post m.tail
        · subst h3; simp [h1, h2, hcnx]
        · simp only [h1, h2, h3, if_false]
          cases h.cells x <;> simp
  | some a =>
    have ha := chain_pred_mem hT
    have ha_e : a ≠ e.1 := fun h1 => he_post (h1 ▸ ha)
    have ha_pv : a ≠ last_addr pre m.head := by
      rcases hpv with ⟨_, h1⟩ | ⟨_, h1⟩
      · rw [h1]; exact fun h2 => hh_post (h2 ▸ ha)
      · exact fun h2 => hdisj h1 (h2 ▸ ha)
    obtain ⟨ca, hca⟩ := r.order.cell_exists (a := a) (by
      simp only [List.map_append, List.map_cons, List.mem_cons, List.mem_append]; tauto)
    simp only [linked_hashmap.erase_loop, if_true, Heap.read, hcell, Heap.set_pre, hcnx,
        Heap.store, hnx_e.symm, if_false, Heap.set_next, hpv_nx, hcpv, hpv_e.symm, hb,
        Heap.set_hnext, ha_pv, hca]
    by_cases h3 : a = first_addr post m.tail
    · simp only [h3, if_true]
      refine ⟨_, rfl, rfl, ?_⟩
      intro x
      simp only [Heap.free]
      by_cases h1 : x = e.1
      · simp [h1]
      · by_cases h2 : x = last_addr pre m.head
        · subst h2; simp [h1, hpv_nx, hcpv]
        · by_cases h4 : x = first_addr post m.tail
          · subst h4; simp [h1, h2, hcnx]
          · have : x ≠ a := by rw [h3]; exact h4
            simp only [h1, h2, h4, if_false, Option.some.injEq, this]
            cases h.cells x <;> simp
    · simp only [h3, if_false, hca]
      refine ⟨_, rfl, rfl, ?_⟩
      intro x
      simp only [Heap.free]
      by_cases h1 : x = e.1
      · simp [h1]
      · by_cases h2 : x = last_addr pre m.head
        · subst h2; simp [h1, hpv_nx, hcpv, Ne.symm ha_pv]
        · by_cases h4 : x = first_addr post m.tail
          · subst h4; simp [h1, h2, hcnx, Ne.symm h3]
          · by_cases h5 : x = a
            · subst h5; simp [h1, h2, h4, hca]
            · simp only [h1, h2, h4, h5, if_false, Option.some.injEq]
              cases h.cells x <;> simp

theorem erase_spec {hash : K → Nat} {h : Heap K V} {m : linked_hashmap}
    {pre post : List (Nat × (K × V))} {e : Nat × (K × V)}
    (r : Rep hash h m (pre ++ e :: post)) :
    ∃ H M, linked_hashmap.erase hash h m e.1 = .ok (H, M) ∧ Rep hash H M (pre ++ post) ∧
      H.brk = h.brk ∧ M.capacity = m.capacity ∧ M.head = m.head ∧ M.tail = m.tail ∧
      M.sizee = m.sizee - 1 ∧
      (∀ a, a ∉ footprint m (pre ++ e :: post) → H.cells a = h.cells a) ∧
      H.cells e.1 = none := by
  obtain ⟨H, hrun, hbrk, hchar⟩ := erase_unlink r
  have hrep := unlink_rep r hbrk hchar
  have hlen := r.order.length_lt
  have hwalk := erase_loop_walk r post [] (h.brk + 1) (by simp) (by
    simp only [List.length_append, List.length_cons] at hlen; omega)
  have hbk := r.buckets (hash e.2.1 % m.capacity) (Nat.mod_lt _ r.cap_pos)
  refine ⟨H, _, ?_, hrep, hbrk, rfl, rfl, rfl, rfl, ?_, ?_⟩
  · simp only [linked_hashmap.erase, Heap.read, r.order.cells pre e post rfl,
      linked_hashmap.bucket, Nat.pos_iff_ne_zero.1 r.cap_pos, if_false,
      linked_hashmap.bucket_head, hbk]
    have : chain_pred hash m.capacity (hash e.2.1 % m.capacity) ([] : List (Nat × (K × V))) = none :=
      rfl
    rw [this] at hwalk
    rw [hwalk, hrun]
  · intro a ha
    simp only [footprint, List.map_append, List.map_cons, List.mem_cons, List.mem_append,
      not_or] at ha
    obtain ⟨ha_hd, ha_tl, ha_pre, ha_e, ha_post⟩ := ha
    have h1 : a ≠ last_addr pre m.head := by
      rcases last_addr_cases pre m.head with ⟨_, h1⟩ | ⟨_, h1⟩
      · rw [h1]; exact ha_hd
      · exact fun h2 => ha_pre (h2 ▸ h1)
    have h2 : a ≠ first_addr post m.tail := by
      rcases first_addr_cases post m.tail with ⟨_, h1⟩ | ⟨_, h1⟩
      · rw [h1]; exact ha_tl
      · exact fun h2 => ha_post (h2 ▸ h1)
    have h3 : some a ≠ chain_pred hash m.capacity (hash e.2.1 % m.capacity) post :=
      fun h3 => ha_post (chain_pred_mem h3.symm)
    rw [hchar, if_neg ha_e]
    simp only [if_neg h1, if_neg h2, if_neg h3]
    cases h.cells a <;> rfl
  · rw [hchar, if_pos rfl]

theorem erase_loop_miss {hash : K → Nat} {h : Heap K V} {m : linked_hashmap}
    {l : List (Nat × (K × V))} (r : Rep hash h m l) {c : Nat} (hc : c ∉ l.map Prod.fst)
    (poss b : Nat) :
    ∀ (pre post : List (Nat × (K × V))) (fuel : Nat) (t : Option Nat), l = pre ++ post →
      pre.length < fuel →
      linked_hashmap.erase_loop c poss m fuel h t (chain_head hash m.capacity b pre) =
        .error (.index_out_of_bound, h, m) := by
  intro pre
  induction pre using List.reverseRecOn with
  | nil =>
    intro post fuel t _ _
    cases fuel <;> simp [linked_hashmap.erase_loop]
  | append_singleton pre x ih =>
    intro post fuel t hl hf
    simp only [List.length_append, List.length_singleton] at hf
    have hl2 : l = pre ++ x :: post := by simp [hl]
    have hcell := r.order.cells pre x post hl2
    have hxc : x.1 ≠ c := by
      rintro rfl
      exact hc (by simp [hl2])
    rw [chain_head_concat]
    by_cases hb : hash x.2.1 % m.capacity = b
    · obtain ⟨fuel, rfl⟩ : ∃ f, fuel = f + 1 := ⟨fuel - 1, by omega⟩
      rw [if_pos hb, linked_hashmap.erase_loop]
      simp only [if_neg hxc, Heap.read, hcell, hb]
      exact ih (x :: post) fuel _ hl2 (by omega)
    · rw [if_neg hb]
      exact ih (x :: post) fuel t hl2 (by omega)

theorem erase_spec_foreign {hash : K → Nat} {h : Heap K V} {m : linked_hashmap}
    {l : List (Nat × (K × V))} (r : Rep hash h m l) {c : Nat} {n : hashnode K V}
    (hn : h.cells c = some n) (hc : c ∉ l.map Prod.fst) :
    linked_hashmap.erase hash h m c = .error (.index_out_of_bound, h, m) := by
  have hlen := r.order.length_lt
  simp only [linked_hashmap.erase, Heap.read, hn]
  cases hd : n.data with
  | none => rfl
  | some kv =>
    obtain ⟨k, v⟩ := kv
    have hbk := r.buckets (hash k % m.capacity) (Nat.mod_lt _ r.cap_pos)
    simp only [linked_hashmap.bucket, Nat.pos_iff_ne_zero.1 r.cap_pos, if_false,
      linked_hashmap.bucket_head, hbk]
    exact erase_loop_miss r hc _ _ l [] _ _ (by simp) (by omega)

theorem clear_loop_spec {h0 : Heap K V} {head tail : Nat} {l : List (Nat × (K × V))}
    {hn : List (Nat × (K × V)) → Nat × (K × V) → Option Nat} (r : Order h0 head tail l hn) :
    ∀ (post pre : List (Nat × (K × V))) (fuel : Nat) (h : Heap K V),
      l = pre ++ post → post.length < fuel → h.brk = h0.brk →
      (∀ x, h.cells x = if x ∈ pre.map Prod.fst then none else h0.cells x) →
      ∃ H, linked_hashmap.clear_loop tail fuel h (some (first_addr post tail)) = .ok H ∧
        H.brk = h0.brk ∧
        ∀ x, H.cells x = if x ∈ l.map Prod.fst then none else h0.cells x := by
  intro post
  induction post with
  | nil =>
    intro pre fuel h hl hf hbrk hc
    obtain ⟨fuel, rfl⟩ : ∃ f, fuel = f + 1 := ⟨fuel - 1, by omega⟩
    simp only [List.append_nil] at hl
    subst hl
    exact ⟨h, by simp [linked_hashmap.clear_loop], hbrk, hc⟩
  | cons e post ih =>
    intro pre fuel h hl hf hbrk hc
    obtain ⟨fuel, rfl⟩ : ∃ f, fuel = f + 1 := ⟨fuel - 1, by simp at hf; omega⟩
    have hmem : e.1 ∈ l.map Prod.fst := by simp [hl]
    obtain ⟨-, hne_tl, -⟩ := r.node_ne hmem
    have hnd := r.nodup_nodes
    have he_pre : e.1 ∉ pre.map Prod.fst := by
      rw [hl] at hnd
      simp only [List.map_append, List.map_cons, List.nodup_append, List.nodup_cons,
        List.disjoint_cons_right] at hnd
      exact hnd.2.2.1
    have hcell : h.cells e.1 = _ := (hc e.1).trans ((if_neg he_pre).trans (r.cells pre e post hl))
    have step : linked_hashmap.clear_loop tail (fuel + 1) h (some (first_addr (e :: post) tail)) =
        linked_hashmap.clear_loop tail fuel (h.free e.1) (some (first_addr post tail)) := by
      simp only [linked_hashmap.clear_loop, first_addr_cons, Option.some.injEq, hne_tl, if_false,
        Heap.read, hcell]
    rw [step]
    refine ih (pre ++ [e]) fuel _ (by simp [hl]) (by simp at hf; omega) hbrk ?_
    intro x
    show (if x = e.1 then none else h.cells x) = _
    rw [hc]
    by_cases hx : x = e.1
    · simp [hx]
    · by_cases hx2 : x ∈ pre.map Prod.fst
      · have : x ∈ (pre ++ [e]).map Prod.fst := by
          simp only [List.map_append, List.mem_append]; exact Or.inl hx2
        rw [if_neg hx, if_pos hx2, if_pos this]
      · have : x ∉ (pre ++ [e]).map Prod.fst := by
          simp only [List.map_append, List.mem_append, List.map_cons, List.map_nil,
            List.mem_singleton, not_or]
          exact ⟨hx2, hx⟩
        rw [if_neg hx, if_neg hx2, if_neg this]

theorem clear_spec {hash : K → Nat} {h : Heap K V} {m : linked_hashmap}
    {l : List (Nat × (K × V))} (r : Rep hash h m l) :
    ∃ H, linked_hashmap.clear h m =
        .ok (H, linked_hashmap.mk 0 m.capacity m.head m.tail (List.replicate m.capacity none)) ∧
      Rep hash H (linked_hashmap.mk 0 m.capacity m.head m.tail (List.replicate m.capacity none))
        ([] : List (Nat × (K × V))) ∧
      H.brk = h.brk ∧ (∀ a, a ∉ footprint m l → H.cells a = h.cells a) ∧
      (∀ a ∈ l.map Prod.fst, H.cells a = none) := by
  have hlen := r.order.length_lt
  obtain ⟨H1, hrun, hbrk, hc⟩ := clear_loop_spec r.order l [] (h.brk + 1) h (by simp) (by omega)
    rfl (fun x => by simp)
  have hht := r.order.head_ne_tail
  have hnd := r.order.nodup
  simp only [List.nodup_cons, List.mem_cons, not_or] at hnd
  have hhd : H1.cells m.head = _ := (hc m.head).trans ((if_neg hnd.1.2).trans r.order.head_cell)
  have htl : H1.cells m.tail = _ := (hc m.tail).trans ((if_neg hnd.2.1).trans r.order.tail_cell)
  have hdrop : m.map.drop m.capacity = [] := List.drop_eq_nil_of_le (by rw [r.map_len])
  simp only [linked_hashmap.clear, Heap.read, r.order.head_cell, hrun, Heap.set_next, hhd,
    Heap.set_pre, Heap.store, Ne.symm hht, if_false, htl, linked_hashmap.clear_buckets,
    r.map_len, le_refl, if_true, hdrop, List.append_nil]
  refine ⟨_, rfl, ⟨r.cap_pos, rfl, by simp, ⟨?_, ?_, ?_, ?_, ?_⟩, ?_⟩, hbrk, ?_, ?_⟩
  · simp [hht]
  · intro a ha
    show a < H1.brk
    rw [hbrk]
    exact r.order.bound a (by simp only [List.map_nil, List.mem_cons] at ha ⊢; tauto)
  · simp [hht]
  · simp
  · intro p e q hs
    simp at hs
  · intro b hb
    simp only at hb
    simp [hb]
  · intro a ha
    simp only [footprint, List.mem_cons, not_or] at ha
    simp only [ha.1, ha.2.1, if_false]
    rw [hc, if_neg ha.2.2]
  · intro a ha
    obtain ⟨h1, h2, -⟩ := r.order.node_ne ha
    simp only [h1, h2, if_false]
    rw [hc, if_pos ha]

/-- Two fresh sentinels linked to each other represent the empty list. -/
theorem fresh_rep (hash : K → Nat) (h : Heap K V) {c : Nat} (hc : 0 < c) :
    Rep hash
      (((h.alloc (hashnode.mk none none none none)).1.alloc (hashnode.mk none none none none)).1.store
        (h.brk + 1) (hashnode.mk none (some h.brk) none none) |>.store h.brk
        (hashnode.mk (some (h.brk + 1)) none none none))
      (linked_hashmap.mk 0 c h.brk (h.brk + 1) (List.replicate c none))
      ([] : List (Nat × (K × V))) := by
  refine ⟨hc, rfl, by simp, ⟨?_, ?_, ?_, ?_, ?_⟩, ?_⟩
  · simp
  · intro a ha
    simp only [List.map_nil, List.mem_cons, List.not_mem_nil, or_false] at ha
    show a < h.brk + 1 + 1
    omega
  · simp [Heap.store, Heap.alloc]
  · simp [Heap.store, Heap.alloc]
  · intro p e q hs
    simp at hs
  · intro b hb
    simp only at hb
    simp [hb]

theorem construct_spec (hash : K → Nat) (h : Heap K V) :
    Rep hash (linked_hashmap.construct h).1 (linked_hashmap.construct h).2
      ([] : List (Nat × (K × V))) ∧
    (linked_hashmap.construct h).2 =
      linked_hashmap.mk 0 10 h.brk (h.brk + 1) (List.replicate 10 none) ∧
    (linked_hashmap.construct h).1.brk = h.brk + 2 ∧
    ∀ a, a < h.brk → (linked_hashmap.construct h).1.cells a = h.cells a := by
  refine ⟨fresh_rep hash h (by decide), rfl, rfl, ?_⟩
  intro a ha
  have h1 : a ≠ h.brk := by omega
  have h2 : a ≠ h.brk + 1 := by omega
  simp [linked_hashmap.construct, Heap.store, Heap.alloc, h1, h2]

theorem grow_capacity_spec (s : Nat) :
    ∀ (fuel c : Nat), 0 < c → 4 * s < 3 * c * 2 ^ fuel →
      ∃ c1, linked_hashmap.grow_capacity s (fuel + 1) c = .ok c1 ∧ c ≤ c1 ∧ 4 * s < 3 * c1 := by
  intro fuel
  induction fuel with
  | zero =>
    intro c hc hlt
    simp only [pow_zero, mul_one] at hlt
    exact ⟨c, by simp [linked_hashmap.grow_capacity, Nat.not_le.2 hlt], le_refl _, hlt⟩
  | succ fuel ih =>
    intro c hc hlt
    by_cases hg : 3 * c ≤ 4 * s
    · obtain ⟨c1, h1, h2, h3⟩ := ih (c * 2) (by omega) (by
        rw [pow_succ] at hlt
        calc 4 * s < 3 * c * (2 ^ fuel * 2) := hlt
          _ = 3 * (c * 2) * 2 ^ fuel := by ring)
      refine ⟨c1, ?_, by omega, h3⟩
      rw [linked_hashmap.grow_capacity, if_pos hg, h1]
    · exact ⟨c, by rw [linked_hashmap.grow_capacity, if_neg hg], le_refl _, by omega⟩

theorem grow_capacity_ok (s : Nat) :
    ∃ c1, linked_hashmap.grow_capacity s (s + 1) 10 = .ok c1 ∧ 10 ≤ c1 ∧ 4 * s < 3 * c1 := by
  apply grow_capacity_spec s s 10 (by decide)
  have := Nat.lt_two_pow s
  calc 4 * s < 30 * 2 ^ s := by omega
    _ = 3 * 10 * 2 ^ s := by ring

theorem copy_loop_spec {hash : K → Nat} {other : linked_hashmap} {lo : List (Nat × (K × V))}
    {cap hd tl B : Nat} (hhd : hd ∉ footprint other lo) (htl : tl ∉ footprint other lo)
    (hB : ∀ a ∈ footprint other lo, a < B) :
    ∀ (post pre : List (Nat × (K × V))) (fuel n : Nat) (h : Heap K V) (map : List (Option Nat))
      (lc : List (Nat × (K × V))),
      lo = pre ++ post → post.length < fuel → Rep hash h other lo →
      Rep hash h (linked_hashmap.mk n cap hd tl map) lc → lc.map Prod.snd = pre.map Prod.snd →
      (∀ a ∈ lc.map Prod.fst, B ≤ a) → B ≤ h.brk →
      ∃ H map1 lc1, linked_hashmap.copy_loop hash other.tail cap tl fuel h map
          (some (first_addr post other.tail)) = .ok (H, map1) ∧
        Rep hash H other lo ∧ Rep hash H (linked_hashmap.mk lo.length cap hd tl map1) lc1 ∧
        lc1.map Prod.snd = lo.map Prod.snd ∧ (∀ a ∈ lc1.map Prod.fst, B ≤ a) ∧ h.brk ≤ H.brk ∧
        (∀ a, a < B → a ≠ hd → a ≠ tl → H.cells a = h.cells a) := by
  intro post
  induction post with
  | nil =>
    intro pre fuel n h map lc hl hf ro rc hcopy hge hBh
    obtain ⟨fuel, rfl⟩ : ∃ f, fuel = f + 1 := ⟨fuel - 1, by omega⟩
    simp only [List.append_nil] at hl
    subst hl
    have hn : n = lo.length := by
      have h1 := rc.size_eq
      have h2 := congrArg List.length hcopy
      simp only [List.length_map] at h2
      simp only at h1
      omega
    subst hn
    exact ⟨h, map, lc, by simp [linked_hashmap.copy_loop], ro, rc, hcopy, hge, le_refl _,
      fun _ _ _ _ => rfl⟩
  | cons e post ih =>
    intro pre fuel n h map lc hl hf ro rc hcopy hge hBh
    obtain ⟨fuel, rfl⟩ : ∃ f, fuel = f + 1 := ⟨fuel - 1, by simp at hf; omega⟩
    have hmem : e.1 ∈ lo.map Prod.fst := by simp [hl]
    obtain ⟨-, hne_tl, -⟩ := ro.order.node_ne hmem
    have hcell := ro.order.cells pre e post hl
    obtain ⟨h1, map1, hlink, r1, hbrk1, hfr1⟩ := link_new_spec rc e.2
    have hsame : ∀ a ∈ footprint other lo, h1.cells a = h.cells a := by
      intro a ha
      have haB := hB a ha
      apply hfr1 a (by omega)
      simp only [footprint, List.mem_cons, not_or]
      refine ⟨?_, ?_, ?_⟩
      · rintro rfl; exact hhd ha
      · rintro rfl; exact htl ha
      · intro h2
        have := hge a h2
        omega
    have ro1 : Rep hash h1 other lo := ro.preserved (by omega) hsame
    have hcell1 : h1.cells e.1 = _ := (hsame e.1 (by simp [footprint, hmem])).trans hcell
    have step : linked_hashmap.copy_loop hash other.tail cap tl (fuel + 1) h map
        (some (first_addr (e :: post) other.tail)) =
        linked_hashmap.copy_loop hash other.tail cap tl fuel h1 map1
          (some (first_addr post other.tail)) := by
      simp only at hlink
      simp only [linked_hashmap.copy_loop, first_addr_cons, Option.some.injEq, hne_tl, if_false,
        Heap.entry, Heap.read, hcell, hlink, hcell1]
    rw [step]
    obtain ⟨H, map2, lc2, hrun, ro2, rc2, hcopy2, hge2, hbrk2, hfr2⟩ :=
      ih (pre ++ [e]) fuel (n + 1) h1 map1 (lc ++ [(h.brk, e.2)]) (by simp [hl])
        (by simp at hf; omega) ro1 r1 (by simp [hcopy]) (by
          intro a ha
          simp only [List.map_append, List.map_cons, List.map_nil, List.mem_append,
            List.mem_singleton] at ha
          rcases ha with ha | rfl
          · exact hge a ha
          · exact hBh) (by omega)
    refine ⟨H, map2, lc2, hrun, ro2, rc2, hcopy2, hge2, by omega, ?_⟩
    intro a ha h2 h3
    rw [hfr2 a ha h2 h3]
    apply hfr1 a (by omega)
    simp only [footprint, List.mem_cons, not_or]
    refine ⟨h2, h3, ?_⟩
    intro h4
    have := hge a h4
    omega

theorem copy_construct_spec {hash : K → Nat} {h : Heap K V} {other : linked_hashmap}
    {lo : List (Nat × (K × V))} (ro : Rep hash h other lo) :
    ∃ H map1 lc c, linked_hashmap.copy_construct hash h other =
        .ok (H, linked_hashmap.mk other.sizee c h.brk (h.brk + 1) map1) ∧
      linked_hashmap.grow_capacity other.sizee (other.sizee + 1) 10 = .ok c ∧
      Rep hash H other lo ∧
      Rep hash H (linked_hashmap.mk other.sizee c h.brk (h.brk + 1) map1) lc ∧
      lc.map Prod.snd = lo.map Prod.snd ∧ (∀ a ∈ lc.map Prod.fst, h.brk + 2 ≤ a) ∧
      h.brk + 2 ≤ H.brk ∧ (∀ a, a < h.brk → H.cells a = h.cells a) := by
  obtain ⟨c, hgrow, hc10, -⟩ := grow_capacity_ok other.sizee
  have hc : 0 < c := by omega
  have hfresh := fresh_rep hash h hc
  have hlen := ro.order.length_lt
  have hbound : ∀ a ∈ footprint other lo, a < h.brk := ro.order.bound
  have hsame : ∀ a, a < h.brk →
      ((((h.alloc (hashnode.mk none none none none)).1.alloc (hashnode.mk none none none none)).1.store
        (h.brk + 1) (hashnode.mk none (some h.brk) none none) |>.store h.brk
        (hashnode.mk (some (h.brk + 1)) none none none))).cells a = h.cells a := by
    intro a ha
    have h1 : a ≠ h.brk := by omega
    have h2 : a ≠ h.brk + 1 := by omega
    simp [Heap.store, Heap.alloc, h1, h2]
  have ro4 := @Rep.preserved K V hash h ((((h.alloc (hashnode.mk none none none none)).1.alloc
      (hashnode.mk none none none none)).1.store
        (h.brk + 1) (hashnode.mk none (some h.brk) none none) |>.store h.brk
        (hashnode.mk (some (h.brk + 1)) none none none))) other lo ro (by
      show h.brk ≤ h.brk + 1 + 1
      omega) (fun a ha => hsame a (hbound a ha))
  obtain ⟨H, map1, lc, hrun, ro5, rc5, hcopy, hge, hbrk, hfr⟩ :=
    @copy_loop_spec K V hash other lo c h.brk (h.brk + 1) (h.brk + 2)
      (fun hm => by have := hbound _ hm; omega) (fun hm => by have := hbound _ hm; omega)
      (fun a ha => by have := hbound a ha; omega)
      lo [] (h.brk + 2 + 1) 0 _ _ [] (by simp) (by omega) ro4 hfresh rfl (by simp)
      (le_refl _)
  have hsz : other.sizee = lo.length := ro.size_eq
  refine ⟨H, map1, lc, c, ?_, hgrow, ro5, by rw [hsz]; exact rc5, hcopy, hge, hbrk, ?_⟩
  · have hoh := ro4.order.head_cell
    simp only [Heap.alloc, Heap.store] at hoh hrun
    simp only [linked_hashmap.copy_construct, hgrow, Heap.read, Heap.alloc, Heap.store, hoh, hrun]
  · intro a ha
    rw [hfr a (by omega) (by omega) (by omega)]
    exact hsame a ha

theorem assign_self (hash : K → Nat) (h : Heap K V) (m other : linked_hashmap) :
    linked_hashmap.assign hash h m other true = .ok (h, m) := rfl

theorem assign_spec {hash : K → Nat} {h : Heap K V} {m other : linked_hashmap}
    {l lo : List (Nat × (K × V))} (r : Rep hash h m l) (ro : Rep hash h other lo)
    (hdisj : List.Disjoint (footprint m l) (footprint other lo)) :
    ∃ H M lc, linked_hashmap.assign hash h m other false = .ok (H, M) ∧
      Rep hash H other lo ∧ Rep hash H M lc ∧ lc.map Prod.snd = lo.map Prod.snd ∧
      M.head = m.head ∧ M.tail = m.tail ∧ M.sizee = other.sizee ∧
      (other.sizee = 0 → M.capacity = m.capacity) ∧
      (other.sizee ≠ 0 →
        linked_hashmap.grow_capacity other.sizee (other.sizee + 1) 10 = .ok M.capacity) ∧
      (∀ a ∈ lc.map Prod.fst, h.brk ≤ a) ∧ h.brk ≤ H.brk ∧
      (∀ a, a < h.brk → a ∉ footprint m l → H.cells a = h.cells a) := by
  obtain ⟨H1, hclear, r1, hbrk1, hfr1, -⟩ := clear_spec r
  have ro1 : Rep hash H1 other lo :=
    ro.preserved (by omega) (fun a ha => hfr1 a (fun hm => hdisj hm ha))
  have hhd_o : m.head ∉ footprint other lo := fun hm => hdisj (by simp [footprint]) hm
  have htl_o : m.tail ∉ footprint other lo := fun hm => hdisj (by simp [footprint]) hm
  by_cases hs : other.sizee = 0
  · have hlo : lo = [] := by
      have := ro.size_eq
      rw [hs] at this
      exact List.length_eq_zero.1 this.symm
    refine ⟨H1, _, [], ?_, ro1, r1, by simp [hlo], rfl, rfl, hs.symm, fun _ => rfl,
      fun hne => absurd hs hne, by simp, by omega, fun a _ ha => hfr1 a ha⟩
    simp only [linked_hashmap.assign, hclear, hs, if_true]
    rfl
  · obtain ⟨c, hgrow, hc10, -⟩ := grow_capacity_ok other.sizee
    have hc : 0 < c := by omega
    have hht : m.head ≠ m.tail := r1.order.head_ne_tail
    have hhd1 := r1.order.head_cell
    have htl1 := r1.order.tail_cell
    simp only [first_addr_nil, last_addr_nil] at hhd1 htl1
    have hcells3 : ∀ a, ((H1.store m.tail (hashnode.mk none (some m.head) none none)).store m.head
        (hashnode.mk (some m.tail) none none none)).cells a = H1.cells a := by
      intro a
      simp only [Heap.store]
      by_cases h1 : a = m.head
      · rw [if_pos h1, h1, hhd1]
      · rw [if_neg h1]
        by_cases h2 : a = m.tail
        · rw [if_pos h2, h2, htl1]
        · rw [if_neg h2]
    have r3 : Rep hash ((H1.store m.tail (hashnode.mk none (some m.head) none none)).store m.head
        (hashnode.mk (some m.tail) none none none))
        (linked_hashmap.mk 0 c m.head m.tail (List.replicate c none))
        ([] : List (Nat × (K × V))) := by
      refine ⟨hc, rfl, by simp, ?_, ?_⟩
      · exact (@Order.unchanged K V H1 ((H1.store m.tail
          (hashnode.mk none (some m.head) none none)).store m.head
          (hashnode.mk (some m.tail) none none none)) m.head m.tail [] _ r1.order (le_refl _)
          (fun a _ => hcells3 a)).congr (fun p e q hs => by simp at hs)
      · intro b hb
        simp only at hb
        simp [hb]
    have ro3 := @Rep.preserved K V hash H1 ((H1.store m.tail
        (hashnode.mk none (some m.head) none none)).store m.head
        (hashnode.mk (some m.tail) none none none)) other lo ro1 (le_refl _)
        (fun a _ => hcells3 a)
    have hlen := ro.order.length_lt
    obtain ⟨H, map1, lc, hrun, ro5, rc5, hcopy, hge, hbrk, hfr⟩ :=
      @copy_loop_spec K V hash other lo c m.head m.tail h.brk hhd_o htl_o ro.order.bound
        lo [] (h.brk + 1) 0 _ _ [] (by simp) (by omega) ro3 r3 rfl (by simp)
        (by show h.brk ≤ H1.brk; omega)
    have hsz : other.sizee = lo.length := ro.size_eq
    refine ⟨H, linked_hashmap.mk other.sizee c m.head m.tail map1, lc, ?_, ro5,
      by rw [hsz]; exact rc5, hcopy, rfl, rfl, rfl, fun h0 => absurd h0 hs, fun _ => hgrow,
      hge, by
        have : h.brk ≤ H1.brk := by omega
        exact le_trans this hbrk, ?_⟩
    · have hoh := ro3.order.head_cell
      simp only [linked_hashmap.assign, hclear, hs, if_false, Heap.set_pre, htl1, Heap.set_next,
        Heap.store, hht, hhd1, hgrow, Heap.read, Bool.false_eq_true, hbrk1] at hoh hrun ⊢
      simp only [hoh, hrun]
    · intro a ha hfp
      have h1 : a ≠ m.head := fun h1 => hfp (by simp [footprint, h1])
      have h2 : a ≠ m.tail := fun h2 => hfp (by simp [footprint, h2])
      rw [hfr a ha h1 h2, hcells3, hfr1 a hfp]

theorem middle_split {α : Type} {pre post p1 p2 : List α} {e x : α}
    (hs : pre ++ e :: post = p1 ++ x :: p2) :
    (∃ q, pre = p1 ++ x :: q ∧ p2 = q ++ e :: post) ∨ (p1 = pre ∧ x = e ∧ p2 = post) ∨
      (∃ q, post = q ++ x :: p2 ∧ p1 = pre ++ e :: q) := by
  rcases append_split hs with ⟨q, h1, h2⟩ | ⟨q, h1, h2⟩
  · exact Or.inl ⟨q, h1, h2⟩
  · cases q with
    | nil =>
      simp only [List.nil_append, List.cons.injEq] at h1
      simp only [List.append_nil] at h2
      exact Or.inr (Or.inl ⟨h2, h1.1.symm, h1.2.symm⟩)
    | cons y q =>
      simp only [List.cons_append, List.cons.injEq] at h1
      exact Or.inr (Or.inr ⟨q, h1.2, by rw [h2, h1.1]⟩)

theorem first_addr_middle (q post : List (Nat × (K × V))) (e e1 : Nat × (K × V)) (tail : Nat)
    (he : e1.1 = e.1) : first_addr (q ++ e1 :: post) tail = first_addr (q ++ e :: post) tail := by
  rw [first_addr_append, first_addr_append, first_addr_cons, first_addr_cons, he]

theorem last_addr_middle (pre q : List (Nat × (K × V))) (e e1 : Nat × (K × V)) (head : Nat)
    (he : e1.1 = e.1) : last_addr (pre ++ e1 :: q) head = last_addr (pre ++ e :: q) head := by
  rw [last_addr_append, last_addr_append]
  by_cases hq : q = []
  · subst hq
    have h1 := last_addr_concat ([] : List (Nat × (K × V))) e1 (last_addr pre head)
    have h2 := last_addr_concat ([] : List (Nat × (K × V))) e (last_addr pre head)
    simp only [List.nil_append] at h1 h2
    rw [h1, h2, he]
  · rw [last_addr_cons_ne_nil hq, last_addr_cons_ne_nil hq]

theorem chain_head_middle (hash : K → Nat) (c b : Nat) (pre q : List (Nat × (K × V)))
    (e e1 : Nat × (K × V)) (he : e1.1 = e.1) (hk : e1.2.1 = e.2.1) :
    chain_head hash c b (pre ++ e1 :: q) = chain_head hash c b (pre ++ e :: q) := by
  rw [chain_head_append, chain_head_append, chain_head_cons, chain_head_cons, he, hk]

theorem set_second_spec {hash : K → Nat} {h : Heap K V} {m : linked_hashmap}
    {pre post : List (Nat × (K × V))} {e : Nat × (K × V)}
    (r : Rep hash h m (pre ++ e :: post)) (v : V) :
    ∃ H, h.set_second e.1 v = .ok H ∧ Rep hash H m (pre ++ (e.1, (e.2.1, v)) :: post) ∧
      H.brk = h.brk ∧ ∀ a, a ≠ e.1 → H.cells a = h.cells a := by
  have hcell := r.order.cells pre e post rfl
  have hnd := r.order.nodup
  obtain ⟨he_hd, he_tl, -⟩ := r.order.node_ne (a := e.1) (by simp)
  simp only [Heap.set_second, hcell]
  refine ⟨_, rfl, ⟨r.cap_pos, ?_, r.map_len, ⟨?_, ?_, ?_, ?_, ?_⟩, ?_⟩, rfl, ?_⟩
  · rw [r.size_eq]; simp
  · simpa using hnd
  · intro a ha
    exact r.order.bound a (by simpa using ha)
  · show (if m.head = e.1 then _ else _) = _
    rw [if_neg (Ne.symm he_hd), r.order.head_cell, first_addr_middle _ _ e (e.1, (e.2.1, v)) _ rfl]
  · show (if m.tail = e.1 then _ else _) = _
    rw [if_neg (Ne.symm he_tl), r.order.tail_cell, last_addr_middle _ _ e (e.1, (e.2.1, v)) _ rfl]
  · intro p1 x p2 hs
    show (if x.1 = e.1 then _ else _) = _
    rcases middle_split hs with ⟨q, h1, h2⟩ | ⟨h1, h2, h3⟩ | ⟨q, h1, h2⟩
    · have hold := r.order.cells p1 x (q ++ e :: post) (by simp [h1])
      have hx : x.1 ≠ e.1 := by
        intro hx
        have := (split_unique r.order.nodup_nodes
          (show pre ++ e :: post = p1 ++ x :: (q ++ e :: post) by simp [h1]) rfl hx).1
        rw [← this] at h1
        have := congrArg List.length h1
        simp at this
      rw [if_neg hx, hold, h2, first_addr_middle _ _ e (e.1, (e.2.1, v)) _ rfl]
    · subst h1 h2 h3
      rw [if_pos rfl]
    · have hold := r.order.cells (pre ++ e :: q) x p2 (by simp [h1])
      have hx : x.1 ≠ e.1 := by
        intro hx
        have := (split_unique r.order.nodup_nodes
          (show pre ++ e :: post = (pre ++ e :: q) ++ x :: p2 by simp [h1]) rfl hx).1
        have := congrArg List.length this
        simp at this
      rw [if_neg hx, hold, h2, last_addr_middle _ _ e (e.1, (e.2.1, v)) _ rfl,
        chain_head_middle _ _ _ _ _ e (e.1, (e.2.1, v)) rfl rfl]
  · intro b hb
    rw [r.buckets b hb, chain_head_middle _ _ _ _ _ e (e.1, (e.2.1, v)) rfl rfl]
  · intro a ha
    show (if a = e.1 then _ else _) = _
    rw [if_neg ha]

theorem Rep.unique {hash : K → Nat} {h : Heap K V} {m : linked_hashmap}
    {l1 l2 : List (Nat × (K × V))} (r1 : Rep hash h m l1) (r2 : Rep hash h m l2) : l1 = l2 := by
  have h1 := to_list_spec r1
  rw [to_list_spec r2] at h1
  injection h1 with h1
  exact h1.symm

theorem footprint_bound {hash : K → Nat} {h : Heap K V} {m : linked_hashmap}
    {l : List (Nat × (K × V))} (r : Rep hash h m l) : ∀ a ∈ footprint m l, a < h.brk :=
  r.order.bound

/-- A call on one map leaves the representation of every other map alone. -/
theorem winv_other {hash : K → Nat} {equal : K → K → Bool} {w : World K V} {i k : Nat}
    {m mk : linked_hashmap} {l lk : List (Nat × (K × V))} {H : Heap K V}
    (inv : WInv hash equal w) (hm : w.maps[i]? = some m) (r : Rep hash w.heap m l)
    (hbrk : w.heap.brk ≤ H.brk)
    (hfr : ∀ a, a < w.heap.brk → a ∉ footprint m l → H.cells a = w.heap.cells a)
    (hki : k ≠ i) (hk : w.maps[k]? = some mk) (rk : Rep hash w.heap mk lk) :
    Rep hash H mk lk :=
  rk.preserved hbrk (fun a ha =>
    hfr a (footprint_bound rk a ha) (fun hm2 => inv.disj k i mk m lk l hki hk hm rk r ha hm2))

theorem winv_update {hash : K → Nat} {equal : K → K → Bool} {w : World K V} {i : Nat}
    {m M : linked_hashmap} {l L : List (Nat × (K × V))} {H : Heap K V}
    (inv : WInv hash equal w) (hm : w.maps[i]? = some m) (r : Rep hash w.heap m l)
    (R : Rep hash H M L) (hbrk : w.heap.brk ≤ H.brk)
    (hfr : ∀ a, a < w.heap.brk → a ∉ footprint m l → H.cells a = w.heap.cells a)
    (hfp : ∀ a ∈ footprint M L, a ∈ footprint m l ∨ w.heap.brk ≤ a)
    (hload : 10 ≤ M.capacity ∧ 4 * M.sizee < 3 * M.capacity + 4)
    (hdist : (∀ a b, equal a b = true → hash a = hash b) → Distinct equal L) :
    WInv hash equal ⟨H, w.maps.set i M⟩ := by
  have hdisj_new : ∀ k mk (lk : List (Nat × (K × V))), k ≠ i → w.maps[k]? = some mk →
      Rep hash w.heap mk lk → (footprint M L).Disjoint (footprint mk lk) := by
    intro k mk lk hki hk rk a ha hak
    rcases hfp a ha with h1 | h1
    · exact inv.disj i k m mk l lk (Ne.symm hki) hm hk r rk h1 hak
    · have := footprint_bound rk a hak
      omega
  refine ⟨?_, ?_, ?_, ?_⟩
  · intro k mk hk
    rcases getElem?_set_cases hk with ⟨-, rfl⟩ | ⟨hki, hk2⟩
    · exact ⟨L, R⟩
    · obtain ⟨lk, rk⟩ := inv.rep k mk hk2
      exact ⟨lk, winv_other inv hm r hbrk hfr hki hk2 rk⟩
  · intro k1 k2 m1 m2 l1 l2 hne h1 h2 r1 r2
    rcases getElem?_set_cases h1 with ⟨hk1, rfl⟩ | ⟨hk1, h1'⟩ <;>
      rcases getElem?_set_cases h2 with ⟨hk2, rfl⟩ | ⟨hk2, h2'⟩
    · exact absurd (hk1.trans hk2.symm) hne
    · obtain ⟨lk, rk⟩ := inv.rep k2 m2 h2'
      have rk' := winv_other inv hm r hbrk hfr hk2 h2' rk
      rw [← R.unique r1, ← rk'.unique r2]
      exact hdisj_new k2 m2 lk hk2 h2' rk
    · obtain ⟨lk, rk⟩ := inv.rep k1 m1 h1'
      have rk' := winv_other inv hm r hbrk hfr hk1 h1' rk
      rw [← R.unique r2, ← rk'.unique r1]
      exact (hdisj_new k1 m1 lk hk1 h1' rk).symm
    · obtain ⟨la, ra⟩ := inv.rep k1 m1 h1'
      obtain ⟨lb, rb⟩ := inv.rep k2 m2 h2'
      have ra' := winv_other inv hm r hbrk hfr hk1 h1' ra
      have rb' := winv_other inv hm r hbrk hfr hk2 h2' rb
      rw [← ra'.unique r1, ← rb'.unique r2]
      exact inv.disj k1 k2 m1 m2 la lb hne h1' h2' ra rb
  · intro k mk hk
    rcases getElem?_set_cases hk with ⟨-, rfl⟩ | ⟨hki, hk2⟩
    · exact hload
    · exact inv.load k mk hk2
  · intro hh k mk lk hk rk
    rcases getElem?_set_cases hk with ⟨-, rfl⟩ | ⟨hki, hk2⟩
    · rw [← R.unique rk]
      exact hdist hh
    · obtain ⟨la, ra⟩ := inv.rep k mk hk2
      have ra' := winv_other inv hm r hbrk hfr hki hk2 ra
      rw [← ra'.unique rk]
      exact inv.distinct hh k mk la hk2 ra

theorem winv_push {hash : K → Nat} {equal : K → K → Bool} {w : World K V}
    {M : linked_hashmap} {L : List (Nat × (K × V))} {H : Heap K V}
    (inv : WInv hash equal w) (R : Rep hash H M L) (hbrk : w.heap.brk ≤ H.brk)
    (hfr : ∀ a, a < w.heap.brk → H.cells a = w.heap.cells a)
    (hfp : ∀ a ∈ footprint M L, w.heap.brk ≤ a)
    (hload : 10 ≤ M.capacity ∧ 4 * M.sizee < 3 * M.capacity + 4)
    (hdist : (∀ a b, equal a b = true → hash a = hash b) → Distinct equal L) :
    WInv hash equal ⟨H, w.maps ++ [M]⟩ := by
  have hold : ∀ {mk : linked_hashmap} {lk : List (Nat × (K × V))},
      Rep hash w.heap mk lk → Rep hash H mk lk := fun rk =>
    rk.preserved hbrk (fun a ha => hfr a (footprint_bound rk a ha))
  have hdisj_new : ∀ mk (lk : List (Nat × (K × V))),
      Rep hash w.heap mk lk → (footprint M L).Disjoint (footprint mk lk) := by
    intro mk lk rk a ha hak
    have h1 := hfp a ha
    have := footprint_bound rk a hak
    omega
  refine ⟨?_, ?_, ?_, ?_⟩
  · intro k mk hk
    rcases getElem?_concat_cases hk with ⟨-, rfl⟩ | ⟨-, hk2⟩
    · exact ⟨L, R⟩
    · obtain ⟨lk, rk⟩ := inv.rep k mk hk2
      exact ⟨lk, hold rk⟩
  · intro k1 k2 m1 m2 l1 l2 hne h1 h2 r1 r2
    rcases getElem?_concat_cases h1 with ⟨hk1, rfl⟩ | ⟨hk1, h1'⟩ <;>
      rcases getElem?_concat_cases h2 with ⟨hk2, rfl⟩ | ⟨hk2, h2'⟩
    · exact absurd (hk1.trans hk2.symm) hne
    · obtain ⟨lk, rk⟩ := inv.rep k2 m2 h2'
      rw [← R.unique r1, ← (hold rk).unique r2]
      exact hdisj_new m2 lk rk
    · obtain ⟨lk, rk⟩ := inv.rep k1 m1 h1'
      rw [← R.unique r2, ← (hold rk).unique r1]
      exact (hdisj_new m1 lk rk).symm
    · obtain ⟨la, ra⟩ := inv.rep k1 m1 h1'
      obtain ⟨lb, rb⟩ := inv.rep k2 m2 h2'
      rw [← (hold ra).unique r1, ← (hold rb).unique r2]
      exact inv.disj k1 k2 m1 m2 la lb hne h1' h2' ra rb
  · intro k mk hk
    rcases getElem?_concat_cases hk with ⟨-, rfl⟩ | ⟨-, hk2⟩
    · exact hload
    · exact inv.load k mk hk2
  · intro hh k mk lk hk rk
    rcases getElem?_concat_cases hk with ⟨-, rfl⟩ | ⟨-, hk2⟩
    · rw [← R.unique rk]
      exact hdist hh
    · obtain ⟨la, ra⟩ := inv.rep k mk hk2
      rw [← (hold ra).unique rk]
      exact inv.distinct hh k mk la hk2 ra

/-- A cursor that `erase` accepts is a live node of the map. -/
theorem erase_ok_mem {hash : K → Nat} {h H : Heap K V} {m M : linked_hashmap}
    {l : List (Nat × (K × V))} (r : Rep hash h m l) {pos : Nat}
    (he : linked_hashmap.erase hash h m pos = .ok (H, M)) :
    ∃ pre e post, l = pre ++ e :: post ∧ e.1 = pos := by
  by_cases hmem : pos ∈ l.map Prod.fst
  · rw [List.mem_map] at hmem
    obtain ⟨e, he1, he2⟩ := hmem
    obtain ⟨p, q, hs⟩ := List.append_of_mem he1
    exact ⟨p, e, q, hs, he2⟩
  · exfalso
    cases hc : h.cells pos with
    | none =>
      simp [linked_hashmap.erase, Heap.read, hc] at he
    | some n =>
      rw [erase_spec_foreign r hc hmem] at he
      exact Except.noConfusion he

/-- The reference `at` returns designates a live node of the map. -/
theorem at_ok_mem {hash : K → Nat} {equal : K → K → Bool} {h : Heap K V} {m : linked_hashmap}
    {l : List (Nat × (K × V))} (r : Rep hash h m l) {key : K} {ref : Nat × V}
    (he : linked_hashmap.at_ hash equal h m key = .ok ref) :
    ∃ pre e post, l = pre ++ e :: post ∧ e.1 = ref.1 ∧ e.2.2 = ref.2 ∧
      spec_lookup hash equal m.capacity l key = some e := by
  simp only [linked_hashmap.at_, lookup_spec equal r] at he
  cases hs : spec_lookup hash equal m.capacity l key with
  | none => simp [hs] at he
  | some e =>
    simp only [hs] at he
    injection he with he
    have hmem : e ∈ l := by
      unfold spec_lookup at hs
      exact List.mem_reverse.1 (List.mem_of_find?_eq_some hs)
    obtain ⟨p, q, hsp⟩ := List.append_of_mem hmem
    exact ⟨p, e, q, hsp, by rw [← he], by rw [← he], rfl⟩

theorem write_keys (pre post : List (Nat × (K × V))) (e : Nat × (K × V)) (v : V) :
    (pre ++ (e.1, (e.2.1, v)) :: post).map (fun x => x.2.1) =
      (pre ++ e :: post).map (fun x => x.2.1) := by
  simp

theorem write_footprint (m : linked_hashmap) (pre post : List (Nat × (K × V)))
    (e : Nat × (K × V)) (v : V) :
    footprint m (pre ++ (e.1, (e.2.1, v)) :: post) = footprint m (pre ++ e :: post) := by
  simp [footprint]

theorem winv_start (hash : K → Nat) (equal : K → K → Bool) :
    WInv hash equal (⟨Heap.empty, []⟩ : World K V) := by
  refine ⟨?_, ?_, ?_, ?_⟩
  · intro i m hm; simp at hm
  · intro i j mi mj li lj _ hi; simp at hi
  · intro i m hm; simp at hm
  · intro _ i m l hm; simp at hm

theorem reachable_inv [Inhabited V] {hash : K → Nat} {equal : K → K → Bool} {w : World K V}
    (hr : Reachable hash equal w) : WInv hash equal w := by
  induction hr with
  | start => exact winv_start hash equal
  | @construct w _ inv =>
    obtain ⟨R, hM, hbrk, hfr⟩ := construct_spec (V := V) hash w.heap
    refine winv_push inv R (by omega) hfr ?_ ?_ (fun _ => List.Pairwise.nil)
    · intro a ha
      rw [hM] at ha
      simp only [footprint, List.map_nil, List.mem_cons, List.not_mem_nil, or_false] at ha
      omega
    · rw [hM]
      exact ⟨le_refl _, by show 4 * 0 < 3 * 10 + 4; omega⟩
  | @copy_construct w j other M H _ hj hrun inv =>
    obtain ⟨lo, ro⟩ := inv.rep j other hj
    obtain ⟨H1, map1, lc, c, hrun1, hgrow, -, rc, hcopy, hge, hbrk, hfr⟩ := copy_construct_spec ro
    rw [hrun1] at hrun
    injection hrun with hrun
    injection hrun with h1 h2
    subst h1 h2
    obtain ⟨c1, hg1, hc10, hc4⟩ := grow_capacity_ok other.sizee
    rw [hgrow] at hg1
    injection hg1 with hg1
    subst hg1
    refine winv_push inv rc (by omega) hfr ?_ ⟨hc10, by show 4 * other.sizee < 3 * c + 4; omega⟩ ?_
    · intro a ha
      simp only [footprint, List.mem_cons] at ha
      rcases ha with rfl | rfl | ha
      · exact le_refl _
      · omega
      · have := hge a ha
        omega
    · intro hh
      exact (inv.distinct hh j other lo hj ro).of_keys_eq (keys_eq_of_snd_eq hcopy)
  | @assign w i j m other M H _ hi hj hrun inv =>
    obtain ⟨l, r⟩ := inv.rep i m hi
    by_cases hij : i = j
    · simp only [hij, decide_True, assign_self] at hrun
      injection hrun with hrun
      injection hrun with h1 h2
      subst h1 h2
      subst hij
      rw [set_of_getElem? hi]
      exact inv
    · obtain ⟨lo, ro⟩ := inv.rep j other hj
      obtain ⟨H1, M1, lc, hrun1, -, rc, hcopy, hhd, htl, hsz, hcap0, hcap1, hge, hbrk, hfr⟩ :=
        assign_spec r ro (inv.disj i j m other l lo hij hi hj r ro)
      simp only [hij, decide_False] at hrun
      rw [hrun1] at hrun
      injection hrun with hrun
      injection hrun with h1 h2
      subst h1 h2
      refine winv_update inv hi r rc hbrk hfr ?_ ?_ ?_
      · intro a ha
        simp only [footprint, List.mem_cons] at ha ⊢
        rcases ha with rfl | rfl | ha
        · left; left; exact hhd
        · left; right; left; exact htl
        · right; exact hge a ha
      · by_cases hs : other.sizee = 0
        · rw [hcap0 hs, hsz, hs]
          exact ⟨(inv.load i m hi).1, by omega⟩
        · obtain ⟨c1, hg1, hc10, hc4⟩ := grow_capacity_ok other.sizee
          rw [hcap1 hs] at hg1
          injection hg1 with hg1
          rw [hg1, hsz]
          exact ⟨hc10, by omega⟩
      · intro hh
        exact (inv.distinct hh j other lo hj ro).of_keys_eq (keys_eq_of_snd_eq hcopy)
  | @insert w i m M H value res _ hi hrun inv =>
    obtain ⟨l, r⟩ := inv.rep i m hi
    cases hs : spec_lookup hash equal m.capacity l value.1 with
    | some p =>
      rw [insert_spec_found equal r value hs] at hrun
      injection hrun with hrun
      injection hrun with h1 h2
      injection h2 with h2 h3
      subst h1 h2
      rw [set_of_getElem? hi]
      exact inv
    | none =>
      obtain ⟨H1, M1, hrun1, r1, hbrk, hfr, hhd, htl, hsz, hcap⟩ := insert_spec_new equal r value hs
      rw [hrun1] at hrun
      injection hrun with hrun
      injection hrun with h1 h2
      injection h2 with h2 h3
      subst h1 h2
      have hld := inv.load i m hi
      refine winv_update inv hi r r1 (by omega) (fun a ha hfp => hfr a (by omega) hfp) ?_ ?_ ?_
      · intro a ha
        simp only [footprint, List.map_append, List.map_cons, List.map_nil, List.mem_cons,
          List.mem_append, List.mem_singleton, List.not_mem_nil, or_false, hhd, htl] at ha ⊢
        rcases ha with h1 | h1 | h1 | h1
        · left; left; exact h1
        · left; right; left; exact h1
        · left; right; right; exact h1
        · right; omega
      · rw [hcap, hsz]
        split <;> omega
      · intro hh
        exact (inv.distinct hh i m l hi r).concat (spec_lookup_none hh hs)
  | @subscript w i m M H key res _ hi hrun inv =>
    obtain ⟨l, r⟩ := inv.rep i m hi
    cases hs : spec_lookup hash equal m.capacity l key with
    | some p =>
      rw [subscript_spec_found equal r key hs] at hrun
      injection hrun with hrun
      injection hrun with h1 h2
      injection h2 with h2 h3
      subst h1 h2
      rw [set_of_getElem? hi]
      exact inv
    | none =>
      obtain ⟨H1, M1, hrun1, r1, hbrk, hfr, hhd, htl, hsz, hcap⟩ := subscript_spec_new equal r key hs
      rw [hrun1] at hrun
      injection hrun with hrun
      injection hrun with h1 h2
      injection h2 with h2 h3
      subst h1 h2
      have hld := inv.load i m hi
      refine winv_update inv hi r r1 (by omega) (fun a ha hfp => hfr a (by omega) hfp) ?_ ?_ ?_
      · intro a ha
        simp only [footprint, List.map_append, List.map_cons, List.map_nil, List.mem_cons,
          List.mem_append, List.mem_singleton, List.not_mem_nil, or_false, hhd, htl] at ha ⊢
        rcases ha with h1 | h1 | h1 | h1
        · left; left; exact h1
        · left; right; left; exact h1
        · left; right; right; exact h1
        · right; omega
      · rw [hcap, hsz]
        split <;> omega
      · intro hh
        exact (inv.distinct hh i m l hi r).concat (spec_lookup_none hh hs)
  | @erase w i m M H pos _ hi hrun inv =>
    obtain ⟨l, r⟩ := inv.rep i m hi
    obtain ⟨pre, e, post, hl, rfl⟩ := erase_ok_mem r hrun
    subst hl
    obtain ⟨H1, M1, hrun1, r1, hbrk, hcap, hhd, htl, hsz, hfr, -⟩ := erase_spec r
    rw [hrun1] at hrun
    injection hrun with hrun
    injection hrun with h1 h2
    subst h1 h2
    have hld := inv.load i m hi
    refine winv_update inv hi r r1 (by omega) (fun a _ hfp => hfr a hfp) ?_ ?_ ?_
    · intro a ha
      left
      simp only [footprint, List.map_append, List.map_cons, List.mem_cons, List.mem_append,
        hhd, htl] at ha ⊢
      tauto
    · rw [hcap, hsz]
      omega
    · intro hh
      exact (inv.distinct hh i m _ hi r).remove
  | @clear w i m M H _ hi hrun inv =>
    obtain ⟨l, r⟩ := inv.rep i m hi
    obtain ⟨H1, hrun1, r1, hbrk, hfr, -⟩ := clear_spec r
    rw [hrun1] at hrun
    injection hrun with hrun
    injection hrun with h1 h2
    subst h1 h2
    have hld := inv.load i m hi
    refine winv_update inv hi r r1 (by omega) (fun a _ hfp => hfr a hfp) ?_ ?_
      (fun _ => List.Pairwise.nil)
    · intro a ha
      left
      simp only [footprint, List.map_nil, List.mem_cons, List.not_mem_nil, or_false] at ha ⊢
      tauto
    · exact ⟨hld.1, by show 4 * 0 < 3 * m.capacity + 4; omega⟩
  | @doublespace w i m M H _ hi hrun inv =>
    obtain ⟨l, r⟩ := inv.rep i m hi
    obtain ⟨H1, map1, hrun1, r1, hbrk, hfr⟩ := doublespace_spec r
    rw [hrun1] at hrun
    injection hrun with hrun
    injection hrun with h1 h2
    subst h1 h2
    have hld := inv.load i m hi
    refine winv_update inv hi r r1 (by omega) (fun a _ hfp => hfr a (fun hm => hfp (by
        simp [footprint, hm]))) (fun a ha => Or.inl ha) ?_ (fun hh => inv.distinct hh i m l hi r)
    exact ⟨by show 10 ≤ m.capacity * 2; omega, by show 4 * m.sizee < 3 * (m.capacity * 2) + 4; omega⟩
  | @write w i m H key ref v _ hi hat hset inv =>
    obtain ⟨l, r⟩ := inv.rep i m hi
    obtain ⟨pre, e, post, hl, he1, -, -⟩ := at_ok_mem r hat
    subst hl
    obtain ⟨H1, hset1, r1, hbrk, hfr⟩ := set_second_spec r v
    rw [← he1, hset1] at hset
    injection hset with hset
    subst hset
    have hld := inv.load i m hi
    have := winv_update inv hi r r1 (by omega) (fun a _ hfp => hfr a (fun hm => hfp (by
        simp [footprint, hm]))) (fun a ha => Or.inl (by rw [write_footprint] at ha; exact ha)) hld
        (fun hh => (inv.distinct hh i m _ hi r).of_keys_eq (write_keys pre post e v))
    rw [set_of_getElem? hi] at this
    exact this

/-- What the invariant says of one map of a reachable state. -/
theorem reachable_rep [Inhabited V] {hash : K → Nat} {equal : K → K → Bool} {w : World K V}
    {i : Nat} {m : linked_hashmap} (hr : Reachable hash equal w) (hm : w.maps[i]? = some m) :
    ∃ l : List (Nat × (K × V)), Rep hash w.heap m l ∧ linked_hashmap.to_list w.heap m = .ok l ∧
      ((∀ a b, equal a b = true → hash a = hash b) → Distinct equal l) := by
  have inv := reachable_inv hr
  obtain ⟨l, r⟩ := inv.rep i m hm
  exact ⟨l, r, to_list_spec r, fun hh => inv.distinct hh i m l hm r⟩

theorem reachable_rep_of_list [Inhabited V] {hash : K → Nat} {equal : K → K → Bool}
    {w : World K V} {i : Nat} {m : linked_hashmap} {l : List (Nat × (K × V))}
    (hr : Reachable hash equal w) (hm : w.maps[i]? = some m)
    (hl : linked_hashmap.to_list w.heap m = .ok l) :
    Rep hash w.heap m l ∧ ((∀ a b, equal a b = true → hash a = hash b) → Distinct equal l) := by
  obtain ⟨l1, r, hl1, hd⟩ := reachable_rep hr hm
  rw [hl1] at hl
  injection hl with hl
  subst hl
  exact ⟨r, hd⟩

theorem spec_lookup_eq_find {hash : K → Nat} {equal : K → K → Bool}
    (hh : ∀ a b, equal a b = true → hash a = hash b) (c : Nat) (l : List (Nat × (K × V)))
    (k : K) : spec_lookup hash equal c l k = l.reverse.find? (fun e => equal e.2.1 k) := by
  unfold spec_lookup
  congr 1
  funext e
  cases heq : equal e.2.1 k with
  | false => simp
  | true => simp [hh _ _ heq]

theorem spec_lookup_mem {hash : K → Nat} {equal : K → K → Bool} {c : Nat}
    {l : List (Nat × (K × V))} {k : K} {e : Nat × (K × V)}
    (hs : spec_lookup hash equal c l k = some e) : e ∈ l ∧ equal e.2.1 k = true := by
  unfold spec_lookup at hs
  have h1 := List.mem_of_find?_eq_some hs
  have h2 := List.find?_some hs
  simp only [Bool.and_eq_true] at h2
  exact ⟨List.mem_reverse.1 h1, h2.2⟩

theorem spec_lookup_absent {hash : K → Nat} {equal : K → K → Bool} {c : Nat}
    {l : List (Nat × (K × V))} {k : K} (ha : ∀ e ∈ l, equal e.2.1 k = false) :
    spec_lookup hash equal c l k = none := by
  unfold spec_lookup
  rw [List.find?_eq_none]
  intro e he
  simp [ha e (List.mem_reverse.1 he)]

theorem spec_lookup_present {hash : K → Nat} {equal : K → K → Bool} (hk : KeyLaws hash equal)
    {c : Nat} {l : List (Nat × (K × V))} {k : K} {e : Nat × (K × V)}
    (hd : Distinct equal l) (he : e ∈ l) (heq : equal e.2.1 k = true) :
    spec_lookup hash equal c l k = some e := by
  rw [spec_lookup_eq_find hk.hash_eq]
  obtain ⟨pre, post, rfl⟩ := List.append_of_mem he
  unfold Distinct at hd
  rw [List.pairwise_append] at hd
  obtain ⟨-, hpost, hcross⟩ := hd
  rw [List.pairwise_cons] at hpost
  have hpost_none : post.reverse.find? (fun x => equal x.2.1 k) = none := by
    rw [List.find?_eq_none]
    intro x hx
    have h1 := hpost.1 x (List.mem_reverse.1 hx)
    intro h2
    have h3 := hk.trans _ _ _ heq (hk.symm _ _ h2)
    rw [h1] at h3
    exact Bool.noConfusion h3
  simp only [List.reverse_append, List.reverse_cons, List.append_assoc, List.find?_append,
    hpost_none, Option.none_or, List.singleton_append, List.find?_cons, heq]

theorem find_of_lookup {hash : K → Nat} {equal : K → K → Bool} {h : Heap K V}
    {m : linked_hashmap} {l : List (Nat × (K × V))} (r : Rep hash h m l) (k : K) :
    linked_hashmap.find hash equal h m k =
      .ok (match spec_lookup hash equal m.capacity l k with
        | none => m.tail
        | some e => e.1) := by
  simp only [linked_hashmap.find, lookup_spec equal r, linked_hashmap.end_]
  cases spec_lookup hash equal m.capacity l k <;> rfl

theorem count_of_lookup {hash : K → Nat} {equal : K → K → Bool} {h : Heap K V}
    {m : linked_hashmap} {l : List (Nat × (K × V))} (r : Rep hash h m l) (k : K) :
    linked_hashmap.count hash equal h m k =
      .ok (match spec_lookup hash equal m.capacity l k with
        | none => 0
        | some _ => 1) := by
  simp only [linked_hashmap.count, lookup_spec equal r]
  cases spec_lookup hash equal m.capacity l k <;> rfl

theorem nat_key_laws : KeyLaws nat_hash nat_equal where
  refl := fun a => by simp [nat_equal]
  symm := fun a b h => by simp [nat_equal] at h ⊢; exact h.symm
  trans := fun a b c h1 h2 => by simp [nat_equal] at h1 h2 ⊢; exact h1.trans h2
  hash_eq := fun a b h => by simp [nat_equal] at h; simp [nat_hash, h]

theorem reachable_declare [Inhabited V] {hash : K → Nat} {equal : K → K → Bool} {w : World K V}
    (hr : Reachable hash equal w) : Reachable hash equal w.declare :=
  Reachable.construct hr

theorem reachable_put [Inhabited V] {hash : K → Nat} {equal : K → K → Bool} {w : World K V}
    (hr : Reachable hash equal w) (i : Nat) (value : K × V) :
    Reachable hash equal (w.put hash equal i value) := by
  cases hm : w.maps[i]? with
  | none => simp only [World.put, hm]; exact hr
  | some m =>
    cases hi : linked_hashmap.insert hash equal w.heap m value with
    | error e => simp only [World.put, hm, hi]; exact hr
    | ok res =>
      obtain ⟨H, M, r⟩ := res
      simp only [World.put, hm, hi]
      exact Reachable.insert hr hm hi

theorem reachable_remove [Inhabited V] {hash : K → Nat} {equal : K → K → Bool} {w : World K V}
    (hr : Reachable hash equal w) (i : Nat) (pos : iterator) :
    Reachable hash equal (w.remove hash i pos) := by
  cases hm : w.maps[i]? with
  | none => simp only [World.remove, hm]; exact hr
  | some m =>
    cases hi : linked_hashmap.erase hash w.heap m pos with
    | error e => simp only [World.remove, hm, hi]; exact hr
    | ok res =>
      obtain ⟨H, M⟩ := res
      simp only [World.remove, hm, hi]
      exact Reachable.erase hr hm hi

theorem find_congr {hash : K → Nat} {equal : K → K → Bool}
    (hh : ∀ a b, equal a b = true → hash a = hash b) {h1 h2 : Heap K V}
    {m1 m2 : linked_hashmap} {l1 l2 : List (Nat × (K × V))} (r1 : Rep hash h1 m1 l1)
    (r2 : Rep hash h2 m2 l2) (htl : m1.tail = m2.tail) (k : K)
    (hf : l1.reverse.find? (fun e => equal e.2.1 k) = l2.reverse.find? (fun e => equal e.2.1 k)) :
    linked_hashmap.find hash equal h1 m1 k = linked_hashmap.find hash equal h2 m2 k := by
  rw [find_of_lookup r1, find_of_lookup r2, spec_lookup_eq_find hh, spec_lookup_eq_find hh, hf,
    htl]

theorem demo_two_reachable : Reachable nat_hash nat_equal demo_two :=
  reachable_put (reachable_put (reachable_declare Reachable.start) 0 (1, 'a')) 0 (2, 'b')

theorem demo_fresh_reachable : Reachable nat_hash nat_equal demo_fresh :=
  reachable_declare Reachable.start

theorem demo_pair_reachable : Reachable nat_hash nat_equal demo_pair :=
  reachable_put (reachable_declare demo_two_reachable) 1 (9, 'z')

theorem demo_seven_reachable : Reachable nat_hash nat_equal demo_seven := by
  have h : ∀ (ks : List Nat) (w : World Nat Int), Reachable nat_hash nat_equal w →
      Reachable nat_hash nat_equal (ks.foldl (fun w k => w.put nat_hash nat_equal 0 (k, 0)) w) := by
    intro ks
    induction ks with
    | nil => intro w hw; exact hw
    | cons k ks ih => intro w hw; exact ih _ (reachable_put hw 0 (k, 0))
  exact h _ _ demo_fresh_reachable

theorem getElem?_set_self_of_some {α : Type} {l : List α} {i : Nat} {a b : α}
    (h : l[i]? = some a) : (l.set i b)[i]? = some b := by
  have hlt : i < l.length := by
    by_contra hc
    rw [List.getElem?_eq_none (by omega)] at h
    exact Option.noConfusion h
  simp [hlt]

theorem find?_reverse_remove {α : Type} (p : α → Bool) (pre post : List α) (e : α)
    (he : p e = false) :
    (pre ++ e :: post).reverse.find? p = (pre ++ post).reverse.find? p := by
  simp [List.find?_append, List.find?_cons, he]

theorem drain_rep {hash : K → Nat} :
    ∀ (l : List (Nat × (K × V))) (h : Heap K V) (m : linked_hashmap), Rep hash h m l →
      ∃ H M, drain hash l.length h m = .ok (H, M) ∧ Rep hash H M ([] : List (Nat × (K × V))) := by
  intro l
  induction l with
  | nil =>
    intro h m r
    exact ⟨h, m, rfl, r⟩
  | cons e l ih =>
    intro h m r
    have r0 : Rep hash h m ([] ++ e :: l) := r
    obtain ⟨H1, M1, hrun, r1, -⟩ := erase_spec r0
    obtain ⟨H, M, hd, r2⟩ := ih H1 M1 r1
    refine ⟨H, M, ?_, r2⟩
    simp only [List.length_cons, drain, linked_hashmap.begin, Heap.read, r.order.head_cell,
      first_addr_cons, hrun, hd]

theorem last_insertion_concat (equal : K → K → Bool) (k : K) (log : List (Event K))
    (ev : Event K) :
    last_insertion equal k (log ++ [ev]) =
      if ev.inserts equal k then some log.length else last_insertion equal k log := by
  simp [last_insertion, latest_insertion]

theorem survives_concat (equal : K → K → Bool) (k : K) (log : List (Event K)) (ev : Event K) :
    survives equal k (log ++ [ev]) =
      if ev.inserts equal k then true
      else if ev.erases equal k then false else survives equal k log := by
  simp [survives, present_after]

theorem latest_insertion_lt (equal : K → K → Bool) (k : K) :
    ∀ (r : List (Event K)) (i : Nat), latest_insertion equal k r = some i → i < r.length := by
  intro r
  induction r with
  | nil => intro i h; simp [latest_insertion] at h
  | cons ev r ih =>
    intro i h
    simp only [latest_insertion] at h
    split at h
    · injection h with h
      simp [← h]
    · have := ih i h
      simp only [List.length_cons]
      omega

theorem last_insertion_lt {equal : K → K → Bool} {k : K} {log : List (Event K)} {i : Nat}
    (h : last_insertion equal k log = some i) : i < log.length := by
  have := latest_insertion_lt equal k log.reverse i h
  simpa using this

theorem present_after_latest (equal : K → K → Bool) (k : K) :
    ∀ r : List (Event K), present_after equal k r = true →
      ∃ i, latest_insertion equal k r = some i := by
  intro r
  induction r with
  | nil => intro h; simp [present_after] at h
  | cons ev r ih =>
    intro h
    simp only [present_after] at h
    simp only [latest_insertion]
    by_cases h1 : ev.inserts equal k = true
    · exact ⟨_, by rw [if_pos h1]⟩
    · rw [if_neg h1] at h ⊢
      by_cases h2 : ev.erases equal k = true
      · rw [if_pos h2] at h
        exact Bool.noConfusion h
      · rw [if_neg h2] at h
        exact ih h

theorem survives_last {equal : K → K → Bool} {k : K} {log : List (Event K)}
    (h : survives equal k log = true) : ∃ i, last_insertion equal k log = some i :=
  present_after_latest equal k log.reverse h

theorem precedes_iff {t : K → Option Nat} {a b : K} :
    precedes t a b ↔ ∃ i j, t a = some i ∧ t b = some j ∧ i < j := by
  unfold precedes
  cases ha : t a with
  | none => simp [earlier]
  | some i =>
    cases hb : t b with
    | none => simp [earlier]
    | some j => simp [earlier]

/-- An event that neither inserts nor erases leaves the record's verdicts alone. -/
theorem logged_idle {hash : K → Nat} {equal : K → K → Bool} {h : Heap K V} {m : linked_hashmap}
    {log : List (Event K)} {l : List (Nat × (K × V))} (J : Logged hash equal h m log l)
    (ev : Event K) (h1 : ∀ k, ev.inserts equal k = false) (h2 : ∀ k, ev.erases equal k = false) :
    Logged hash equal h m (log ++ [ev]) l := by
  refine ⟨J.rep, J.distinct, ?_, ?_⟩
  · intro k
    rw [survives_concat, h1, h2]
    exact J.surv k
  · have : (fun k => last_insertion equal k (log ++ [ev])) =
        (fun k => last_insertion equal k log) := by
      funext k
      rw [last_insertion_concat, h1]
      rfl
    rw [this]
    exact J.order

theorem logged_insert {hash : K → Nat} {equal : K → K → Bool} (hk : KeyLaws hash equal)
    {h H : Heap K V} {m M : linked_hashmap} {log : List (Event K)} {l : List (Nat × (K × V))}
    (J : Logged hash equal h m log l) {x : Nat × (K × V)}
    (R : Rep hash H M (l ++ [x])) (habs : ∀ e ∈ l, equal e.2.1 x.2.1 = false) :
    Logged hash equal H M (log ++ [Event.inserted x.2.1]) (l ++ [x]) := by
  have hrev : ∀ e ∈ l, equal x.2.1 e.2.1 = false := by
    intro e he
    cases hc : equal x.2.1 e.2.1 with
    | false => rfl
    | true =>
      have := hk.symm _ _ hc
      rw [habs e he] at this
      exact Bool.noConfusion this
  refine ⟨R, J.distinct.concat habs, ?_, ?_⟩
  · intro k
    rw [survives_concat]
    simp only [Event.inserts, Event.erases]
    by_cases hx : equal x.2.1 k = true
    · simp only [hx, if_true, true_iff]
      exact ⟨x, by simp, hx⟩
    · simp only [hx, if_false, Bool.false_eq_true]
      rw [J.surv k]
      constructor
      · rintro ⟨e, he, heq⟩
        exact ⟨e, List.mem_append_left _ he, heq⟩
      · rintro ⟨e, he, heq⟩
        rcases List.mem_append.1 he with he | he
        · exact ⟨e, he, heq⟩
        · simp only [List.mem_singleton] at he
          subst he
          exact absurd heq hx
  · rw [List.map_append, List.pairwise_append]
    refine ⟨?_, by simp, ?_⟩
    · refine J.order.imp_of_mem ?_
      intro a b ha hb hab
      obtain ⟨i, j, hi, hj, hij⟩ := precedes_iff.1 hab
      simp only [List.mem_map] at ha hb
      obtain ⟨ea, hea, rfl⟩ := ha
      obtain ⟨eb, heb, rfl⟩ := hb
      refine precedes_iff.2 ⟨i, j, ?_, ?_, hij⟩
      · simp only [last_insertion_concat, Event.inserts, hrev ea hea, Bool.false_eq_true, if_false]
        exact hi
      · simp only [last_insertion_concat, Event.inserts, hrev eb heb, Bool.false_eq_true, if_false]
        exact hj
    · intro a ha b hb
      simp only [List.map_cons, List.map_nil, List.mem_singleton] at hb
      subst hb
      simp only [List.mem_map] at ha
      obtain ⟨ea, hea, rfl⟩ := ha
      obtain ⟨i, hi⟩ := survives_last ((J.surv ea.2.1).2 ⟨ea, hea, hk.refl _⟩)
      refine precedes_iff.2 ⟨i, log.length, ?_, ?_, last_insertion_lt hi⟩
      · simp only [last_insertion_concat, Event.inserts, hrev ea hea, Bool.false_eq_true, if_false]
        exact hi
      · simp only [last_insertion_concat, Event.inserts, hk.refl, if_true]

theorem logged_erase {hash : K → Nat} {equal : K → K → Bool} (hk : KeyLaws hash equal)
    {h H : Heap K V} {m M : linked_hashmap} {log : List (Event K)}
    {pre post : List (Nat × (K × V))} {e : Nat × (K × V)}
    (J : Logged hash equal h m log (pre ++ e :: post)) (R : Rep hash H M (pre ++ post)) :
    Logged hash equal H M (log ++ [Event.erased e.2.1]) (pre ++ post) := by
  have hd := J.distinct
  unfold Distinct at hd
  rw [List.pairwise_append, List.pairwise_cons] at hd
  obtain ⟨-, ⟨hpost, -⟩, hcross⟩ := hd
  have hother : ∀ x ∈ pre ++ post, equal e.2.1 x.2.1 = false := by
    intro x hx
    rcases List.mem_append.1 hx with hx | hx
    · cases hc : equal e.2.1 x.2.1 with
      | false => rfl
      | true =>
        have := hk.symm _ _ hc
        rw [hcross x hx e (by simp)] at this
        exact Bool.noConfusion this
    · exact hpost x hx
  refine ⟨R, J.distinct.remove, ?_, ?_⟩
  · intro k
    rw [survives_concat]
    simp only [Event.inserts, Event.erases, Bool.false_eq_true, if_false]
    by_cases hx : equal e.2.1 k = true
    · simp only [hx, if_true, Bool.false_eq_true, false_iff]
      rintro ⟨x, hx1, hx2⟩
      have := hk.trans _ _ _ hx (hk.symm _ _ hx2)
      rw [hother x hx1] at this
      exact Bool.noConfusion this
    · simp only [hx, if_false, Bool.false_eq_true]
      rw [J.surv k]
      constructor
      · rintro ⟨x, hx1, hx2⟩
        refine ⟨x, ?_, hx2⟩
        simp only [List.mem_append, List.mem_cons] at hx1 ⊢
        rcases hx1 with h1 | rfl | h1
        · exact Or.inl h1
        · exact absurd hx2 hx
        · exact Or.inr h1
      · rintro ⟨x, hx1, hx2⟩
        refine ⟨x, ?_, hx2⟩
        simp only [List.mem_append, List.mem_cons] at hx1 ⊢
        tauto
  · have hf : (fun k => last_insertion equal k (log ++ [Event.erased e.2.1])) =
        (fun k => last_insertion equal k log) := by
      funext k
      rw [last_insertion_concat]
      rfl
    rw [hf]
    refine J.order.sublist ?_
    exact (List.Sublist.append_left (List.sublist_cons_self e post) pre).map _

theorem perform_logged {hash : K → Nat} {equal : K → K → Bool} (hk : KeyLaws hash equal)
    {h h1 : Heap K V} {m m1 : linked_hashmap} {log : List (Event K)}
    {l : List (Nat × (K × V))} (J : Logged hash equal h m log l) (c : Call K V) {ev : Event K}
    (hp : perform hash equal h m c = .ok (h1, m1, ev)) :
    ∃ l1, Logged hash equal h1 m1 (log ++ [ev]) l1 := by
  cases c with
  | insert value =>
    cases hs : spec_lookup hash equal m.capacity l value.1 with
    | some p =>
      simp only [perform, insert_spec_found equal J.rep value hs] at hp
      injection hp with hp
      injection hp with e1 hp
      injection hp with e2 e3
      subst e1 e2 e3
      exact ⟨l, logged_idle J _ (fun _ => rfl) (fun _ => rfl)⟩
    | none =>
      obtain ⟨H, M, hrun, R, -⟩ := insert_spec_new equal J.rep value hs
      simp only [perform, hrun] at hp
      injection hp with hp
      injection hp with e1 hp
      injection hp with e2 e3
      subst e1 e2 e3
      exact ⟨_, logged_insert hk J R (spec_lookup_none hk.hash_eq hs)⟩
  | erase pos =>
    by_cases hmem : pos ∈ l.map Prod.fst
    · rw [List.mem_map] at hmem
      obtain ⟨e, he, rfl⟩ := hmem
      obtain ⟨pre, post, rfl⟩ := List.append_of_mem he
      obtain ⟨H, M, hrun, R, -⟩ := erase_spec J.rep
      have hcell := J.rep.order.cells pre e post rfl
      simp only [perform, hrun, iterator.deref, Heap.entry, Heap.read, hcell] at hp
      injection hp with hp
      injection hp with e1 hp
      injection hp with e2 e3
      subst e1 e2 e3
      exact ⟨_, logged_erase hk J R⟩
    · cases hc : h.cells pos with
      | none =>
        simp [perform, linked_hashmap.erase, Heap.read, hc] at hp
      | some n =>
        simp only [perform, erase_spec_foreign J.rep hc hmem] at hp
        injection hp with hp
        injection hp with e1 hp
        injection hp with e2 e3
        subst e1 e2 e3
        exact ⟨l, logged_idle J _ (fun _ => rfl) (fun _ => rfl)⟩

theorem run_logged {hash : K → Nat} {equal : K → K → Bool} (hk : KeyLaws hash equal) :
    ∀ (calls : List (Call K V)) (h : Heap K V) (m : linked_hashmap) (log : List (Event K))
      (l : List (Nat × (K × V))) (h1 : Heap K V) (m1 : linked_hashmap) (log1 : List (Event K)),
      Logged hash equal h m log l → run hash equal calls h m log = .ok (h1, m1, log1) →
      ∃ l1, Logged hash equal h1 m1 log1 l1 := by
  intro calls
  induction calls with
  | nil =>
    intro h m log l h1 m1 log1 J hr
    simp only [run] at hr
    injection hr with hr
    injection hr with e1 hr
    injection hr with e2 e3
    subst e1 e2 e3
    exact ⟨l, J⟩
  | cons c cs ih =>
    intro h m log l h1 m1 log1 J hr
    simp only [run] at hr
    cases hp : perform hash equal h m c with
    | error e => simp [hp] at hr
    | ok res =>
      obtain ⟨h2, m2, ev⟩ := res
      simp only [hp] at hr
      obtain ⟨l2, J2⟩ := perform_logged hk J c hp
      exact ih h2 m2 _ l2 h1 m1 log1 J2 hr

theorem logged_fresh (hash : K → Nat) (equal : K → K → Bool) (h0 : Heap K V) :
    Logged hash equal (linked_hashmap.construct h0).1 (linked_hashmap.construct h0).2 []
      ([] : List (Nat × (K × V))) :=
  ⟨(construct_spec hash h0).1, List.Pairwise.nil, fun k => by simp [survives, present_after],
    List.Pairwise.nil⟩

/-- A call on a well-formed map fails only by undefined behaviour, which is `erase`
with a cursor that designates no node. -/
theorem perform_error {hash : K → Nat} {equal : K → K → Bool} {h : Heap K V}
    {m : linked_hashmap} {l : List (Nat × (K × V))} (r : Rep hash h m l) (c : Call K V)
    {e : Error} (hp : perform hash equal h m c = .error e) : e = .undefined_behaviour := by
  cases c with
  | insert value =>
    exfalso
    cases hs : spec_lookup hash equal m.capacity l value.1 with
    | some p =>
      simp [perform, insert_spec_found equal r value hs] at hp
    | none =>
      obtain ⟨H, M, hrun, -⟩ := insert_spec_new equal r value hs
      simp [perform, hrun] at hp
  | erase pos =>
    by_cases hmem : pos ∈ l.map Prod.fst
    · exfalso
      rw [List.mem_map] at hmem
      obtain ⟨x, hx, rfl⟩ := hmem
      obtain ⟨pre, post, rfl⟩ := List.append_of_mem hx
      obtain ⟨H, M, hrun, -⟩ := erase_spec r
      have hcell := r.order.cells pre x post rfl
      simp [perform, hrun, iterator.deref, Heap.entry, Heap.read, hcell] at hp
    · cases hc : h.cells pos with
      | none =>
        simp only [perform, linked_hashmap.erase, Heap.read, hc] at hp
        injection hp with hp
        exact hp.symm
      | some n =>
        exfalso
        simp [perform, erase_spec_foreign r hc hmem] at hp

theorem run_error {hash : K → Nat} {equal : K → K → Bool} (hk : KeyLaws hash equal) :
    ∀ (calls : List (Call K V)) (h : Heap K V) (m : linked_hashmap) (log : List (Event K))
      (l : List (Nat × (K × V))) (e : Error),
      Logged hash equal h m log l → run hash equal calls h m log = .error e →
      e = .undefined_behaviour := by
  intro calls
  induction calls with
  | nil =>
    intro h m log l e J hr
    simp [run] at hr
  | cons c cs ih =>
    intro h m log l e J hr
    simp only [run] at hr
    cases hp : perform hash equal h m c with
    | error e1 =>
      simp only [hp] at hr
      injection hr with hr
      rw [← hr]
      exact perform_error J.rep c hp
    | ok res =>
      obtain ⟨h2, m2, ev⟩ := res
      simp only [hp] at hr
      obtain ⟨l2, J2⟩ := perform_logged hk J c hp
      exact ih h2 m2 _ l2 e J2 hr

theorem last_addr_getLast? (l : List (Nat × (K × V))) (head : Nat) :
    last_addr l head = match l.getLast? with
      | none => head
      | some x => x.1 := rfl

/-- The cell of the node before a cursor position has a non-null `pre` unless it is `head`. -/
theorem Order.pre_cell {h : Heap K V} {head tail : Nat} {l : List (Nat × (K × V))}
    {hn : List (Nat × (K × V)) → Nat × (K × V) → Option Nat} (r : Order h head tail l hn)
    (pre post : List (Nat × (K × V))) (hl : l = pre ++ post) :
    ∃ c, h.cells (last_addr pre head) = some c ∧ (c.pre = none ↔ pre = []) := by
  induction pre using List.reverseRecOn generalizing post with
  | nil => exact ⟨_, r.head_cell, by simp⟩
  | append_singleton p x _ =>
    rw [last_addr_concat]
    exact ⟨_, r.cells p x post (by simp [hl]), by simp⟩

theorem incr_live {h : Heap K V} {head tail : Nat} {l : List (Nat × (K × V))}
    {hn : List (Nat × (K × V)) → Nat × (K × V) → Option Nat} (r : Order h head tail l hn)
    {pre post : List (Nat × (K × V))} {e : Nat × (K × V)} (hl : l = pre ++ e :: post) :
    iterator.pre_incr h e.1 = .ok (first_addr post tail, first_addr post tail) ∧
    iterator.post_incr h e.1 = .ok (first_addr post tail, e.1) ∧
    iterator.incr h e.1 = .ok (first_addr post tail) := by
  simp [iterator.pre_incr, iterator.post_incr, iterator.incr, Heap.read, r.cells pre e post hl]

theorem incr_end {h : Heap K V} {head tail : Nat} {l : List (Nat × (K × V))}
    {hn : List (Nat × (K × V)) → Nat × (K × V) → Option Nat} (r : Order h head tail l hn) :
    iterator.pre_incr h tail = .error (.invalid_iterator, tail) ∧
    iterator.post_incr h tail = .error (.invalid_iterator, tail) ∧
    iterator.incr h tail = .error .invalid_iterator := by
  simp [iterator.pre_incr, iterator.post_incr, iterator.incr, Heap.read, r.tail_cell]

theorem decr_live {h : Heap K V} {head tail : Nat} {l : List (Nat × (K × V))}
    {hn : List (Nat × (K × V)) → Nat × (K × V) → Option Nat} (r : Order h head tail l hn)
    {pre post : List (Nat × (K × V))} {e : Nat × (K × V)} (hl : l = pre ++ e :: post) :
    (pre = [] → iterator.pre_decr h e.1 = .error (.invalid_iterator, e.1) ∧
      iterator.post_decr h e.1 = .error (.invalid_iterator, e.1) ∧
      iterator.decr h e.1 = .error .invalid_iterator) ∧
    (pre ≠ [] → iterator.pre_decr h e.1 = .ok (last_addr pre head, last_addr pre head) ∧
      iterator.post_decr h e.1 = .ok (last_addr pre head, e.1) ∧
      iterator.decr h e.1 = .ok (last_addr pre head)) := by
  obtain ⟨c, hc, hcp⟩ := r.pre_cell pre (e :: post) hl
  have hcell := r.cells pre e post hl
  constructor
  · intro hp
    have := hcp.2 hp
    simp [iterator.pre_decr, iterator.post_decr, iterator.decr, Heap.read, hcell, hc, this]
  · intro hp
    cases hq : c.pre with
    | none => exact absurd (hcp.1 hq) hp
    | some q =>
      simp [iterator.pre_decr, iterator.post_decr, iterator.decr, Heap.read, hcell, hc, hq]

theorem decr_end {h : Heap K V} {head tail : Nat} {l : List (Nat × (K × V))}
    {hn : List (Nat × (K × V)) → Nat × (K × V) → Option Nat} (r : Order h head tail l hn) :
    (l = [] → iterator.pre_decr h tail = .error (.invalid_iterator, tail) ∧
      iterator.post_decr h tail = .error (.invalid_iterator, tail) ∧
      iterator.decr h tail = .error .invalid_iterator) ∧
    (l ≠ [] → iterator.pre_decr h tail = .ok (last_addr l head, last_addr l head) ∧
      iterator.post_decr h tail = .ok (last_addr l head, tail) ∧
      iterator.decr h tail = .ok (last_addr l head)) := by
  obtain ⟨c, hc, hcp⟩ := r.pre_cell l [] (by simp)
  have hcell := r.tail_cell
  constructor
  · intro hp
    have := hcp.2 hp
    simp [iterator.pre_decr, iterator.post_decr, iterator.decr, Heap.read, hcell, hc, this]
  · intro hp
    cases hq : c.pre with
    | none => exact absurd (hcp.1 hq) hp
    | some q =>
      simp [iterator.pre_decr, iterator.post_decr, iterator.decr, Heap.read, hcell, hc, hq]

theorem decr_pos {h : Heap K V} {head tail : Nat} {l : List (Nat × (K × V))}
    {hn : List (Nat × (K × V)) → Nat × (K × V) → Option Nat} (r : Order h head tail l hn)
    {pre post : List (Nat × (K × V))} (hl : l = pre ++ post) :
    (pre = [] → iterator.pre_decr h (first_addr post tail) =
        .error (.invalid_iterator, first_addr post tail) ∧
      iterator.post_decr h (first_addr post tail) =
        .error (.invalid_iterator, first_addr post tail) ∧
      iterator.decr h (first_addr post tail) = .error .invalid_iterator) ∧
    (pre ≠ [] → iterator.pre_decr h (first_addr post tail) =
        .ok (last_addr pre head, last_addr pre head) ∧
      iterator.post_decr h (first_addr post tail) =
        .ok (last_addr pre head, first_addr post tail) ∧
      iterator.decr h (first_addr post tail) = .ok (last_addr pre head)) := by
  cases post with
  | nil =>
    simp only [List.append_nil] at hl
    subst hl
    exact decr_end r
  | cons e post => exact decr_live r hl

theorem pos_eq_begin_iff {h : Heap K V} {head tail : Nat} {l : List (Nat × (K × V))}
    {hn : List (Nat × (K × V)) → Nat × (K × V) → Option Nat} (r : Order h head tail l hn)
    {pre post : List (Nat × (K × V))} (hl : l = pre ++ post) :
    first_addr post tail = first_addr l tail ↔ pre = [] := by
  constructor
  · intro heq
    by_contra hp
    have hnd := r.nodup
    rw [hl] at hnd heq
    simp only [List.map_append, List.nodup_cons, List.mem_cons, List.mem_append, not_or,
      List.nodup_append] at hnd
    have h1 : first_addr (pre ++ post) tail ∈ pre.map Prod.fst := by
      rw [first_addr_append, first_addr_eq_of_ne_nil hp _ tail]
      exact first_addr_mem hp tail
    rw [← heq] at h1
    rcases first_addr_cases post tail with ⟨_, h2⟩ | ⟨_, h2⟩
    · rw [h2] at h1
      exact hnd.2.1.1 h1
    · exact hnd.2.2.2.2 h1 h2
  · intro hp
    subst hp
    rw [hl]
    rfl

theorem pos_eq_end_iff {h : Heap K V} {head tail : Nat} {l : List (Nat × (K × V))}
    {hn : List (Nat × (K × V)) → Nat × (K × V) → Option Nat} (r : Order h head tail l hn)
    {pre post : List (Nat × (K × V))} (hl : l = pre ++ post) :
    first_addr post tail = tail ↔ post = [] := by
  constructor
  · intro heq
    by_contra hp
    have h2 := first_addr_mem hp tail
    rw [heq] at h2
    have : tail ∈ l.map Prod.fst := by
      rw [hl, List.map_append, List.mem_append]
      exact Or.inr h2
    exact (r.node_ne this).2.1 rfl
  · intro hp
    subst hp
    rfl

/-- Every cursor of a map is the position after some front part of its nodes. -/
theorem cursor_split {l : List (Nat × (K × V))} {tail c : Nat}
    (hc : c = tail ∨ c ∈ l.map Prod.fst) :
    ∃ pre post, l = pre ++ post ∧ c = first_addr post tail := by
  rcases hc with rfl | hc
  · exact ⟨l, [], by simp, rfl⟩
  · rw [List.mem_map] at hc
    obtain ⟨e, he, rfl⟩ := hc
    obtain ⟨p, q, hs⟩ := List.append_of_mem he
    exact ⟨p, e :: q, hs, rfl⟩

theorem walk_back_spec {h : Heap K V} {head tail : Nat} {l : List (Nat × (K × V))}
    {hn : List (Nat × (K × V)) → Nat × (K × V) → Option Nat} (r : Order h head tail l hn) :
    ∀ (pre post : List (Nat × (K × V))) (fuel : Nat), l = pre ++ post → pre.length < fuel →
      linked_hashmap.walk_back h (first_addr l tail) fuel (first_addr post tail) =
        .ok pre.reverse := by
  intro pre
  induction pre using List.reverseRecOn with
  | nil =>
    intro post fuel hl hf
    obtain ⟨fuel, rfl⟩ : ∃ f, fuel = f + 1 := ⟨fuel - 1, by omega⟩
    simp only [List.nil_append] at hl
    subst hl
    simp [linked_hashmap.walk_back]
  | append_singleton pre x ih =>
    intro post fuel hl hf
    simp only [List.length_append, List.length_singleton] at hf
    obtain ⟨fuel, rfl⟩ : ∃ f, fuel = f + 1 := ⟨fuel - 1, by omega⟩
    have hne : first_addr post tail ≠ first_addr l tail := by
      intro heq
      have := (pos_eq_begin_iff r hl).1 heq
      simp at this
    have hd := ((decr_pos r hl).2 (by simp)).2.2
    rw [last_addr_concat] at hd
    have hl2 : l = pre ++ x :: post := by simp [hl]
    have hcell := r.cells pre x post hl2
    have ih2 := ih (x :: post) fuel hl2 (by omega)
    rw [first_addr_cons] at ih2
    simp [linked_hashmap.walk_back, hne, hd, iterator.deref, Heap.entry, Heap.read, hcell, ih2]

theorem to_list_back_spec {hash : K → Nat} {h : Heap K V} {m : linked_hashmap}
    {l : List (Nat × (K × V))} (r : Rep hash h m l) :
    linked_hashmap.to_list_back h m = .ok l.reverse := by
  have hlen := r.order.length_lt
  simp only [linked_hashmap.to_list_back, linked_hashmap.begin, Heap.read, r.order.head_cell,
    linked_hashmap.end_]
  exact walk_back_spec r.order l [] _ (by simp) (by omega)

theorem ne_nil_snoc {α : Type} {l : List α} (hl : l ≠ []) : ∃ p x, l = p ++ [x] := by
  induction l using List.reverseRecOn with
  | nil => exact absurd rfl hl
  | append_singleton p x _ => exact ⟨p, x, rfl⟩

theorem reserve_spec {hash : K → Nat} {h : Heap K V} {m : linked_hashmap}
    {l : List (Nat × (K × V))} (r : Rep hash h m l)
    (hload : 10 ≤ m.capacity ∧ 4 * m.sizee < 3 * m.capacity + 4) :
    ∃ h1 m1, (if 3 * m.capacity ≤ 4 * m.sizee then linked_hashmap.doublespace hash h m
        else .ok (h, m)) = .ok (h1, m1) ∧
      Rep hash h1 m1 l ∧ m1.sizee = m.sizee ∧ h1.brk = h.brk ∧
      (m1.capacity = m.capacity ∨ m1.capacity = m.capacity * 2) ∧
      4 * m1.sizee < 3 * m1.capacity := by
  by_cases hc : 3 * m.capacity ≤ 4 * m.sizee
  · obtain ⟨h1, map1, h2, r1, hb, -⟩ := doublespace_spec r
    refine ⟨h1, _, ?_, r1, rfl, hb, Or.inr rfl, ?_⟩
    · rw [if_pos hc, h2]
    · show 4 * m.sizee < 3 * (m.capacity * 2)
      omega
  · refine ⟨h, m, ?_, r, rfl, rfl, Or.inl rfl, ?_⟩
    · rw [if_neg hc]
    · omega

theorem reachable_clone [Inhabited V] {hash : K → Nat} {equal : K → K → Bool} {w : World K V}
    (hr : Reachable hash equal w) (j : Nat) : Reachable hash equal (w.clone hash j) := by
  unfold World.clone
  cases hm : w.maps[j]? with
  | none => exact hr
  | some other =>
    cases hc : linked_hashmap.copy_construct hash w.heap other with
    | error e =>
      simp only [hc]
      exact hr
    | ok res =>
      obtain ⟨H, M⟩ := res
      simp only [hc]
      exact Reachable.copy_construct hr hm hc

theorem reachable_assign [Inhabited V] {hash : K → Nat} {equal : K → K → Bool} {w : World K V}
    (hr : Reachable hash equal w) (i j : Nat) : Reachable hash equal (w.assign hash i j) := by
  unfold World.assign
  cases hm : w.maps[i]? with
  | none => exact hr
  | some m =>
    cases ho : w.maps[j]? with
    | none => exact hr
    | some other =>
      cases hc : linked_hashmap.assign hash w.heap m other (decide (i = j)) with
      | error e =>
        simp only [hc]
        exact hr
      | ok res =>
        obtain ⟨H, M⟩ := res
        simp only [hc]
        exact Reachable.assign hr hm ho hc

theorem demo_eight_reachable : Reachable nat_hash nat_equal demo_eight :=
  reachable_put demo_seven_reachable 0 (7, 0)

theorem demo_clone_reachable : Reachable nat_hash nat_equal demo_clone :=
  reachable_clone demo_two_reachable 0

theorem grow_capacity_least (s : Nat) :
    ∀ (fuel k : Nat), 4 * s < 3 * (10 * 2 ^ k) * 2 ^ fuel →
      (∀ j, j < k → 3 * (10 * 2 ^ j) ≤ 4 * s) →
      ∃ k1, linked_hashmap.grow_capacity s (fuel + 1) (10 * 2 ^ k) = .ok (10 * 2 ^ k1) ∧
        4 * s < 3 * (10 * 2 ^ k1) ∧ ∀ j, j < k1 → 3 * (10 * 2 ^ j) ≤ 4 * s := by
  intro fuel
  induction fuel with
  | zero =>
    intro k h1 h2
    refine ⟨k, ?_, by simpa using h1, h2⟩
    have : ¬ 3 * (10 * 2 ^ k) ≤ 4 * s := by simp at h1; omega
    simp only [linked_hashmap.grow_capacity, if_neg this]
  | succ fuel ih =>
    intro k h1 h2
    by_cases hc : 3 * (10 * 2 ^ k) ≤ 4 * s
    · have h3 : 4 * s < 3 * (10 * 2 ^ (k + 1)) * 2 ^ fuel := by
        have : 3 * (10 * 2 ^ (k + 1)) * 2 ^ fuel = 3 * (10 * 2 ^ k) * 2 ^ (fuel + 1) := by ring
        omega
      have h4 : ∀ j, j < k + 1 → 3 * (10 * 2 ^ j) ≤ 4 * s := by
        intro j hj
        rcases Nat.lt_succ_iff_lt_or_eq.1 hj with h5 | h5
        · exact h2 j h5
        · rw [h5]; exact hc
      obtain ⟨k1, h5, h6, h7⟩ := ih (k + 1) h3 h4
      refine ⟨k1, ?_, h6, h7⟩
      have h8 : 10 * 2 ^ k * 2 = 10 * 2 ^ (k + 1) := by ring
      rw [linked_hashmap.grow_capacity, if_pos hc, h8]
      exact h5
    · refine ⟨k, ?_, by omega, h2⟩
      rw [linked_hashmap.grow_capacity, if_neg hc]

theorem grow_capacity_form (s : Nat) :
    ∃ k, linked_hashmap.grow_capacity s (s + 1) 10 = .ok (10 * 2 ^ k) ∧
      4 * s < 3 * (10 * 2 ^ k) ∧ ∀ j, 4 * s < 3 * (10 * 2 ^ j) → k ≤ j := by
  have h1 : 4 * s < 3 * (10 * 2 ^ 0) * 2 ^ s := by
    have := Nat.lt_two_pow s
    simp only [pow_zero, mul_one]
    omega
  obtain ⟨k, h2, h3, h4⟩ := grow_capacity_least s s 0 h1 (fun j hj => absurd hj (Nat.not_lt_zero j))
  refine ⟨k, by simpa using h2, h3, ?_⟩
  intro j hj
  by_contra hlt
  have := h4 j (Nat.lt_of_not_le hlt)
  omega

theorem insert_frame {hash : K → Nat} {equal : K → K → Bool} {h H : Heap K V}
    {m M : linked_hashmap} {l : List (Nat × (K × V))} (r : Rep hash h m l) {value : K × V}
    {res : iterator × Bool}
    (he : linked_hashmap.insert hash equal h m value = .ok (H, M, res)) :
    h.brk ≤ H.brk ∧ ∀ a, a < h.brk → a ∉ footprint m l → H.cells a = h.cells a := by
  cases hf : spec_lookup hash equal m.capacity l value.1 with
  | some p =>
    rw [insert_spec_found equal r value hf] at he
    cases he
    exact ⟨Nat.le_refl _, fun _ _ _ => rfl⟩
  | none =>
    obtain ⟨h1, m1, h2, -, hb, hfr, -⟩ := insert_spec_new equal r value hf
    rw [h2] at he
    cases he
    exact ⟨by omega, fun a ha hn => hfr a (Nat.ne_of_lt ha) hn⟩

theorem subscript_frame [Inhabited V] {hash : K → Nat} {equal : K → K → Bool} {h H : Heap K V}
    {m M : linked_hashmap} {l : List (Nat × (K × V))} (r : Rep hash h m l) {key : K}
    {res : Nat × V}
    (he : linked_hashmap.subscript hash equal h m key = .ok (H, M, res)) :
    h.brk ≤ H.brk ∧ ∀ a, a < h.brk → a ∉ footprint m l → H.cells a = h.cells a := by
  cases hf : spec_lookup hash equal m.capacity l key with
  | some p =>
    rw [subscript_spec_found equal r key hf] at he
    cases he
    exact ⟨Nat.le_refl _, fun _ _ _ => rfl⟩
  | none =>
    obtain ⟨h1, m1, h2, -, hb, hfr, -⟩ := subscript_spec_new equal r key hf
    rw [h2] at he
    cases he
    exact ⟨by omega, fun a ha hn => hfr a (Nat.ne_of_lt ha) hn⟩

theorem erase_frame {hash : K → Nat} {h H : Heap K V}
    {m M : linked_hashmap} {l : List (Nat × (K × V))} (r : Rep hash h m l) {pos : iterator}
    (he : linked_hashmap.erase hash h m pos = .ok (H, M)) :
    h.brk ≤ H.brk ∧ ∀ a, a < h.brk → a ∉ footprint m l → H.cells a = h.cells a := by
  obtain ⟨pre, e, post, hl, hp⟩ := erase_ok_mem r he
  subst hl
  obtain ⟨H1, M1, h2, -, hb, -, -, -, -, hfr, -⟩ := erase_spec r
  rw [hp] at h2
  rw [h2] at he
  cases he
  exact ⟨by omega, fun a _ hn => hfr a hn⟩

theorem write_frame {hash : K → Nat} {equal : K → K → Bool} {h H : Heap K V}
    {m : linked_hashmap} {l : List (Nat × (K × V))} (r : Rep hash h m l) {key : K}
    {ref : Nat × V} {v : V}
    (ha : linked_hashmap.at_ hash equal h m key = .ok ref)
    (hw : h.set_second ref.1 v = .ok H) :
    h.brk ≤ H.brk ∧ ∀ a, a < h.brk → a ∉ footprint m l → H.cells a = h.cells a := by
  obtain ⟨pre, e, post, hl, hp, -, -⟩ := at_ok_mem r ha
  subst hl
  obtain ⟨H1, h2, -, hb, hfr⟩ := set_second_spec r v
  rw [hp] at h2
  rw [h2] at hw
  cases hw
  refine ⟨by omega, fun a _ hn => hfr a ?_⟩
  intro h3
  apply hn
  simp [footprint, h3]

theorem other_list [Inhabited V] {hash : K → Nat} {equal : K → K → Bool} {w : World K V}
    {i j : Nat} {a s : linked_hashmap} {la ls : List (Nat × (K × V))} {H : Heap K V}
    (hr : Reachable hash equal w) (ha : w.maps[i]? = some a) (hs : w.maps[j]? = some s)
    (hij : i ≠ j) (ra : Rep hash w.heap a la)
    (hl : linked_hashmap.to_list w.heap s = .ok ls)
    (hf : w.heap.brk ≤ H.brk ∧
      ∀ x, x < w.heap.brk → x ∉ footprint a la → H.cells x = w.heap.cells x) :
    linked_hashmap.to_list H s = .ok ls :=
  to_list_spec (winv_other (reachable_inv hr) ha ra hf.1 hf.2 (Ne.symm hij) hs
    (reachable_rep_of_list hr hs hl).1)

theorem chain_spec {hash : K → Nat} {h : Heap K V} {m : linked_hashmap}
    {l : List (Nat × (K × V))} (r : Rep hash h m l) (b : Nat) :
    ∀ (pre post : List (Nat × (K × V))) (fuel : Nat), l = pre ++ post → pre.length < fuel →
      linked_hashmap.chain h fuel (chain_head hash m.capacity b pre) =
        .ok ((pre.filter (fun e => hash e.2.1 % m.capacity == b)).map Prod.fst).reverse := by
  intro pre
  induction pre using List.reverseRecOn with
  | nil => intro post fuel _ _; cases fuel <;> simp [linked_hashmap.chain, chain_head]
  | append_singleton pre e ih =>
    intro post fuel hl hf
    rw [chain_head_concat]
    have hl2 : l = pre ++ e :: post := by simp [hl]
    have hc := r.order.cells pre e post hl2
    simp only [List.length_append, List.length_singleton] at hf
    by_cases hb : hash e.2.1 % m.capacity = b
    · obtain ⟨fuel, rfl⟩ : ∃ f, fuel = f + 1 := ⟨fuel - 1, by omega⟩
      have ih2 := ih (e :: post) fuel hl2 (by omega)
      simp only [hb, if_true, linked_hashmap.chain, Heap.read, hc]
      rw [← hb] at ih2 ⊢
      rw [ih2]
      simp [List.filter_append]
    · simp only [hb, if_false]
      rw [ih (e :: post) fuel hl2 (by omega)]
      simp [List.filter_append, hb]

theorem bucket_chain_spec {hash : K → Nat} {h : Heap K V} {m : linked_hashmap}
    {l : List (Nat × (K × V))} (r : Rep hash h m l) {b : Nat} (hb : b < m.capacity) :
    linked_hashmap.bucket_chain h m b =
      .ok ((l.filter (fun e => hash e.2.1 % m.capacity == b)).map Prod.fst).reverse := by
  have h1 := r.buckets b hb
  have h2 := chain_spec r b l [] (h.brk + 1) (by simp) (by
    have := r.order.length_lt
    omega)
  simp only [linked_hashmap.bucket_chain, linked_hashmap.bucket_head, h1, h2]

theorem entry_of_mem {hash : K → Nat} {h : Heap K V} {m : linked_hashmap}
    {l : List (Nat × (K × V))} (r : Rep hash h m l) {e : Nat × (K × V)} (he : e ∈ l) :
    h.entry (some e.1) = .ok e.2 := by
  obtain ⟨pre, post, hs⟩ := List.append_of_mem he
  have hc := r.order.cells pre e post hs
  simp only [Heap.entry, Heap.read, hc]

theorem mem_bucket_nodes (hash : K → Nat) (c b : Nat) (l : List (Nat × (K × V))) (x : Nat) :
    x ∈ ((l.filter (fun e => hash e.2.1 % c == b)).map Prod.fst).reverse ↔
      ∃ e ∈ l, hash e.2.1 % c = b ∧ e.1 = x := by
  simp only [List.mem_reverse, List.mem_map, List.mem_filter, beq_iff_eq]
  constructor
  · rintro ⟨e, ⟨h1, h2⟩, h3⟩
    exact ⟨e, h1, h2, h3⟩
  · rintro ⟨e, h1, h2, h3⟩
    exact ⟨e, ⟨h1, h2⟩, h3⟩

theorem nodup_bucket_nodes (hash : K → Nat) (c b : Nat) {l : List (Nat × (K × V))}
    (hn : (l.map Prod.fst).Nodup) :
    (((l.filter (fun e => hash e.2.1 % c == b)).map Prod.fst).reverse).Nodup :=
  List.nodup_reverse.2 (hn.sublist ((List.filter_sublist l).map Prod.fst))

/-! ## The claims -/

/-- A counterexample to C1: after `insert` of key 1, `insert` of key 2, `erase` of the
node of key 1 and `insert` of key 1 again, the iteration yields key 2 before key 1,
although the first successful insertion of key 1 (call 0) is before that of key 2
(call 1). -/
theorem iteration_order_counterexample :
    ∃ h m, run nat_hash nat_equal
        [Call.insert (1, (0 : Int)), Call.insert (2, 0), Call.erase 2, Call.insert (1, 0)]
        (linked_hashmap.construct (Heap.empty : Heap Nat Int)).1
        (linked_hashmap.construct (Heap.empty : Heap Nat Int)).2 [] =
        .ok (h, m, [Event.inserted 1, Event.inserted 2, Event.erased 1, Event.inserted 1]) ∧
      linked_hashmap.to_list h m = .ok [(3, (2, 0)), (4, (1, 0))] ∧
      ¬ ([(3, ((2 : Nat), (0 : Int))), (4, (1, 0))].map (fun e => e.2.1)).Pairwise
        (precedes (fun k => first_insertion nat_equal k
          [Event.inserted 1, Event.inserted 2, Event.erased 1, Event.inserted 1])) := by
  refine ⟨_, _, rfl, rfl, ?_⟩
  intro hp
  simp only [List.map_cons, List.map_nil, List.pairwise_cons, List.mem_singleton,
    forall_eq] at hp
  obtain ⟨i, j, hi, hj, hij⟩ := precedes_iff.1 hp.1
  have h2 : first_insertion nat_equal 2
      [Event.inserted 1, Event.inserted 2, Event.erased 1, Event.inserted 1] = some 1 := rfl
  have h1 : first_insertion nat_equal 1
      [Event.inserted 1, Event.inserted 2, Event.erased 1, Event.inserted 1] = some 0 := rfl
  have hi2 : some 1 = some i := h2.symm.trans hi
  have hj2 : some 0 = some j := h1.symm.trans hj
  injection hi2 with hi2
  injection hj2 with hj2
  omega

/-- C1, amended: after any sequence of `insert` and `erase` calls on a freshly
constructed map (equal keys hash equally), iterating from `begin()` to `end()` yields
exactly the surviving keys, each once, in the order of their last successful
insertions, that is of the insertions that created the surviving entries.  The
sequence of calls runs to its end unless `erase` is given a cursor to no node. -/
theorem iteration_order {hash : K → Nat} {equal : K → K → Bool} (hk : KeyLaws hash equal)
    (h0 : Heap K V) (calls : List (Call K V)) :
    (∀ e, run hash equal calls (linked_hashmap.construct h0).1 (linked_hashmap.construct h0).2
      [] = .error e → e = .undefined_behaviour) ∧
    ∀ h m log,
      run hash equal calls (linked_hashmap.construct h0).1 (linked_hashmap.construct h0).2
        [] = .ok (h, m, log) →
      ∃ l, linked_hashmap.to_list h m = .ok l ∧
        (∀ k, survives equal k log = true ↔ ∃ e ∈ l, equal e.2.1 k = true) ∧
        Distinct equal l ∧
        (l.map (fun e => e.2.1)).Pairwise (precedes (fun k => last_insertion equal k log)) := by
  refine ⟨fun e he => run_error hk calls _ _ _ _ e (logged_fresh hash equal h0) he, ?_⟩
  intro h m log hrun
  obtain ⟨l, J⟩ := run_logged hk calls _ _ _ _ h m log (logged_fresh hash equal h0) hrun
  exact ⟨l, to_list_spec J.rep, J.surv, J.distinct, J.order⟩

/-- The scenario of C1, amended: the four calls of the counterexample leave key 2
(last inserted by call 1) before key 1 (last inserted by call 3). -/
theorem iteration_order_witness :
    ∃ h m, run nat_hash nat_equal
        [Call.insert (1, (0 : Int)), Call.insert (2, 0), Call.erase 2, Call.insert (1, 0)]
        (linked_hashmap.construct (Heap.empty : Heap Nat Int)).1
        (linked_hashmap.construct (Heap.empty : Heap Nat Int)).2 [] =
        .ok (h, m, [Event.inserted 1, Event.inserted 2, Event.erased 1, Event.inserted 1]) ∧
      ∃ l, linked_hashmap.to_list h m = .ok l ∧
        (∀ k, survives nat_equal k
            [Event.inserted 1, Event.inserted 2, Event.erased 1, Event.inserted 1] = true ↔
          ∃ e ∈ l, nat_equal e.2.1 k = true) ∧
        Distinct nat_equal l ∧
        (l.map (fun e => e.2.1)).Pairwise (precedes (fun k => last_insertion nat_equal k
          [Event.inserted 1, Event.inserted 2, Event.erased 1, Event.inserted 1])) := by
  have hrun : ∃ h m, run nat_hash nat_equal
        [Call.insert (1, (0 : Int)), Call.insert (2, 0), Call.erase 2, Call.insert (1, 0)]
        (linked_hashmap.construct (Heap.empty : Heap Nat Int)).1
        (linked_hashmap.construct (Heap.empty : Heap Nat Int)).2 [] =
        .ok (h, m, [Event.inserted 1, Event.inserted 2, Event.erased 1, Event.inserted 1]) :=
    ⟨_, _, rfl⟩
  obtain ⟨h, m, hrun⟩ := hrun
  exact ⟨h, m, hrun, (iteration_order nat_key_laws Heap.empty _).2 h m _ hrun⟩

/-- C2: when the key of the entry is already present in a reachable map, `insert`
returns the cursor of the node that holds it together with `false`, and the heap and
the members of the map (hence size, capacity, and the iteration sequence with its
values) are the ones before the call. -/
theorem insert_existing_key [Inhabited V] {hash : K → Nat} {equal : K → K → Bool}
    (hk : KeyLaws hash equal) {w : World K V} {i : Nat} {m : linked_hashmap}
    {l : List (Nat × (K × V))} (hr : Reachable hash equal w) (hm : w.maps[i]? = some m)
    (hl : linked_hashmap.to_list w.heap m = .ok l) (value : K × V) (e : Nat × (K × V))
    (he : e ∈ l) (heq : equal e.2.1 value.1 = true) :
    linked_hashmap.insert hash equal w.heap m value = .ok (w.heap, m, (e.1, false)) := by
  obtain ⟨r, hd⟩ := reachable_rep_of_list hr hm hl
  exact insert_spec_found equal r value (spec_lookup_present hk (hd hk.hash_eq) he heq)

/-- The scenario of C2: after (1, a) and (2, b), inserting (1, c) returns the cursor of
the node of key 1 and `false`; the size stays 2 and the iteration stays (1, a), (2, b). -/
theorem insert_existing_key_witness :
    demo_two.maps[0]? = some demo_two_map ∧
    linked_hashmap.to_list demo_two.heap demo_two_map = .ok [(2, (1, 'a')), (3, (2, 'b'))] ∧
    demo_two_map.size = 2 ∧
    linked_hashmap.insert nat_hash nat_equal demo_two.heap demo_two_map (1, 'c') =
      .ok (demo_two.heap, demo_two_map, (2, false)) :=
  ⟨by decide, rfl, rfl,
    @insert_existing_key Nat Char _ nat_hash nat_equal nat_key_laws demo_two 0 demo_two_map
      [(2, (1, 'a')), (3, (2, 'b'))]
      (reachable_put (reachable_put (reachable_declare Reachable.start) 0 (1, 'a')) 0 (2, 'b'))
      (by decide) rfl (1, 'c') (2, (1, 'a')) (by decide) rfl⟩

/-- C3: when the key of the entry is absent from a reachable map, `insert` returns the
cursor of a new node together with `true`; the iteration sequence is the old one
followed by the new entry, the size has grown by one, `find` of the key returns the
new cursor, and `find` of every other key returns what it returned before. -/
theorem insert_absent_key [Inhabited V] {hash : K → Nat} {equal : K → K → Bool}
    (hk : KeyLaws hash equal) {w : World K V} {i : Nat} {m : linked_hashmap}
    {l : List (Nat × (K × V))} (hr : Reachable hash equal w) (hm : w.maps[i]? = some m)
    (hl : linked_hashmap.to_list w.heap m = .ok l) (value : K × V)
    (habs : ∀ e ∈ l, equal e.2.1 value.1 = false) :
    ∃ H M p, linked_hashmap.insert hash equal w.heap m value = .ok (H, M, (p, true)) ∧
      linked_hashmap.to_list H M = .ok (l ++ [(p, value)]) ∧
      M.size = m.size + 1 ∧
      linked_hashmap.find hash equal H M value.1 = .ok p ∧
      ∀ k, equal value.1 k = false →
        linked_hashmap.find hash equal H M k = linked_hashmap.find hash equal w.heap m k := by
  obtain ⟨r, hd⟩ := reachable_rep_of_list hr hm hl
  obtain ⟨H, M, hrun, r1, -, -, -, htl, hsz, -⟩ :=
    insert_spec_new equal r value (spec_lookup_absent habs)
  have hd1 : Distinct equal (l ++ [(w.heap.brk, value)]) := (hd hk.hash_eq).concat habs
  refine ⟨H, M, w.heap.brk, hrun, to_list_spec r1, hsz, ?_, ?_⟩
  · rw [find_of_lookup r1, spec_lookup_present hk hd1 (e := (w.heap.brk, value)) (by simp)
      (hk.refl _)]
  · intro k hne
    apply find_congr hk.hash_eq r1 r htl
    simp [hne]

/-- The scenario of C3 on the map holding (1, a), (2, b): key 3 is absent and is
inserted at the end. -/
theorem insert_absent_key_witness :
    (demo_two.maps[0]? = some demo_two_map ∧
      linked_hashmap.to_list demo_two.heap demo_two_map = .ok [(2, (1, 'a')), (3, (2, 'b'))]) ∧
    ∃ H M p, linked_hashmap.insert nat_hash nat_equal demo_two.heap demo_two_map (3, 'c') =
        .ok (H, M, (p, true)) ∧
      linked_hashmap.to_list H M = .ok ([(2, (1, 'a')), (3, (2, 'b'))] ++ [(p, (3, 'c'))]) ∧
      M.size = demo_two_map.size + 1 ∧
      linked_hashmap.find nat_hash nat_equal H M 3 = .ok p ∧
      ∀ k, nat_equal 3 k = false →
        linked_hashmap.find nat_hash nat_equal H M k =
          linked_hashmap.find nat_hash nat_equal demo_two.heap demo_two_map k :=
  ⟨⟨by decide, rfl⟩,
    @insert_absent_key Nat Char _ nat_hash nat_equal nat_key_laws demo_two 0 demo_two_map
      [(2, (1, 'a')), (3, (2, 'b'))] demo_two_reachable (by decide) rfl (3, 'c') (by decide)⟩

/-- A counterexample to C4: the map holds the seven keys 0, ..., 6 in its ten buckets;
inserting key 7 succeeds without growth and leaves size 8 with capacity 10, and 8 is
more than 10 × 0.75. -/
theorem load_after_insertion_counterexample :
    demo_seven.maps[0]? = some demo_seven_map ∧
    ∃ H M p, linked_hashmap.insert nat_hash nat_equal demo_seven.heap demo_seven_map (7, 0) =
        .ok (H, M, (p, true)) ∧
      M.size = 8 ∧ M.capacity = 10 ∧ ¬ (4 * M.size ≤ 3 * M.capacity) :=
  ⟨by decide, _, _, _, rfl, rfl, rfl, by decide⟩

/-- C4, amended: on a reachable map, after every call of `insert` or of the mutable
`operator[]` that inserted an entry, the size exceeds capacity × 0.75 by less than
one: 4·size < 3·capacity + 4. -/
theorem load_after_insertion [Inhabited V] {hash : K → Nat} {equal : K → K → Bool}
    {w : World K V} {i : Nat} {m : linked_hashmap} (hr : Reachable hash equal w)
    (hm : w.maps[i]? = some m) :
    (∀ value H M p, linked_hashmap.insert hash equal w.heap m value = .ok (H, M, (p, true)) →
      4 * M.size < 3 * M.capacity + 4) ∧
    (∀ key H M res, linked_hashmap.subscript hash equal w.heap m key = .ok (H, M, res) →
      4 * M.size < 3 * M.capacity + 4) :=
  ⟨fun _ _ M _ hi =>
      ((reachable_inv (Reachable.insert hr hm hi)).load i M (getElem?_set_self_of_some hm)).2,
    fun _ _ M _ hi =>
      ((reachable_inv (Reachable.subscript hr hm hi)).load i M (getElem?_set_self_of_some hm)).2⟩

/-- The scenario of C4, amended: after the insertion of key 7 into the map holding
0, ..., 6 the size is 8, the capacity 10, and 4·8 < 3·10 + 4. -/
theorem load_after_insertion_witness :
    demo_seven.maps[0]? = some demo_seven_map ∧
    ∃ H M p, linked_hashmap.insert nat_hash nat_equal demo_seven.heap demo_seven_map (7, 0) =
        .ok (H, M, (p, true)) ∧ 4 * M.size < 3 * M.capacity + 4 :=
  ⟨by decide, _, _, _, rfl,
    (@load_after_insertion Nat Int _ nat_hash nat_equal demo_seven 0 demo_seven_map
      demo_seven_reachable (by decide)).1 (7, 0) _ _ _ rfl⟩

/-- C5: on a reachable map `doublespace` doubles the capacity, keeps the size and the
iteration sequence (the same nodes with the same entries in the same order), and
`find` returns for every key the cursor it returned before. -/
theorem doublespace_preserves [Inhabited V] {hash : K → Nat} {equal : K → K → Bool}
    (hh : ∀ a b, equal a b = true → hash a = hash b) {w : World K V} {i : Nat}
    {m : linked_hashmap} {l : List (Nat × (K × V))} (hr : Reachable hash equal w)
    (hm : w.maps[i]? = some m) (hl : linked_hashmap.to_list w.heap m = .ok l) :
    ∃ H M, linked_hashmap.doublespace hash w.heap m = .ok (H, M) ∧
      M.capacity = 2 * m.capacity ∧ M.size = m.size ∧
      linked_hashmap.to_list H M = .ok l ∧
      ∀ k, linked_hashmap.find hash equal H M k = linked_hashmap.find hash equal w.heap m k := by
  obtain ⟨r, -⟩ := reachable_rep_of_list hr hm hl
  obtain ⟨H, map1, hrun, r1, -, -⟩ := doublespace_spec r
  exact ⟨H, _, hrun, Nat.mul_comm _ _, rfl, to_list_spec r1,
    fun k => find_congr hh r1 r rfl k rfl⟩

/-- The scenario of C5 on the map holding (1, a), (2, b). -/
theorem doublespace_preserves_witness :
    (demo_two.maps[0]? = some demo_two_map ∧
      linked_hashmap.to_list demo_two.heap demo_two_map = .ok [(2, (1, 'a')), (3, (2, 'b'))]) ∧
    ∃ H M, linked_hashmap.doublespace nat_hash demo_two.heap demo_two_map = .ok (H, M) ∧
      M.capacity = 2 * demo_two_map.capacity ∧ M.size = demo_two_map.size ∧
      linked_hashmap.to_list H M = .ok [(2, (1, 'a')), (3, (2, 'b'))] ∧
      ∀ k, linked_hashmap.find nat_hash nat_equal H M k =
        linked_hashmap.find nat_hash nat_equal demo_two.heap demo_two_map k :=
  ⟨⟨by decide, rfl⟩,
    @doublespace_preserves Nat Char _ nat_hash nat_equal nat_key_laws.hash_eq demo_two 0
      demo_two_map [(2, (1, 'a')), (3, (2, 'b'))] demo_two_reachable (by decide) rfl⟩

/-- C6: on a reachable map, `at` and the read-only `operator[]` throw
`index_out_of_bound` exactly when no entry of the iteration sequence has a key equal
to the given one, and otherwise return (a reference to) the value of the entry that
has.  Both only read the heap and the members, so the map is the one before the call. -/
theorem at_index_out_of_bound_iff [Inhabited V] {hash : K → Nat} {equal : K → K → Bool}
    (hk : KeyLaws hash equal) {w : World K V} {i : Nat} {m : linked_hashmap}
    {l : List (Nat × (K × V))} (hr : Reachable hash equal w) (hm : w.maps[i]? = some m)
    (hl : linked_hashmap.to_list w.heap m = .ok l) (key : K) :
    (linked_hashmap.at_ hash equal w.heap m key = .error .index_out_of_bound ↔
      ∀ e ∈ l, equal e.2.1 key = false) ∧
    (linked_hashmap.subscript_const hash equal w.heap m key = .error .index_out_of_bound ↔
      ∀ e ∈ l, equal e.2.1 key = false) ∧
    ∀ e ∈ l, equal e.2.1 key = true →
      linked_hashmap.at_ hash equal w.heap m key = .ok (e.1, e.2.2) ∧
      linked_hashmap.subscript_const hash equal w.heap m key = .ok (e.1, e.2.2) := by
  obtain ⟨r, hd⟩ := reachable_rep_of_list hr hm hl
  have hiff : spec_lookup hash equal m.capacity l key = none ↔
      ∀ e ∈ l, equal e.2.1 key = false :=
    ⟨spec_lookup_none hk.hash_eq, spec_lookup_absent⟩
  refine ⟨?_, ?_, ?_⟩
  · rw [← hiff]
    simp only [linked_hashmap.at_, lookup_spec equal r]
    cases spec_lookup hash equal m.capacity l key <;> simp
  · rw [← hiff]
    simp only [linked_hashmap.subscript_const, lookup_spec equal r]
    cases spec_lookup hash equal m.capacity l key <;> simp
  · intro e he heq
    have hs := spec_lookup_present (c := m.capacity) hk (hd hk.hash_eq) he heq
    simp only [linked_hashmap.at_, linked_hashmap.subscript_const, lookup_spec equal r, hs,
      and_self]

/-- The scenario of C6 on the map holding (1, a), (2, b): key 2 is found with value b,
key 7 is not found. -/
theorem at_index_out_of_bound_iff_witness :
    (demo_two.maps[0]? = some demo_two_map ∧
      linked_hashmap.to_list demo_two.heap demo_two_map = .ok [(2, (1, 'a')), (3, (2, 'b'))]) ∧
    linked_hashmap.at_ nat_hash nat_equal demo_two.heap demo_two_map 2 = .ok (3, 'b') ∧
    linked_hashmap.at_ nat_hash nat_equal demo_two.heap demo_two_map 7 =
      .error .index_out_of_bound :=
  ⟨⟨by decide, rfl⟩,
    ((@at_index_out_of_bound_iff Nat Char _ nat_hash nat_equal nat_key_laws demo_two 0
      demo_two_map [(2, (1, 'a')), (3, (2, 'b'))] demo_two_reachable (by decide) rfl 2).2.2
        (3, (2, 'b')) (by decide) rfl).1,
    (@at_index_out_of_bound_iff Nat Char _ nat_hash nat_equal nat_key_laws demo_two 0
      demo_two_map [(2, (1, 'a')), (3, (2, 'b'))] demo_two_reachable (by decide) rfl 7).1.2
        (by decide)⟩

/-- C7: on a reachable map the mutable `operator[]` returns the stored value and
changes nothing when the key is present; when the key is absent it appends the entry
of the key with a default-constructed value at the end of the iteration sequence,
the size grows by one, the default value is returned, and `count` of the key is 1. -/
theorem subscript_inserts_default [Inhabited V] {hash : K → Nat} {equal : K → K → Bool}
    (hk : KeyLaws hash equal) {w : World K V} {i : Nat} {m : linked_hashmap}
    {l : List (Nat × (K × V))} (hr : Reachable hash equal w) (hm : w.maps[i]? = some m)
    (hl : linked_hashmap.to_list w.heap m = .ok l) (key : K) :
    (∀ e ∈ l, equal e.2.1 key = true →
      linked_hashmap.subscript hash equal w.heap m key = .ok (w.heap, m, (e.1, e.2.2))) ∧
    ((∀ e ∈ l, equal e.2.1 key = false) →
      ∃ H M p, linked_hashmap.subscript hash equal w.heap m key = .ok (H, M, (p, default)) ∧
        linked_hashmap.to_list H M = .ok (l ++ [(p, (key, default))]) ∧
        M.size = m.size + 1 ∧
        linked_hashmap.count hash equal H M key = .ok 1) := by
  obtain ⟨r, hd⟩ := reachable_rep_of_list hr hm hl
  refine ⟨?_, ?_⟩
  · intro e he heq
    exact subscript_spec_found equal r key (spec_lookup_present hk (hd hk.hash_eq) he heq)
  · intro habs
    obtain ⟨H, M, hrun, r1, -, -, -, -, hsz, -⟩ :=
      subscript_spec_new equal r key (spec_lookup_absent habs)
    have hd1 : Distinct equal (l ++ [(w.heap.brk, (key, (default : V)))]) :=
      (hd hk.hash_eq).concat habs
    refine ⟨H, M, w.heap.brk, hrun, to_list_spec r1, hsz, ?_⟩
    rw [count_of_lookup r1, spec_lookup_present hk hd1
      (e := (w.heap.brk, (key, (default : V)))) (by simp) (hk.refl _)]

/-- The scenario of C7: on an empty map of integers, `map[5]` yields 0, and then the
size is 1 and `count(5)` is 1. -/
theorem subscript_inserts_default_witness :
    (demo_fresh.maps[0]? = some fresh_map ∧
      linked_hashmap.to_list demo_fresh.heap fresh_map = .ok []) ∧
    ∃ H M p, linked_hashmap.subscript nat_hash nat_equal demo_fresh.heap fresh_map 5 =
        .ok (H, M, (p, 0)) ∧
      linked_hashmap.to_list H M = .ok ([] ++ [(p, (5, 0))]) ∧
      M.size = fresh_map.size + 1 ∧
      linked_hashmap.count nat_hash nat_equal H M 5 = .ok 1 :=
  ⟨⟨by decide, rfl⟩,
    (@subscript_inserts_default Nat Int _ nat_hash nat_equal nat_key_laws demo_fresh 0
      fresh_map [] demo_fresh_reachable (by decide) rfl 5).2 (by simp)⟩

/-- C8: on a reachable map, `erase(end())` throws `index_out_of_bound`, and so does
`erase` of a cursor at any node that is not a live node of the map, for instance at a
live node of another map; the heap and the members of the map at the throw are the
ones before the call. -/
theorem erase_invalid_cursor [Inhabited V] {hash : K → Nat} {equal : K → K → Bool}
    {w : World K V} {i : Nat} {m : linked_hashmap} {l : List (Nat × (K × V))}
    (hr : Reachable hash equal w) (hm : w.maps[i]? = some m)
    (hl : linked_hashmap.to_list w.heap m = .ok l) :
    linked_hashmap.erase hash w.heap m (linked_hashmap.end_ m) =
      .error (.index_out_of_bound, w.heap, m) ∧
    (∀ c n, w.heap.cells c = some n → c ∉ l.map Prod.fst →
      linked_hashmap.erase hash w.heap m c = .error (.index_out_of_bound, w.heap, m)) ∧
    (∀ j m1 (l1 : List (Nat × (K × V))) c, j ≠ i → w.maps[j]? = some m1 →
      linked_hashmap.to_list w.heap m1 = .ok l1 → c ∈ l1.map Prod.fst →
      linked_hashmap.erase hash w.heap m c = .error (.index_out_of_bound, w.heap, m)) := by
  obtain ⟨r, -⟩ := reachable_rep_of_list hr hm hl
  refine ⟨?_, fun c n hn hc => erase_spec_foreign r hn hc, ?_⟩
  · refine erase_spec_foreign r r.order.tail_cell ?_
    intro hmem
    exact (r.order.node_ne hmem).2.1 rfl
  · intro j m1 l1 c hji hj hl1 hc
    obtain ⟨r1, -⟩ := reachable_rep_of_list hr hj hl1
    have hfp : c ∈ footprint m1 l1 := by simp [footprint, hc]
    obtain ⟨n, hn⟩ := r1.order.cell_exists hfp
    refine erase_spec_foreign r hn ?_
    intro hmem
    exact (reachable_inv hr).disj j i m1 m l1 l hji hj hm r1 r hfp (by simp [footprint, hmem])

/-- The scenario of C8 with two maps: erasing from the first map at its end cursor, or
at the node of the second map, throws and changes nothing. -/
theorem erase_invalid_cursor_witness :
    (demo_pair.maps[0]? = some demo_two_map ∧ demo_pair.maps[1]? = some demo_pair_map ∧
      linked_hashmap.to_list demo_pair.heap demo_two_map = .ok [(2, (1, 'a')), (3, (2, 'b'))] ∧
      linked_hashmap.to_list demo_pair.heap demo_pair_map = .ok [(6, (9, 'z'))]) ∧
    linked_hashmap.erase nat_hash demo_pair.heap demo_two_map 1 =
      .error (.index_out_of_bound, demo_pair.heap, demo_two_map) ∧
    linked_hashmap.erase nat_hash demo_pair.heap demo_two_map 6 =
      .error (.index_out_of_bound, demo_pair.heap, demo_two_map) :=
  ⟨⟨by decide, by decide, rfl, rfl⟩,
    (@erase_invalid_cursor Nat Char _ nat_hash nat_equal demo_pair 0 demo_two_map
      [(2, (1, 'a')), (3, (2, 'b'))] demo_pair_reachable (by decide) rfl).1,
    (@erase_invalid_cursor Nat Char _ nat_hash nat_equal demo_pair 0 demo_two_map
      [(2, (1, 'a')), (3, (2, 'b'))] demo_pair_reachable (by decide) rfl).2.2 1 demo_pair_map
      [(6, (9, 'z'))] 6 (by decide) (by decide) rfl (by decide)⟩

/-- C9: on a reachable map, `erase` of a cursor at a live node succeeds; the size drops
by one, the iteration sequence is the old one without that node, `find` of the node's
key returns `end()` and `count` of it is 0, and `find` of every other key returns
what it returned before. -/
theorem erase_live_cursor [Inhabited V] {hash : K → Nat} {equal : K → K → Bool}
    (hk : KeyLaws hash equal) {w : World K V} {i : Nat} {m : linked_hashmap}
    {l : List (Nat × (K × V))} (hr : Reachable hash equal w) (hm : w.maps[i]? = some m)
    (hl : linked_hashmap.to_list w.heap m = .ok l) (e : Nat × (K × V)) (he : e ∈ l) :
    ∃ H M pre post, l = pre ++ e :: post ∧
      linked_hashmap.erase hash w.heap m e.1 = .ok (H, M) ∧
      M.size + 1 = m.size ∧
      linked_hashmap.to_list H M = .ok (pre ++ post) ∧
      linked_hashmap.find hash equal H M e.2.1 = .ok (linked_hashmap.end_ M) ∧
      linked_hashmap.count hash equal H M e.2.1 = .ok 0 ∧
      ∀ k, equal e.2.1 k = false →
        linked_hashmap.find hash equal H M k = linked_hashmap.find hash equal w.heap m k := by
  obtain ⟨r, hd⟩ := reachable_rep_of_list hr hm hl
  obtain ⟨pre, post, rfl⟩ := List.append_of_mem he
  obtain ⟨H, M, hrun, r1, -, -, -, htl, hsz, -, -⟩ := erase_spec r
  have hdist := hd hk.hash_eq
  have hgone : spec_lookup hash equal M.capacity (pre ++ post) e.2.1 = none := by
    apply spec_lookup_absent
    intro x hx
    unfold Distinct at hdist
    rw [List.pairwise_append, List.pairwise_cons] at hdist
    obtain ⟨-, ⟨hpost, -⟩, hcross⟩ := hdist
    rcases List.mem_append.1 hx with hx | hx
    · exact hcross x hx e (by simp)
    · cases hxe : equal x.2.1 e.2.1 with
      | false => rfl
      | true =>
        have := hk.symm _ _ hxe
        rw [hpost x hx] at this
        exact Bool.noConfusion this
  have hlen := r.size_eq
  refine ⟨H, M, pre, post, rfl, hrun, ?_, to_list_spec r1, ?_, ?_, ?_⟩
  · show M.sizee + 1 = m.sizee
    rw [hsz, hlen]
    simp only [List.length_append, List.length_cons]
    omega
  · rw [find_of_lookup r1, hgone]
    rfl
  · rw [count_of_lookup r1, hgone]
  · intro k hne
    apply find_congr hk.hash_eq r1 r htl
    exact (find?_reverse_remove _ pre post e hne).symm

/-- The scenario of C9 on the map holding (1, a), (2, b): the node of key 1 is erased. -/
theorem erase_live_cursor_witness :
    (demo_two.maps[0]? = some demo_two_map ∧
      linked_hashmap.to_list demo_two.heap demo_two_map = .ok [(2, (1, 'a')), (3, (2, 'b'))]) ∧
    ∃ H M pre post, [(2, (1, 'a')), (3, (2, 'b'))] = pre ++ (2, (1, 'a')) :: post ∧
      linked_hashmap.erase nat_hash demo_two.heap demo_two_map 2 = .ok (H, M) ∧
      M.size + 1 = demo_two_map.size ∧
      linked_hashmap.to_list H M = .ok (pre ++ post) ∧
      linked_hashmap.find nat_hash nat_equal H M 1 = .ok (linked_hashmap.end_ M) ∧
      linked_hashmap.count nat_hash nat_equal H M 1 = .ok 0 ∧
      ∀ k, nat_equal 1 k = false →
        linked_hashmap.find nat_hash nat_equal H M k =
          linked_hashmap.find nat_hash nat_equal demo_two.heap demo_two_map k :=
  ⟨⟨by decide, rfl⟩,
    @erase_live_cursor Nat Char _ nat_hash nat_equal nat_key_laws demo_two 0 demo_two_map
      [(2, (1, 'a')), (3, (2, 'b'))] demo_two_reachable (by decide) rfl (2, (1, 'a'))
      (by decide)⟩

/-- C10: on a reachable map of size `n`, `erase(begin())` performed `n` times returns
normally every time and ends with size 0 and `begin() == end()`; a further
`erase(begin())` throws `index_out_of_bound`. -/
theorem drain_by_erase_begin [Inhabited V] {hash : K → Nat} {equal : K → K → Bool}
    {w : World K V} {i : Nat} {m : linked_hashmap} (hr : Reachable hash equal w)
    (hm : w.maps[i]? = some m) :
    ∃ H M, drain hash m.size w.heap m = .ok (H, M) ∧ M.size = 0 ∧
      linked_hashmap.begin H M = .ok (linked_hashmap.end_ M) ∧
      linked_hashmap.erase hash H M (linked_hashmap.end_ M) =
        .error (.index_out_of_bound, H, M) := by
  obtain ⟨l, r, -, -⟩ := reachable_rep hr hm
  obtain ⟨H, M, hd, r1⟩ := drain_rep l w.heap m r
  refine ⟨H, M, ?_, r1.size_eq, ?_, ?_⟩
  · show drain hash m.sizee w.heap m = _
    rw [r.size_eq, hd]
  · simp only [linked_hashmap.begin, Heap.read, r1.order.head_cell, first_addr_nil,
      linked_hashmap.end_]
  · exact erase_spec_foreign r1 r1.order.tail_cell (by simp)

/-- The scenario of C10 on the map holding (1, a), (2, b). -/
theorem drain_by_erase_begin_witness :
    demo_two.maps[0]? = some demo_two_map ∧
    ∃ H M, drain nat_hash demo_two_map.size demo_two.heap demo_two_map = .ok (H, M) ∧
      M.size = 0 ∧ linked_hashmap.begin H M = .ok (linked_hashmap.end_ M) ∧
      linked_hashmap.erase nat_hash H M (linked_hashmap.end_ M) =
        .error (.index_out_of_bound, H, M) :=
  ⟨by decide,
    @drain_by_erase_begin Nat Char _ nat_hash nat_equal demo_two 0 demo_two_map
      demo_two_reachable (by decide)⟩

/-- C11: on a reachable map (equal keys hash equally), `find` returns the cursor of the
one entry of the iteration sequence whose key is equal to the given key when there
is one, and `end()` otherwise; `count` is 1 exactly when `find` does not return
`end()` and 0 otherwise.  Both only read the heap and the members. -/
theorem find_count_spec [Inhabited V] {hash : K → Nat} {equal : K → K → Bool}
    (hk : KeyLaws hash equal) {w : World K V} {i : Nat} {m : linked_hashmap}
    {l : List (Nat × (K × V))} (hr : Reachable hash equal w) (hm : w.maps[i]? = some m)
    (hl : linked_hashmap.to_list w.heap m = .ok l) (key : K) :
    (∀ e ∈ l, equal e.2.1 key = true →
      linked_hashmap.find hash equal w.heap m key = .ok e.1 ∧
      e.1 ≠ linked_hashmap.end_ m ∧
      linked_hashmap.count hash equal w.heap m key = .ok 1 ∧
      ∀ x ∈ l, equal x.2.1 key = true → x = e) ∧
    ((∀ e ∈ l, equal e.2.1 key = false) →
      linked_hashmap.find hash equal w.heap m key = .ok (linked_hashmap.end_ m) ∧
      linked_hashmap.count hash equal w.heap m key = .ok 0) ∧
    ∃ c n, linked_hashmap.find hash equal w.heap m key = .ok c ∧
      linked_hashmap.count hash equal w.heap m key = .ok n ∧
      (n = 1 ↔ c ≠ linked_hashmap.end_ m) ∧ (n = 0 ↔ c = linked_hashmap.end_ m) := by
  obtain ⟨r, hd⟩ := reachable_rep_of_list hr hm hl
  have hdist := hd hk.hash_eq
  have hpresent : ∀ e ∈ l, equal e.2.1 key = true →
      spec_lookup hash equal m.capacity l key = some e :=
    fun e he heq => spec_lookup_present hk hdist he heq
  have hne : ∀ e ∈ l, e.1 ≠ linked_hashmap.end_ m := fun e he =>
    (r.order.node_ne (List.mem_map_of_mem _ he)).2.1
  refine ⟨?_, ?_, ?_⟩
  · intro e he heq
    refine ⟨?_, hne e he, ?_, ?_⟩
    · rw [find_of_lookup r, hpresent e he heq]
    · rw [count_of_lookup r, hpresent e he heq]
    · intro x hx hxeq
      have h1 := hpresent x hx hxeq
      rw [hpresent e he heq] at h1
      injection h1 with h1
      exact h1.symm
  · intro habs
    rw [find_of_lookup r, count_of_lookup r, spec_lookup_absent habs]
    exact ⟨rfl, rfl⟩
  · rw [find_of_lookup r, count_of_lookup r]
    cases hs : spec_lookup hash equal m.capacity l key with
    | none => exact ⟨_, _, rfl, rfl, by simp [linked_hashmap.end_], by simp [linked_hashmap.end_]⟩
    | some e =>
      have := hne e (spec_lookup_mem hs).1
      exact ⟨_, _, rfl, rfl, by simp [this], by simp [this]⟩

/-- The scenario of C11 on the map holding (1, a), (2, b): key 2 is found at its node,
key 7 is not found. -/
theorem find_count_spec_witness :
    (demo_two.maps[0]? = some demo_two_map ∧
      linked_hashmap.to_list demo_two.heap demo_two_map = .ok [(2, (1, 'a')), (3, (2, 'b'))]) ∧
    (linked_hashmap.find nat_hash nat_equal demo_two.heap demo_two_map 2 = .ok 3 ∧
      3 ≠ linked_hashmap.end_ demo_two_map ∧
      linked_hashmap.count nat_hash nat_equal demo_two.heap demo_two_map 2 = .ok 1 ∧
      ∀ x ∈ [(2, ((1 : Nat), 'a')), (3, (2, 'b'))], nat_equal x.2.1 2 = true →
        x = (3, (2, 'b'))) ∧
    linked_hashmap.find nat_hash nat_equal demo_two.heap demo_two_map 7 =
      .ok (linked_hashmap.end_ demo_two_map) ∧
    linked_hashmap.count nat_hash nat_equal demo_two.heap demo_two_map 7 = .ok 0 :=
  ⟨⟨by decide, rfl⟩,
    (@find_count_spec Nat Char _ nat_hash nat_equal nat_key_laws demo_two 0 demo_two_map
      [(2, (1, 'a')), (3, (2, 'b'))] demo_two_reachable (by decide) rfl 2).1
        (3, (2, 'b')) (by decide) rfl,
    (@find_count_spec Nat Char _ nat_hash nat_equal nat_key_laws demo_two 0 demo_two_map
      [(2, (1, 'a')), (3, (2, 'b'))] demo_two_reachable (by decide) rfl 7).2.1 (by decide)⟩

/-- C12: in every reachable state `size()` is the number of cursors visited when
advancing from `begin()` until `end()` is reached, and `empty()` holds exactly when
`begin() == end()`. -/
theorem size_counts_cursors [Inhabited V] {hash : K → Nat} {equal : K → K → Bool}
    {w : World K V} {i : Nat} {m : linked_hashmap} (hr : Reachable hash equal w)
    (hm : w.maps[i]? = some m) :
    ∃ (l : List (Nat × (K × V))) (b : iterator),
      linked_hashmap.to_list w.heap m = .ok l ∧ m.size = l.length ∧
      linked_hashmap.begin w.heap m = .ok b ∧
      (m.empty = true ↔ b = linked_hashmap.end_ m) := by
  obtain ⟨l, r, hl, -⟩ := reachable_rep hr hm
  refine ⟨l, first_addr l m.tail, hl, r.size_eq, ?_, ?_⟩
  · simp only [linked_hashmap.begin, Heap.read, r.order.head_cell]
  · have hsz := r.size_eq
    cases l with
    | nil => simp [linked_hashmap.empty, hsz, linked_hashmap.end_]
    | cons e l =>
      have := (r.order.node_ne (a := e.1) (by simp)).2.1
      simp [linked_hashmap.empty, hsz, linked_hashmap.end_, this]

/-- The scenario of C12 on the map holding (1, a), (2, b). -/
theorem size_counts_cursors_witness :
    demo_two.maps[0]? = some demo_two_map ∧
    ∃ (l : List (Nat × (Nat × Char))) (b : iterator),
      linked_hashmap.to_list demo_two.heap demo_two_map = .ok l ∧
      demo_two_map.size = l.length ∧
      linked_hashmap.begin demo_two.heap demo_two_map = .ok b ∧
      (demo_two_map.empty = true ↔ b = linked_hashmap.end_ demo_two_map) :=
  ⟨by decide,
    @size_counts_cursors Nat Char _ nat_hash nat_equal demo_two 0 demo_two_map
      demo_two_reachable (by decide)⟩

/-- C13: for every cursor of a reachable map (the cursor of an entry, or `end()`), in
prefix and in postfix form: `++` throws `invalid_iterator` exactly at `end()` and
otherwise moves the cursor to the next entry, or to `end()` from the last one; `--`
throws `invalid_iterator` exactly at `begin()` and otherwise moves the cursor to the
previous entry; a throw leaves the cursor where it is. -/
theorem cursor_moves [Inhabited V] {hash : K → Nat} {equal : K → K → Bool}
    {w : World K V} {i : Nat} {m : linked_hashmap} {l : List (Nat × (K × V))}
    (hr : Reachable hash equal w) (hm : w.maps[i]? = some m)
    (hl : linked_hashmap.to_list w.heap m = .ok l) :
    ∃ b, linked_hashmap.begin w.heap m = .ok b ∧
      ∀ c, (c = linked_hashmap.end_ m ∨ c ∈ l.map Prod.fst) →
        ((iterator.pre_incr w.heap c = .error (.invalid_iterator, c) ↔
            c = linked_hashmap.end_ m) ∧
          (iterator.post_incr w.heap c = .error (.invalid_iterator, c) ↔
            c = linked_hashmap.end_ m)) ∧
        ((iterator.pre_decr w.heap c = .error (.invalid_iterator, c) ↔ c = b) ∧
          (iterator.post_decr w.heap c = .error (.invalid_iterator, c) ↔ c = b)) ∧
        (c ≠ linked_hashmap.end_ m → ∃ pre e post, l = pre ++ e :: post ∧ e.1 = c ∧
          iterator.pre_incr w.heap c =
            .ok (first_addr post (linked_hashmap.end_ m), first_addr post (linked_hashmap.end_ m)) ∧
          iterator.post_incr w.heap c = .ok (first_addr post (linked_hashmap.end_ m), c)) ∧
        (c ≠ b → ∃ pre x post, l = pre ++ x :: post ∧
          first_addr post (linked_hashmap.end_ m) = c ∧
          iterator.pre_decr w.heap c = .ok (x.1, x.1) ∧
          iterator.post_decr w.heap c = .ok (x.1, c)) := by
  obtain ⟨r, -⟩ := reachable_rep_of_list hr hm hl
  refine ⟨first_addr l m.tail, ?_, ?_⟩
  · simp only [linked_hashmap.begin, Heap.read, r.order.head_cell]
  · intro c hc
    obtain ⟨pre, post, hs, rfl⟩ := @cursor_split K V l m.tail _ hc
    have hend := pos_eq_end_iff r.order hs
    have hbeg := pos_eq_begin_iff r.order hs
    have hdec := decr_pos r.order hs
    simp only [linked_hashmap.end_]
    refine ⟨?_, ?_, ?_, ?_⟩
    · cases post with
      | nil =>
        have := incr_end r.order
        simp [this.1, this.2.1]
      | cons e post =>
        have := incr_live r.order hs
        have hne : e.1 ≠ m.tail := by
          intro h1
          have := hend.1 h1
          simp at this
        simp [this.1, this.2.1, hne]
    · by_cases hp : pre = []
      · have h1 := hdec.1 hp
        have he := hbeg.2 hp
        exact ⟨⟨fun _ => he, fun _ => h1.1⟩, ⟨fun _ => he, fun _ => h1.2.1⟩⟩
      · have h1 := hdec.2 hp
        have hne : first_addr post m.tail ≠ first_addr l m.tail := fun h2 => hp (hbeg.1 h2)
        refine ⟨⟨fun h2 => ?_, fun h2 => absurd h2 hne⟩, ⟨fun h2 => ?_, fun h2 => absurd h2 hne⟩⟩
        · rw [h1.1] at h2
          cases h2
        · rw [h1.2.1] at h2
          cases h2
    · intro hne
      cases post with
      | nil => exact absurd rfl hne
      | cons e post =>
        have := incr_live r.order hs
        exact ⟨pre, e, post, hs, rfl, this.1, this.2.1⟩
    · intro hne
      have hp : pre ≠ [] := fun hp => hne (hbeg.2 hp)
      obtain ⟨p, x, rfl⟩ := ne_nil_snoc hp
      have := hdec.2 hp
      rw [last_addr_concat] at this
      exact ⟨p, x, post, by simp [hs], rfl, this.1, this.2.1⟩

/-- The scenario of C13 on the map holding (1, a) at node 2 and (2, b) at node 3, with
`end()` at 1: `++` throws at 1 and moves 3 to 1; `--` throws at 2 and moves 1 to 3. -/
theorem cursor_moves_witness :
    (demo_two.maps[0]? = some demo_two_map ∧
      linked_hashmap.to_list demo_two.heap demo_two_map = .ok [(2, (1, 'a')), (3, (2, 'b'))]) ∧
    iterator.pre_incr demo_two.heap 1 = .error (.invalid_iterator, 1) ∧
    iterator.pre_incr demo_two.heap 3 = .ok (1, 1) ∧
    iterator.pre_decr demo_two.heap 2 = .error (.invalid_iterator, 2) ∧
    iterator.post_decr demo_two.heap 1 = .ok (3, 1) ∧
    ∃ b, linked_hashmap.begin demo_two.heap demo_two_map = .ok b ∧
      ∀ c, (c = linked_hashmap.end_ demo_two_map ∨
          c ∈ [(2, ((1 : Nat), 'a')), (3, (2, 'b'))].map Prod.fst) →
        ((iterator.pre_incr demo_two.heap c = .error (.invalid_iterator, c) ↔
            c = linked_hashmap.end_ demo_two_map) ∧
          (iterator.post_incr demo_two.heap c = .error (.invalid_iterator, c) ↔
            c = linked_hashmap.end_ demo_two_map)) ∧
        ((iterator.pre_decr demo_two.heap c = .error (.invalid_iterator, c) ↔ c = b) ∧
          (iterator.post_decr demo_two.heap c = .error (.invalid_iterator, c) ↔ c = b)) ∧
        (c ≠ linked_hashmap.end_ demo_two_map → ∃ pre e post,
          [(2, ((1 : Nat), 'a')), (3, (2, 'b'))] = pre ++ e :: post ∧ e.1 = c ∧
          iterator.pre_incr demo_two.heap c =
            .ok (first_addr post (linked_hashmap.end_ demo_two_map),
              first_addr post (linked_hashmap.end_ demo_two_map)) ∧
          iterator.post_incr demo_two.heap c =
            .ok (first_addr post (linked_hashmap.end_ demo_two_map), c)) ∧
        (c ≠ b → ∃ pre x post, [(2, ((1 : Nat), 'a')), (3, (2, 'b'))] = pre ++ x :: post ∧
          first_addr post (linked_hashmap.end_ demo_two_map) = c ∧
          iterator.pre_decr demo_two.heap c = .ok (x.1, x.1) ∧
          iterator.post_decr demo_two.heap c = .ok (x.1, c)) :=
  ⟨⟨by decide, rfl⟩, rfl, rfl, rfl, rfl,
    @cursor_moves Nat Char _ nat_hash nat_equal demo_two 0 demo_two_map
      [(2, (1, 'a')), (3, (2, 'b'))] demo_two_reachable (by decide) rfl⟩

/-- C14: the copy constructed from a map `s` of a reachable state returns a map with
the size of `s` whose walk yields the (key, value) pairs of the walk of `s` in the same
order, on nodes that did not exist before, while the walk of `s` is as before; the
state with the copy is reachable and holds `s` and the copy as two maps; and in a
reachable state an `insert`, an `operator[]`, an `erase` or a write through `at` on
another map than `s` leaves the walk of `s` as it is. -/
theorem copy_independent [Inhabited V] {hash : K → Nat} {equal : K → K → Bool}
    {w : World K V} {j : Nat} {s : linked_hashmap} {ls : List (Nat × (K × V))}
    (hr : Reachable hash equal w) (hs : w.maps[j]? = some s)
    (hl : linked_hashmap.to_list w.heap s = .ok ls) :
    (∃ H M lc, linked_hashmap.copy_construct hash w.heap s = .ok (H, M) ∧
      linked_hashmap.size M = linked_hashmap.size s ∧
      linked_hashmap.to_list H M = .ok lc ∧ lc.map Prod.snd = ls.map Prod.snd ∧
      linked_hashmap.to_list H s = .ok ls ∧
      (∀ x ∈ footprint M lc, w.heap.brk ≤ x ∧ x ∉ footprint s ls) ∧
      Reachable hash equal ⟨H, w.maps ++ [M]⟩ ∧ (w.maps ++ [M])[j]? = some s ∧
      (w.maps ++ [M])[w.maps.length]? = some M ∧ j ≠ w.maps.length) ∧
    (∀ (i : Nat) (a : linked_hashmap), i ≠ j → w.maps[i]? = some a →
      (∀ value H M res, linked_hashmap.insert hash equal w.heap a value = .ok (H, M, res) →
        linked_hashmap.to_list H s = .ok ls) ∧
      (∀ key H M res, linked_hashmap.subscript hash equal w.heap a key = .ok (H, M, res) →
        linked_hashmap.to_list H s = .ok ls) ∧
      (∀ pos H M, linked_hashmap.erase hash w.heap a pos = .ok (H, M) →
        linked_hashmap.to_list H s = .ok ls) ∧
      (∀ key ref v H, linked_hashmap.at_ hash equal w.heap a key = .ok ref →
        w.heap.set_second ref.1 v = .ok H → linked_hashmap.to_list H s = .ok ls)) := by
  obtain ⟨rs, -⟩ := reachable_rep_of_list hr hs hl
  refine ⟨?_, ?_⟩
  · obtain ⟨H, map1, lc, c, hc, -, rso, rc, hsnd, hfresh, -, -⟩ := copy_construct_spec rs
    have hj : j < w.maps.length := by
      by_contra h1
      rw [List.getElem?_eq_none (Nat.le_of_not_lt h1)] at hs
      cases hs
    refine ⟨H, _, lc, hc, rfl, to_list_spec rc, hsnd, to_list_spec rso, ?_,
      Reachable.copy_construct hr hs hc, ?_, ?_, Nat.ne_of_lt hj⟩
    · intro x hx
      have hge : w.heap.brk ≤ x := by
        simp only [footprint, List.mem_cons] at hx
        rcases hx with h1 | h1 | h1
        · omega
        · omega
        · have := hfresh x h1
          omega
      exact ⟨hge, fun h1 => absurd (footprint_bound rs x h1) (Nat.not_lt.2 hge)⟩
    · rw [List.getElem?_append_left hj]
      exact hs
    · simp
  · intro i a hij ha
    obtain ⟨la, ra, -⟩ := reachable_rep hr ha
    refine ⟨?_, ?_, ?_, ?_⟩
    · intro value H M res he
      exact other_list hr ha hs hij ra hl (insert_frame ra he)
    · intro key H M res he
      exact other_list hr ha hs hij ra hl (subscript_frame ra he)
    · intro pos H M he
      exact other_list hr ha hs hij ra hl (erase_frame ra he)
    · intro key ref v H he hw
      exact other_list hr ha hs hij ra hl (write_frame ra he hw)

/-- The scenario of C14 on the map holding (1, a), (2, b) and its copy, which holds the
same pairs on the nodes 6 and 7: an insertion into the copy leaves the walk of the
source as it is. -/
theorem copy_independent_witness :
    (demo_clone.maps[0]? = some demo_two_map ∧
      linked_hashmap.to_list demo_clone.heap demo_two_map =
        .ok [(2, (1, 'a')), (3, (2, 'b'))]) ∧
    (demo_clone.maps[1]? = some demo_clone_map ∧
      linked_hashmap.to_list demo_clone.heap demo_clone_map =
        .ok [(6, (1, 'a')), (7, (2, 'b'))]) ∧
    (linked_hashmap.insert nat_hash nat_equal demo_clone.heap demo_clone_map (5, 'c')).map
      (fun r => (linked_hashmap.to_list r.1 r.2.1, linked_hashmap.to_list r.1 demo_two_map)) =
      .ok (.ok [(6, (1, 'a')), (7, (2, 'b')), (8, (5, 'c'))],
        .ok [(2, (1, 'a')), (3, (2, 'b'))]) ∧
    ∀ (i : Nat) (a : linked_hashmap), i ≠ 0 → demo_clone.maps[i]? = some a →
      (∀ value H M res,
        linked_hashmap.insert nat_hash nat_equal demo_clone.heap a value = .ok (H, M, res) →
        linked_hashmap.to_list H demo_two_map = .ok [(2, (1, 'a')), (3, (2, 'b'))]) ∧
      (∀ key H M res,
        linked_hashmap.subscript nat_hash nat_equal demo_clone.heap a key = .ok (H, M, res) →
        linked_hashmap.to_list H demo_two_map = .ok [(2, (1, 'a')), (3, (2, 'b'))]) ∧
      (∀ pos H M, linked_hashmap.erase nat_hash demo_clone.heap a pos = .ok (H, M) →
        linked_hashmap.to_list H demo_two_map = .ok [(2, (1, 'a')), (3, (2, 'b'))]) ∧
      (∀ key ref v H, linked_hashmap.at_ nat_hash nat_equal demo_clone.heap a key = .ok ref →
        demo_clone.heap.set_second ref.1 v = .ok H →
        linked_hashmap.to_list H demo_two_map = .ok [(2, (1, 'a')), (3, (2, 'b'))]) :=
  ⟨⟨by decide, rfl⟩, ⟨by decide, rfl⟩, rfl,
    (@copy_independent Nat Char _ nat_hash nat_equal demo_clone 0 demo_two_map
      [(2, (1, 'a')), (3, (2, 'b'))] demo_clone_reachable (by decide) rfl).2⟩

/-- C15: in a reachable state the assignment `a = b` of a map `b` to another map `a`
returns, leaves the walk of `b` as it is and gives `a` the size of `b` and a walk that
yields the (key, value) pairs of the walk of `b` in the same order, and (when `equal`
is an equivalence and equal keys hash equally) `find` on `a` then returns a cursor
other than `end()` exactly for the keys equal to a key of `b`; the assignment of a map
to itself returns the heap and the map as they are. -/
theorem assign_copies [Inhabited V] {hash : K → Nat} {equal : K → K → Bool}
    {w : World K V} {i j : Nat} {a b : linked_hashmap} {lb : List (Nat × (K × V))}
    (hr : Reachable hash equal w) (ha : w.maps[i]? = some a) (hb : w.maps[j]? = some b)
    (hl : linked_hashmap.to_list w.heap b = .ok lb) :
    (i ≠ j → ∃ H M la, linked_hashmap.assign hash w.heap a b (decide (i = j)) = .ok (H, M) ∧
      linked_hashmap.to_list H b = .ok lb ∧
      linked_hashmap.size M = linked_hashmap.size b ∧
      linked_hashmap.to_list H M = .ok la ∧ la.map Prod.snd = lb.map Prod.snd ∧
      (KeyLaws hash equal → ∀ key, ∃ c, linked_hashmap.find hash equal H M key = .ok c ∧
        (c ≠ linked_hashmap.end_ M ↔ ∃ e ∈ lb, equal e.2.1 key = true))) ∧
    (i = j → linked_hashmap.assign hash w.heap a b (decide (i = j)) = .ok (w.heap, a)) := by
  refine ⟨?_, ?_⟩
  · intro hij
    have inv := reachable_inv hr
    obtain ⟨rb, -⟩ := reachable_rep_of_list hr hb hl
    obtain ⟨l, ra, -⟩ := reachable_rep hr ha
    obtain ⟨H, M, lc, hc, rbo, rc, hsnd, -, -, hsz, -⟩ :=
      assign_spec ra rb (inv.disj i j a b l lb hij ha hb ra rb)
    have hc2 : linked_hashmap.assign hash w.heap a b (decide (i = j)) = .ok (H, M) := by
      rw [decide_eq_false hij]
      exact hc
    refine ⟨H, M, lc, hc2, to_list_spec rbo, hsz, to_list_spec rc, hsnd, ?_⟩
    intro hk key
    have hr2 : Reachable hash equal ⟨H, w.maps.set i M⟩ := Reachable.assign hr ha hb hc2
    have hi : i < w.maps.length := by
      by_contra h1
      rw [List.getElem?_eq_none (Nat.le_of_not_lt h1)] at ha
      cases ha
    have hM : (World.mk H (w.maps.set i M)).maps[i]? = some M := by
      simp [hi]
    have hd := (reachable_rep_of_list hr2 hM (to_list_spec rc)).2 hk.hash_eq
    have hkeys : ∀ k : K, (∃ e ∈ lc, equal e.2.1 k = true) ↔ ∃ e ∈ lb, equal e.2.1 k = true := by
      intro k
      have h1 : ∀ l1 : List (Nat × (K × V)),
          (∃ e ∈ l1, equal e.2.1 k = true) ↔ ∃ x ∈ l1.map Prod.snd, equal x.1 k = true := by
        intro l1
        simp only [List.mem_map]
        constructor
        · rintro ⟨e, he, h2⟩
          exact ⟨e.2, ⟨e, he, rfl⟩, h2⟩
        · rintro ⟨x, ⟨e, he, rfl⟩, h2⟩
          exact ⟨e, he, h2⟩
      rw [h1 lc, h1 lb, hsnd]
    rw [find_of_lookup rc]
    refine ⟨_, rfl, ?_⟩
    rw [← hkeys key]
    cases hs : spec_lookup hash equal M.capacity lc key with
    | none =>
      simp only [linked_hashmap.end_, ne_eq, not_true_eq_false, false_iff]
      rintro ⟨e, he, h2⟩
      rw [spec_lookup_present hk hd he h2] at hs
      cases hs
    | some e =>
      have h2 := spec_lookup_mem hs
      have h3 : e.1 ≠ linked_hashmap.end_ M := (rc.order.node_ne (List.mem_map_of_mem _ h2.1)).2.1
      exact ⟨fun _ => ⟨e, h2.1, h2.2⟩, fun _ => h3⟩
  · intro hij
    rw [decide_eq_true hij]
    rfl

/-- The scenario of C15 on the maps holding (1, a), (2, b) and (9, z): after the
assignment of the second to the first the first holds (9, z) alone, on the node 7. -/
theorem assign_copies_witness :
    (demo_pair.maps[0]? = some demo_two_map ∧ demo_pair.maps[1]? = some demo_pair_map ∧
      linked_hashmap.to_list demo_pair.heap demo_two_map =
        .ok [(2, (1, 'a')), (3, (2, 'b'))] ∧
      linked_hashmap.to_list demo_pair.heap demo_pair_map = .ok [(6, (9, 'z'))]) ∧
    (linked_hashmap.assign nat_hash demo_pair.heap demo_two_map demo_pair_map
        (decide (0 = 1))).map
      (fun r => (linked_hashmap.to_list r.1 r.2, linked_hashmap.to_list r.1 demo_pair_map,
        linked_hashmap.find nat_hash nat_equal r.1 r.2 9,
        linked_hashmap.find nat_hash nat_equal r.1 r.2 1, linked_hashmap.end_ r.2)) =
      .ok (.ok [(7, (9, 'z'))], .ok [(6, (9, 'z'))], .ok 7, .ok 1, 1) ∧
    (∃ H M la, linked_hashmap.assign nat_hash demo_pair.heap demo_two_map demo_pair_map
        (decide (0 = 1)) = .ok (H, M) ∧
      linked_hashmap.to_list H demo_pair_map = .ok [(6, (9, 'z'))] ∧
      linked_hashmap.size M = linked_hashmap.size demo_pair_map ∧
      linked_hashmap.to_list H M = .ok la ∧
      la.map Prod.snd = [(6, ((9 : Nat), 'z'))].map Prod.snd ∧
      (KeyLaws nat_hash nat_equal → ∀ key, ∃ c,
        linked_hashmap.find nat_hash nat_equal H M key = .ok c ∧
        (c ≠ linked_hashmap.end_ M ↔
          ∃ e ∈ [(6, ((9 : Nat), 'z'))], nat_equal e.2.1 key = true))) ∧
    KeyLaws nat_hash nat_equal ∧
    linked_hashmap.assign nat_hash demo_pair.heap demo_two_map demo_two_map
      (decide (0 = 0)) = .ok (demo_pair.heap, demo_two_map) :=
  ⟨⟨by decide, by decide, rfl, rfl⟩, rfl,
    (@assign_copies Nat Char _ nat_hash nat_equal demo_pair 0 1 demo_two_map demo_pair_map
      [(6, (9, 'z'))] demo_pair_reachable (by decide) (by decide) rfl).1 (by decide),
    nat_key_laws,
    (@assign_copies Nat Char _ nat_hash nat_equal demo_pair 0 0 demo_two_map demo_two_map
      [(2, (1, 'a')), (3, (2, 'b'))] demo_pair_reachable (by decide) (by decide) rfl).2 rfl⟩

/-- C16: for a map `s` of a reachable state with `n` entries there is an exponent `k`,
the least one with `4 * n < 3 * (10 * 2 ^ k)`, such that the copy constructed from
`s` has capacity `10 * 2 ^ k`, and so has every other map after the assignment of `s`
to it when `n` is not 0; the copy and the assigned map have size `n` and satisfy
`4 * size ≤ 3 * capacity`. -/
theorem copy_capacity [Inhabited V] {hash : K → Nat} {equal : K → K → Bool}
    {w : World K V} {j : Nat} {s : linked_hashmap}
    (hr : Reachable hash equal w) (hs : w.maps[j]? = some s) :
    ∃ k, 4 * linked_hashmap.size s < 3 * (10 * 2 ^ k) ∧
      (∀ k1, 4 * linked_hashmap.size s < 3 * (10 * 2 ^ k1) → k ≤ k1) ∧
      (∃ H M, linked_hashmap.copy_construct hash w.heap s = .ok (H, M) ∧
        M.capacity = 10 * 2 ^ k ∧ linked_hashmap.size M = linked_hashmap.size s ∧
        4 * linked_hashmap.size M ≤ 3 * M.capacity) ∧
      (∀ (i : Nat) (a : linked_hashmap), w.maps[i]? = some a → i ≠ j →
        linked_hashmap.size s ≠ 0 →
        ∃ H M, linked_hashmap.assign hash w.heap a s (decide (i = j)) = .ok (H, M) ∧
          M.capacity = 10 * 2 ^ k ∧ linked_hashmap.size M = linked_hashmap.size s ∧
          4 * linked_hashmap.size M ≤ 3 * M.capacity) := by
  have inv := reachable_inv hr
  obtain ⟨ls, rs, -⟩ := reachable_rep hr hs
  obtain ⟨k, hk, hlt, hmin⟩ := grow_capacity_form s.sizee
  refine ⟨k, hlt, hmin, ?_, ?_⟩
  · obtain ⟨H, map1, lc, c, hc, hg, -⟩ := copy_construct_spec rs
    rw [hk] at hg
    cases hg
    exact ⟨H, _, hc, rfl, rfl, Nat.le_of_lt hlt⟩
  · intro i a ha hij hn
    obtain ⟨la, ra, -⟩ := reachable_rep hr ha
    obtain ⟨H, M, lc, hc, -, -, -, -, -, hsz, -, hg, -⟩ :=
      assign_spec ra rs (inv.disj i j a s la ls hij ha hs ra rs)
    have hg2 := hg hn
    rw [hk] at hg2
    have hcap : M.capacity = 10 * 2 ^ k := (Except.ok.inj hg2).symm
    refine ⟨H, M, ?_, hcap, hsz, ?_⟩
    · rw [decide_eq_false hij]
      exact hc
    · show 4 * M.sizee ≤ 3 * M.capacity
      rw [hsz, hcap]
      exact Nat.le_of_lt hlt

/-- The scenario of C16 on the map holding the keys 0, ..., 7 with capacity 10: its
copy has capacity 20, the least `10 * 2 ^ k` with `4 * 8 < 3 * (10 * 2 ^ k)`. -/
theorem copy_capacity_witness :
    demo_eight.maps[0]? = some demo_eight_map ∧ demo_eight_map.capacity = 10 ∧
    (linked_hashmap.copy_construct nat_hash demo_eight.heap demo_eight_map).map
      (fun r => (r.2.capacity, r.2.sizee)) = .ok (20, 8) ∧
    ∃ k, 4 * linked_hashmap.size demo_eight_map < 3 * (10 * 2 ^ k) ∧
      (∀ k1, 4 * linked_hashmap.size demo_eight_map < 3 * (10 * 2 ^ k1) → k ≤ k1) ∧
      (∃ H M, linked_hashmap.copy_construct nat_hash demo_eight.heap demo_eight_map =
          .ok (H, M) ∧
        M.capacity = 10 * 2 ^ k ∧
        linked_hashmap.size M = linked_hashmap.size demo_eight_map ∧
        4 * linked_hashmap.size M ≤ 3 * M.capacity) ∧
      (∀ (i : Nat) (a : linked_hashmap), demo_eight.maps[i]? = some a → i ≠ 0 →
        linked_hashmap.size demo_eight_map ≠ 0 →
        ∃ H M, linked_hashmap.assign nat_hash demo_eight.heap a demo_eight_map
            (decide (i = 0)) = .ok (H, M) ∧
          M.capacity = 10 * 2 ^ k ∧
          linked_hashmap.size M = linked_hashmap.size demo_eight_map ∧
          4 * linked_hashmap.size M ≤ 3 * M.capacity) :=
  ⟨by decide, rfl, rfl,
    @copy_capacity Nat Int _ nat_hash nat_equal demo_eight 0 demo_eight_map
      demo_eight_reachable (by decide)⟩

/-- C17: on a reachable map the nodes of the order list are pairwise distinct and each
falls into a bucket below the capacity; the walk along the chain of each bucket `b`
below the capacity returns, visits no node twice and visits exactly the nodes of the
order list whose key has `hash key % capacity = b` (the latest linked first); so a
node of the order list occurs once in the chain of its own bucket and in no other. -/
theorem index_matches_order [Inhabited V] {hash : K → Nat} {equal : K → K → Bool}
    {w : World K V} {i : Nat} {m : linked_hashmap} {l : List (Nat × (K × V))}
    (hr : Reachable hash equal w) (hm : w.maps[i]? = some m)
    (hl : linked_hashmap.to_list w.heap m = .ok l) :
    (l.map Prod.fst).Nodup ∧ m.map.length = m.capacity ∧
    (∀ e ∈ l, hash e.2.1 % m.capacity < m.capacity) ∧
    ∀ b, b < m.capacity → ∃ ch, linked_hashmap.bucket_chain w.heap m b = .ok ch ∧
      ch = ((l.filter (fun e => hash e.2.1 % m.capacity == b)).map Prod.fst).reverse ∧
      ch.Nodup ∧ (∀ x ∈ ch, x ∈ l.map Prod.fst) ∧
      ∀ e ∈ l, (e.1 ∈ ch ↔ b = hash e.2.1 % m.capacity) ∧
        ch.count e.1 = if b = hash e.2.1 % m.capacity then 1 else 0 := by
  obtain ⟨r, -⟩ := reachable_rep_of_list hr hm hl
  have hn := r.order.nodup_nodes
  refine ⟨hn, r.map_len, fun e _ => Nat.mod_lt _ r.cap_pos, ?_⟩
  intro b hb
  have hnd := nodup_bucket_nodes hash m.capacity b hn
  refine ⟨_, bucket_chain_spec r hb, rfl, hnd, ?_, ?_⟩
  · intro x hx
    obtain ⟨e, he, -, rfl⟩ := (mem_bucket_nodes hash m.capacity b l x).1 hx
    exact List.mem_map_of_mem _ he
  · intro e he
    have hiff : e.1 ∈ ((l.filter (fun e => hash e.2.1 % m.capacity == b)).map Prod.fst).reverse ↔
        b = hash e.2.1 % m.capacity := by
      rw [mem_bucket_nodes]
      constructor
      · rintro ⟨x, hx, h1, h2⟩
        have := List.inj_on_of_nodup_map hn hx he h2
        rw [← this]
        exact h1.symm
      · intro h1
        exact ⟨e, he, h1.symm, rfl⟩
    refine ⟨hiff, ?_⟩
    by_cases h1 : b = hash e.2.1 % m.capacity
    · rw [if_pos h1]
      exact List.count_eq_one_of_mem hnd (hiff.2 h1)
    · rw [if_neg h1]
      exact List.count_eq_zero_of_not_mem (fun h2 => h1 (hiff.1 h2))

/-- The scenario of C17 on the map holding (1, a), (2, b), (11, c) with capacity 10:
the chain of bucket 1 holds the nodes of the keys 11 and 1, that of bucket 2 the node
of the key 2. -/
theorem index_matches_order_witness :
    (demo_collide.maps[0]? = some demo_collide_map ∧
      linked_hashmap.to_list demo_collide.heap demo_collide_map =
        .ok [(2, (1, 'a')), (3, (2, 'b')), (4, (11, 'c'))]) ∧
    linked_hashmap.bucket_chain demo_collide.heap demo_collide_map 1 = .ok [4, 2] ∧
    linked_hashmap.bucket_chain demo_collide.heap demo_collide_map 2 = .ok [3] ∧
    linked_hashmap.bucket_chain demo_collide.heap demo_collide_map 3 = .ok [] ∧
    ([(2, ((1 : Nat), 'a')), (3, (2, 'b')), (4, (11, 'c'))].map Prod.fst).Nodup ∧
    demo_collide_map.map.length = demo_collide_map.capacity ∧
    (∀ e ∈ [(2, ((1 : Nat), 'a')), (3, (2, 'b')), (4, (11, 'c'))],
      nat_hash e.2.1 % demo_collide_map.capacity < demo_collide_map.capacity) ∧
    ∀ b, b < demo_collide_map.capacity →
      ∃ ch, linked_hashmap.bucket_chain demo_collide.heap demo_collide_map b = .ok ch ∧
        ch = (([(2, ((1 : Nat), 'a')), (3, (2, 'b')), (4, (11, 'c'))].filter
          (fun e => nat_hash e.2.1 % demo_collide_map.capacity == b)).map Prod.fst).reverse ∧
        ch.Nodup ∧
        (∀ x ∈ ch, x ∈ [(2, ((1 : Nat), 'a')), (3, (2, 'b')), (4, (11, 'c'))].map Prod.fst) ∧
        ∀ e ∈ [(2, ((1 : Nat), 'a')), (3, (2, 'b')), (4, (11, 'c'))],
          (e.1 ∈ ch ↔ b = nat_hash e.2.1 % demo_collide_map.capacity) ∧
          ch.count e.1 = if b = nat_hash e.2.1 % demo_collide_map.capacity then 1 else 0 :=
  ⟨⟨by decide, rfl⟩, rfl, rfl, rfl,
    @index_matches_order Nat Char _ nat_hash nat_equal demo_collide 0 demo_collide_map
      [(2, (1, 'a')), (3, (2, 'b')), (4, (11, 'c'))]
      (reachable_put demo_two_reachable 0 (11, 'c')) (by decide) rfl⟩

/-- C18: on a reachable map, when `equal` is an equivalence and equal keys hash
equally, the keys of two entries at different positions of the iteration sequence do
not compare equal; and the walk along the chain of each bucket returns and the keys
held by two nodes at different positions of the chain do not compare equal. -/
theorem no_duplicate_keys [Inhabited V] {hash : K → Nat} {equal : K → K → Bool}
    (hk : KeyLaws hash equal) {w : World K V} {i : Nat} {m : linked_hashmap}
    {l : List (Nat × (K × V))} (hr : Reachable hash equal w) (hm : w.maps[i]? = some m)
    (hl : linked_hashmap.to_list w.heap m = .ok l) :
    (∀ (p q : Nat) (x y : Nat × (K × V)), l[p]? = some x → l[q]? = some y → p ≠ q →
      equal x.2.1 y.2.1 = false) ∧
    ∀ b, b < m.capacity → ∃ ch, linked_hashmap.bucket_chain w.heap m b = .ok ch ∧
      ∀ (p q x y : Nat), ch[p]? = some x → ch[q]? = some y → p ≠ q →
        ∃ ex ey, w.heap.entry (some x) = .ok ex ∧ w.heap.entry (some y) = .ok ey ∧
          equal ex.1 ey.1 = false := by
  obtain ⟨r, hd⟩ := reachable_rep_of_list hr hm hl
  have hdist : l.Pairwise (fun a b => equal a.2.1 b.2.1 = false) := hd hk.hash_eq
  have hn := r.order.nodup_nodes
  have hsym : Symmetric (fun a b : Nat × (K × V) => equal a.2.1 b.2.1 = false) := by
    intro a b hab
    cases hba : equal b.2.1 a.2.1 with
    | false => rfl
    | true =>
      have := hk.symm _ _ hba
      rw [this] at hab
      cases hab
  have hall : ∀ x ∈ l, ∀ y ∈ l, x.1 ≠ y.1 → equal x.2.1 y.2.1 = false := by
    intro x hx y hy hne
    exact hdist.forall hsym hx hy (fun h1 => hne (by rw [h1]))
  refine ⟨?_, ?_⟩
  · intro p q x y hp hq hpq
    obtain ⟨hp1, hp2⟩ := List.getElem?_eq_some_iff.1 hp
    obtain ⟨hq1, hq2⟩ := List.getElem?_eq_some_iff.1 hq
    have hx : x ∈ l := hp2 ▸ List.getElem_mem hp1
    have hy : y ∈ l := hq2 ▸ List.getElem_mem hq1
    apply hall x hx y hy
    intro h1
    apply hpq
    have h2 : (l.map Prod.fst)[p]? = (l.map Prod.fst)[q]? := by
      rw [List.getElem?_map, List.getElem?_map, hp, hq]
      simp [h1]
    have h3 : p < (l.map Prod.fst).length := by simpa using hp1
    have h4 : q < (l.map Prod.fst).length := by simpa using hq1
    rw [List.getElem?_eq_getElem h3, List.getElem?_eq_getElem h4] at h2
    exact (List.Nodup.getElem_inj_iff hn).1 (Option.some.inj h2)
  · intro b hb
    have hnd := nodup_bucket_nodes hash m.capacity b hn
    refine ⟨_, bucket_chain_spec r hb, ?_⟩
    intro p q x y hp hq hpq
    obtain ⟨hp1, hp2⟩ := List.getElem?_eq_some_iff.1 hp
    obtain ⟨hq1, hq2⟩ := List.getElem?_eq_some_iff.1 hq
    have hx := hp2 ▸ List.getElem_mem hp1
    have hy := hq2 ▸ List.getElem_mem hq1
    obtain ⟨ex, hex, -, hx1⟩ := (mem_bucket_nodes hash m.capacity b l x).1 hx
    obtain ⟨ey, hey, -, hy1⟩ := (mem_bucket_nodes hash m.capacity b l y).1 hy
    refine ⟨ex.2, ey.2, ?_, ?_, ?_⟩
    · rw [← hx1]
      exact entry_of_mem r hex
    · rw [← hy1]
      exact entry_of_mem r hey
    · apply hall ex hex ey hey
      rw [hx1, hy1]
      intro h1
      apply hpq
      rw [← hp2, ← hq2] at h1
      exact (List.Nodup.getElem_inj_iff hnd).1 h1

/-- The scenario of C18 on the map holding (1, a), (2, b), (11, c): the keys 1, 2 and 11
are pairwise unequal, and so are the keys 11 and 1 held by the chain of bucket 1. -/
theorem no_duplicate_keys_witness :
    (KeyLaws nat_hash nat_equal ∧ demo_collide.maps[0]? = some demo_collide_map ∧
      linked_hashmap.to_list demo_collide.heap demo_collide_map =
        .ok [(2, (1, 'a')), (3, (2, 'b')), (4, (11, 'c'))]) ∧
    linked_hashmap.bucket_chain demo_collide.heap demo_collide_map 1 = .ok [4, 2] ∧
    demo_collide.heap.entry (some 4) = .ok (11, 'c') ∧
    demo_collide.heap.entry (some 2) = .ok (1, 'a') ∧
    (∀ (p q : Nat) (x y : Nat × (Nat × Char)),
      [(2, ((1 : Nat), 'a')), (3, (2, 'b')), (4, (11, 'c'))][p]? = some x →
      [(2, ((1 : Nat), 'a')), (3, (2, 'b')), (4, (11, 'c'))][q]? = some y → p ≠ q →
      nat_equal x.2.1 y.2.1 = false) ∧
    ∀ b, b < demo_collide_map.capacity →
      ∃ ch, linked_hashmap.bucket_chain demo_collide.heap demo_collide_map b = .ok ch ∧
        ∀ (p q x y : Nat), ch[p]? = some x → ch[q]? = some y → p ≠ q →
          ∃ ex ey, demo_collide.heap.entry (some x) = .ok ex ∧
            demo_collide.heap.entry (some y) = .ok ey ∧ nat_equal ex.1 ey.1 = false :=
  ⟨⟨nat_key_laws, by decide, rfl⟩, rfl, rfl, rfl,
    @no_duplicate_keys Nat Char _ nat_hash nat_equal nat_key_laws demo_collide 0
      demo_collide_map [(2, (1, 'a')), (3, (2, 'b')), (4, (11, 'c'))]
      (reachable_put demo_two_reachable 0 (11, 'c')) (by decide) rfl⟩

/-- C19: in every reachable state the capacity of a map is positive and
`4 * size < 3 * capacity + 4`; and when `insert` or `operator[]` has found the key
absent, the growth step before the linking returns with the old or the doubled
capacity and `4 * size < 3 * capacity` holds for it when the new node is linked. -/
theorem load_invariant [Inhabited V] {hash : K → Nat} {equal : K → K → Bool}
    {w : World K V} {i : Nat} {m : linked_hashmap}
    (hr : Reachable hash equal w) (hm : w.maps[i]? = some m) :
    (0 < m.capacity ∧ 4 * linked_hashmap.size m < 3 * m.capacity + 4) ∧
    (∀ value : K × V, linked_hashmap.lookup hash equal w.heap m value.1 = .ok none →
      ∃ h1 m1 h2 map2 p,
        (if 3 * m.capacity ≤ 4 * m.sizee then linked_hashmap.doublespace hash w.heap m
          else .ok (w.heap, m)) = .ok (h1, m1) ∧
        m1.sizee = m.sizee ∧ (m1.capacity = m.capacity ∨ m1.capacity = m.capacity * 2) ∧
        4 * m1.sizee < 3 * m1.capacity ∧
        linked_hashmap.link_new hash h1 m1.capacity m1.tail m1.map value = .ok (h2, map2, p) ∧
        linked_hashmap.insert hash equal w.heap m value =
          .ok (h2, { m1 with map := map2, sizee := m1.sizee + 1 }, (p, true))) ∧
    (∀ key : K, linked_hashmap.lookup hash equal w.heap m key = .ok none →
      ∃ h1 m1 h2 map2 p,
        (if 3 * m.capacity ≤ 4 * m.sizee then linked_hashmap.doublespace hash w.heap m
          else .ok (w.heap, m)) = .ok (h1, m1) ∧
        m1.sizee = m.sizee ∧ (m1.capacity = m.capacity ∨ m1.capacity = m.capacity * 2) ∧
        4 * m1.sizee < 3 * m1.capacity ∧
        linked_hashmap.link_new hash h1 m1.capacity m1.tail m1.map (key, default) =
          .ok (h2, map2, p) ∧
        linked_hashmap.subscript hash equal w.heap m key =
          .ok (h2, { m1 with map := map2, sizee := m1.sizee + 1 }, (p, default))) := by
  have inv := reachable_inv hr
  obtain ⟨l, r, -⟩ := reachable_rep hr hm
  have hload := inv.load i m hm
  refine ⟨⟨r.cap_pos, hload.2⟩, ?_, ?_⟩
  · intro value hlk
    obtain ⟨h1, m1, hc, r1, hs, hb, hcap, hlt⟩ := reserve_spec r hload
    obtain ⟨h2, map2, hln, -, -, -⟩ := link_new_spec r1 value
    refine ⟨h1, m1, h2, map2, h1.brk, hc, hs, hcap, hlt, hln, ?_⟩
    simp only [linked_hashmap.insert, hlk, linked_hashmap.insert_new, hc, hln]
  · intro key hlk
    obtain ⟨h1, m1, hc, r1, hs, hb, hcap, hlt⟩ := reserve_spec r hload
    obtain ⟨h2, map2, hln, r2, -, -⟩ := link_new_spec r1 (key, (default : V))
    refine ⟨h1, m1, h2, map2, h1.brk, hc, hs, hcap, hlt, hln, ?_⟩
    have hcell := r2.order.cells l (h1.brk, (key, (default : V))) [] rfl
    simp only [linked_hashmap.subscript, hlk, linked_hashmap.insert_new, hc, hln, Heap.entry,
      Heap.read, hcell]

/-- The scenario of C19 on the map holding the keys 0, ..., 7 with capacity 10: its
size 8 is within one entry of the threshold, and the insertion of the key 8 doubles
the capacity to 20 before it links the node. -/
theorem load_invariant_witness :
    demo_eight.maps[0]? = some demo_eight_map ∧
    linked_hashmap.size demo_eight_map = 8 ∧ demo_eight_map.capacity = 10 ∧
    (linked_hashmap.insert nat_hash nat_equal demo_eight.heap demo_eight_map (8, 0)).map
      (fun r => (r.2.1.capacity, r.2.1.sizee, r.2.2)) = .ok (20, 9, (10, true)) ∧
    ((0 < demo_eight_map.capacity ∧
        4 * linked_hashmap.size demo_eight_map < 3 * demo_eight_map.capacity + 4) ∧
      (∀ value : Nat × Int,
        linked_hashmap.lookup nat_hash nat_equal demo_eight.heap demo_eight_map value.1 =
          .ok none →
        ∃ h1 m1 h2 map2 p,
          (if 3 * demo_eight_map.capacity ≤ 4 * demo_eight_map.sizee then
              linked_hashmap.doublespace nat_hash demo_eight.heap demo_eight_map
            else .ok (demo_eight.heap, demo_eight_map)) = .ok (h1, m1) ∧
          m1.sizee = demo_eight_map.sizee ∧
          (m1.capacity = demo_eight_map.capacity ∨
            m1.capacity = demo_eight_map.capacity * 2) ∧
          4 * m1.sizee < 3 * m1.capacity ∧
          linked_hashmap.link_new nat_hash h1 m1.capacity m1.tail m1.map value =
            .ok (h2, map2, p) ∧
          linked_hashmap.insert nat_hash nat_equal demo_eight.heap demo_eight_map value =
            .ok (h2, { m1 with map := map2, sizee := m1.sizee + 1 }, (p, true)))) :=
  ⟨by decide, rfl, rfl, rfl,
    (@load_invariant Nat Int _ nat_hash nat_equal demo_eight 0 demo_eight_map
      demo_eight_reachable (by decide)).1,
    (@load_invariant Nat Int _ nat_hash nat_equal demo_eight 0 demo_eight_map
      demo_eight_reachable (by decide)).2.1⟩

/-- C20: on a reachable map, from the cursor of an entry `++` and then `--` both return
normally and lead back to it; from every cursor other than `begin()` (`end()`
included) `--` and then `++` both return normally and lead back to it; and the walk
from `end()` backwards visits the entries of the forward walk in reverse order. -/
theorem cursor_round_trip [Inhabited V] {hash : K → Nat} {equal : K → K → Bool}
    {w : World K V} {i : Nat} {m : linked_hashmap} {l : List (Nat × (K × V))}
    (hr : Reachable hash equal w) (hm : w.maps[i]? = some m)
    (hl : linked_hashmap.to_list w.heap m = .ok l) :
    (∀ c ∈ l.map Prod.fst, ∃ n, iterator.pre_incr w.heap c = .ok (n, n) ∧
      iterator.pre_decr w.heap n = .ok (c, c)) ∧
    (∃ b, linked_hashmap.begin w.heap m = .ok b ∧
      ∀ c, (c = linked_hashmap.end_ m ∨ c ∈ l.map Prod.fst) → c ≠ b →
        ∃ p, iterator.pre_decr w.heap c = .ok (p, p) ∧
          iterator.pre_incr w.heap p = .ok (c, c)) ∧
    linked_hashmap.to_list_back w.heap m = .ok l.reverse := by
  obtain ⟨r, -⟩ := reachable_rep_of_list hr hm hl
  refine ⟨?_, ⟨first_addr l m.tail, ?_, ?_⟩, to_list_back_spec r⟩
  · intro c hc
    rw [List.mem_map] at hc
    obtain ⟨e, he, rfl⟩ := hc
    obtain ⟨pre, post, hs⟩ := List.append_of_mem he
    have h1 := incr_live r.order hs
    have hs2 : l = (pre ++ [e]) ++ post := by simp [hs]
    have h2 := (decr_pos r.order hs2).2 (by simp)
    rw [last_addr_concat] at h2
    exact ⟨_, h1.1, h2.1⟩
  · simp only [linked_hashmap.begin, Heap.read, r.order.head_cell]
  · intro c hc hne
    obtain ⟨pre, post, hs, rfl⟩ := @cursor_split K V l m.tail _ hc
    have hp : pre ≠ [] := fun hp => hne ((pos_eq_begin_iff r.order hs).2 hp)
    obtain ⟨p, x, rfl⟩ := ne_nil_snoc hp
    have h1 := (decr_pos r.order hs).2 hp
    rw [last_addr_concat] at h1
    have hs2 : l = p ++ x :: post := by simp [hs]
    have h2 := incr_live r.order hs2
    exact ⟨_, h1.1, h2.1⟩

/-- The scenario of C20 on the map holding (1, a), (2, b): the backward walk yields
(2, b) and then (1, a). -/
theorem cursor_round_trip_witness :
    (demo_two.maps[0]? = some demo_two_map ∧
      linked_hashmap.to_list demo_two.heap demo_two_map = .ok [(2, (1, 'a')), (3, (2, 'b'))]) ∧
    linked_hashmap.to_list_back demo_two.heap demo_two_map =
      .ok [(3, (2, 'b')), (2, (1, 'a'))] ∧
    (∀ c ∈ [(2, ((1 : Nat), 'a')), (3, (2, 'b'))].map Prod.fst,
      ∃ n, iterator.pre_incr demo_two.heap c = .ok (n, n) ∧
        iterator.pre_decr demo_two.heap n = .ok (c, c)) ∧
    ∃ b, linked_hashmap.begin demo_two.heap demo_two_map = .ok b ∧
      ∀ c, (c = linked_hashmap.end_ demo_two_map ∨
          c ∈ [(2, ((1 : Nat), 'a')), (3, (2, 'b'))].map Prod.fst) → c ≠ b →
        ∃ p, iterator.pre_decr demo_two.heap c = .ok (p, p) ∧
          iterator.pre_incr demo_two.heap p = .ok (c, c) :=
  ⟨⟨by decide, rfl⟩,
    (@cursor_round_trip Nat Char _ nat_hash nat_equal demo_two 0 demo_two_map
      [(2, (1, 'a')), (3, (2, 'b'))] demo_two_reachable (by decide) rfl).2.2,
    (@cursor_round_trip Nat Char _ nat_hash nat_equal demo_two 0 demo_two_map
      [(2, (1, 'a')), (3, (2, 'b'))] demo_two_reachable (by decide) rfl).1,
    (@cursor_round_trip Nat Char _ nat_hash nat_equal demo_two 0 demo_two_map
      [(2, (1, 'a')), (3, (2, 'b'))] demo_two_reachable (by decide) rfl).2.1⟩

end model

end sjtu
